import Mathlib

/-!
# Postfix-AST: infix → postfix → AST pipeline

A shallow embedding of the three cooperating components of the repository

* `InfixToPostfix`  (src/InfixToPostfix.cpp): the shunting-yard converter,
* `PostfixToAST`    (src/PostfixToAST.cpp): token classification and the stack builder,
* `ASTNode`         (src/AST_NODE.cpp): the tree, its evaluation, its serialisation and
  the collection of its variables,

followed by theorems about them.

Conventions of the embedding.

* `std::string` is a list of characters (`Str`); a literal is written `"a b +".toList`.
* `std::stack<T>` is a list whose head is the top of the stack.
* A C++ `throw` is an `Except.error` carrying a constructor that names the thrown message.
* `double` and the C/C++ library routines working on it (`std::stod`, `operator<<`,
  `std::pow`, `std::sin`, ...) are not code of the repository: they are a parameter
  `DoubleOps V` of every definition that touches a number.
-/

set_option autoImplicit false

/-- A `std::string`, as its sequence of characters. -/
abbrev Str := List Char

deriving instance DecidableEq for Except

/-! ## Character classes of `<cctype>` (the "C" locale) -/

/-- `std::isdigit`: `'0'..'9'`. -/
def isDigitC (c : Char) : Bool := 48 ≤ c.toNat && c.toNat ≤ 57

/-- `std::isalpha`: `'A'..'Z'` and `'a'..'z'`. -/
def isAlphaC (c : Char) : Bool :=
  (65 ≤ c.toNat && c.toNat ≤ 90) || (97 ≤ c.toNat && c.toNat ≤ 122)

/-- `std::isalnum`: `std::isalpha` or `std::isdigit`. -/
def isAlnumC (c : Char) : Bool := isAlphaC c || isDigitC c

/-- `std::isspace`: the characters at which `operator>>` splits (space, `\t`, `\n`, `\v`,
`\f`, `\r`). -/
def isSpaceC (c : Char) : Bool := c = ' ' || (9 ≤ c.toNat && c.toNat ≤ 13)

/-! ## InfixToPostfix (src/InfixToPostfix.cpp) -/

namespace InfixToPostfix

/-- The two ways `convertInfixToPostfix` throws, and the one way the model of its loop can
stop short. -/
inductive ConvError where
  /-- `throw "Mismatched parentheses"` -/
  | mismatchedParentheses
  /-- `throw std::runtime_error("Invalid character in expression")` -/
  | invalidCharacter
  /-- Not a C++ exception: `mainLoop` was given too little fuel.  `runLoop` never returns it
  (`runLoop_fuel_suffices`). -/
  | outOfFuel
  deriving DecidableEq, Repr

/-- The table built by `initPrecedence`, as an association list. -/
def precedence : List (Char × Nat) :=
  [('^', 4), ('*', 3), ('/', 3), ('%', 3), ('+', 2), ('-', 2), ('(', 1)]

/-- `isOp(c)`: `c` is a key of the table and is not `'('`. -/
def isOp (c : Char) : Bool := (precedence.lookup c).isSome && c != '('

/-- `isOperandChar(c)`: `std::isalnum(c)`. -/
def isOperandChar (c : Char) : Bool := isAlnumC c

/-- `prec(op)`: `precedence[op]`; `operator[]` on a missing key yields a value-initialised
`0`.  (The converter only calls `prec` on characters it pushed, all of them keys.) -/
def prec (op : Char) : Nat := (precedence.lookup op).getD 0

/-- The converter's mutable members: `opStack` (head = top) and `output`. -/
structure State where
  opStack : List Char
  output : Str
  deriving DecidableEq, Repr

/-- `handleOperator(op)`: pop and emit while the top has precedence `>=` that of `op`,
then push `op`. -/
def handleOperator (op : Char) : List Char → Str → State
  | [], output => ⟨[op], output⟩
  | top :: rest, output =>
    if prec top ≥ prec op then handleOperator op rest (output ++ [top, ' '])
    else ⟨op :: top :: rest, output⟩

/-- `handleRightParen()`: pop and emit until a `'('` is on top; throw if the stack runs
empty, otherwise discard the `'('`. -/
def handleRightParen : List Char → Str → Except ConvError State
  | [], _ => .error .mismatchedParentheses
  | top :: rest, output =>
    if top ≠ '(' then handleRightParen rest (output ++ [top, ' '])
    else .ok ⟨rest, output⟩

/-- The `for` loop of `convertInfixToPostfix` over the unread suffix of the input.
`fuel` bounds the number of iterations; every iteration consumes at least one character,
so `infix.length` iterations always suffice (`mainLoop_fuel`, `runLoop_fuel_suffices`).
The inner `while` that copies an operand run is `takeWhile`/`dropWhile`. -/
def mainLoop : Nat → Str → State → Except ConvError State
  | _, [], s => .ok s
  | 0, _ :: _, _ => .error .outOfFuel
  | fuel + 1, token :: rest, s =>
    if token = ' ' then mainLoop fuel rest s
    else if isOperandChar token then
      mainLoop fuel (rest.dropWhile isOperandChar)
        ⟨s.opStack, s.output ++ token :: rest.takeWhile isOperandChar ++ [' ']⟩
    else if token = '(' then mainLoop fuel rest ⟨token :: s.opStack, s.output⟩
    else if token = ')' then
      match handleRightParen s.opStack s.output with
      | .error e => .error e
      | .ok s1 => mainLoop fuel rest s1
    else if isOp token then mainLoop fuel rest (handleOperator token s.opStack s.output)
    else .error .invalidCharacter

/-- The final `while`: pop and emit what is left on the stack; a `'('` there throws. -/
def popRemaining : List Char → Str → Except ConvError Str
  | [], output => .ok output
  | top :: rest, output =>
    if top = '(' then .error .mismatchedParentheses
    else popRemaining rest (output ++ [top, ' '])

/-- The `for` loop run over `input` from the state `s`, with the fuel that always
suffices. -/
def runLoop (input : Str) (s : State) : Except ConvError State :=
  mainLoop input.length input s

/-- `convertInfixToPostfix(input)` (the members are reset on entry; the echo of the input
on `std::cout` is not part of the result). -/
def convertInfixToPostfix (input : Str) : Except ConvError Str :=
  match runLoop input ⟨[], []⟩ with
  | .error e => .error e
  | .ok s => popRemaining s.opStack s.output

end InfixToPostfix

/-! ## `double` and its library routines -/

/-- What the program uses of `double`: the library routines are parameters of the
embedding, so that a theorem stated for every `DoubleOps V` holds for IEEE doubles. -/
structure DoubleOps (V : Type) where
  /-- `std::stod(token)`; `none` when it throws (`std::out_of_range`). -/
  stod : Str → Option V
  /-- The text `ss << value` writes for a `double` (default format and precision). -/
  render : V → Str
  /-- `l + r` -/
  add : V → V → V
  /-- `l - r` -/
  sub : V → V → V
  /-- `l * r` -/
  mul : V → V → V
  /-- `l / r` -/
  div : V → V → V
  /-- `std::pow(l, r)` -/
  pow : V → V → V
  /-- `-v` -/
  neg : V → V
  /-- `std::sin` -/
  sin : V → V
  /-- `std::cos` -/
  cos : V → V
  /-- `std::sqrt` -/
  sqrt : V → V
  /-- `std::log` -/
  log : V → V
  /-- `std::exp` -/
  exp : V → V
  /-- `std::abs` -/
  abs : V → V
  /-- `v == 0` -/
  isZero : V → Bool
  /-- `v < 0` -/
  ltZero : V → Bool
  /-- `v <= 0` -/
  leZero : V → Bool

/-! ## ASTNode (src/AST_NODE.h, src/AST_NODE.cpp) -/

/-- `enum class OperatorType`. -/
inductive OperatorType where
  | ADD
  | SUBTRACT
  | MULTIPLY
  | DIVIDE
  | POWER
  | NEGATIVE
  | NONE
  deriving DecidableEq, Repr

/-- `class ASTNode`: the tag `type` together with the active member of the union.
`binaryOp` is what `createBinaryOp` builds, `unaryOp` what `createUnaryOp` builds (tag
`UNARY_OP`, operand in `op.left`, `op.right` null).  Children are non-null. -/
inductive ASTNode (V : Type) where
  | number (value : V)
  | variable (name : Str)
  | binaryOp (op : OperatorType) (left right : ASTNode V)
  | unaryOp (op : OperatorType) (operand : ASTNode V)
  | functionCall (functionName : Str) (arguments : List (ASTNode V))

namespace ASTNode
variable {V : Type}
mutual
/-- Structural equality of two trees is decidable. -/
def decEq [DecidableEq V] : (a b : ASTNode V) → Decidable (a = b)
  | .number v, .number w =>
    if h : v = w then isTrue (h ▸ rfl) else isFalse (fun h1 => h (number.inj h1))
  | .variable n, .variable m =>
    if h : n = m then isTrue (h ▸ rfl) else isFalse (fun h1 => h (variable.inj h1))
  | .binaryOp o l r, .binaryOp o1 l1 r1 =>
    if h : o = o1 then
      match decEq l l1, decEq r r1 with
      | isTrue hl, isTrue hr => isTrue (h ▸ hl ▸ hr ▸ rfl)
      | isFalse hl, _ => isFalse (fun h1 => hl (binaryOp.inj h1).2.1)
      | _, isFalse hr => isFalse (fun h1 => hr (binaryOp.inj h1).2.2)
    else isFalse (fun h1 => h (binaryOp.inj h1).1)
  | .unaryOp o l, .unaryOp o1 l1 =>
    if h : o = o1 then
      match decEq l l1 with
      | isTrue hl => isTrue (h ▸ hl ▸ rfl)
      | isFalse hl => isFalse (fun h1 => hl (unaryOp.inj h1).2)
    else isFalse (fun h1 => h (unaryOp.inj h1).1)
  | .functionCall f as, .functionCall g bs =>
    if h : f = g then
      match decEqList as bs with
      | isTrue hl => isTrue (h ▸ hl ▸ rfl)
      | isFalse hl => isFalse (fun h1 => hl (functionCall.inj h1).2)
    else isFalse (fun h1 => h (functionCall.inj h1).1)
  | .number _, .variable _ => isFalse nofun
  | .number _, .binaryOp _ _ _ => isFalse nofun
  | .number _, .unaryOp _ _ => isFalse nofun
  | .number _, .functionCall _ _ => isFalse nofun
  | .variable _, .number _ => isFalse nofun
  | .variable _, .binaryOp _ _ _ => isFalse nofun
  | .variable _, .unaryOp _ _ => isFalse nofun
  | .variable _, .functionCall _ _ => isFalse nofun
  | .binaryOp _ _ _, .number _ => isFalse nofun
  | .binaryOp _ _ _, .variable _ => isFalse nofun
  | .binaryOp _ _ _, .unaryOp _ _ => isFalse nofun
  | .binaryOp _ _ _, .functionCall _ _ => isFalse nofun
  | .unaryOp _ _, .number _ => isFalse nofun
  | .unaryOp _ _, .variable _ => isFalse nofun
  | .unaryOp _ _, .binaryOp _ _ _ => isFalse nofun
  | .unaryOp _ _, .functionCall _ _ => isFalse nofun
  | .functionCall _ _, .number _ => isFalse nofun
  | .functionCall _ _, .variable _ => isFalse nofun
  | .functionCall _ _, .binaryOp _ _ _ => isFalse nofun
  | .functionCall _ _, .unaryOp _ _ => isFalse nofun
/-- Structural equality of two argument lists is decidable. -/
def decEqList [DecidableEq V] : (as bs : List (ASTNode V)) → Decidable (as = bs)
  | [], [] => isTrue rfl
  | [], _ :: _ => isFalse nofun
  | _ :: _, [] => isFalse nofun
  | a :: as, b :: bs =>
    match decEq a b, decEqList as bs with
    | isTrue h, isTrue hs => isTrue (h ▸ hs ▸ rfl)
    | isFalse h, _ => isFalse (fun h1 => h (List.cons.inj h1).1)
    | _, isFalse hs => isFalse (fun h1 => hs (List.cons.inj h1).2)
end

instance [DecidableEq V] : DecidableEq (ASTNode V) := decEq
end ASTNode

/-- `VariableMap` (`std::unordered_map<std::string, double>`), as its lookup function. -/
abbrev VariableMap (V : Type) := Str → Option V

/-- The empty map `{}`. -/
def VariableMap.empty {V : Type} : VariableMap V := fun _ => none

/-- `varMap[name] = value`. -/
def VariableMap.assign {V : Type} (m : VariableMap V) (name : Str) (value : V) :
    VariableMap V :=
  fun k => if k = name then some value else m k

/-- The messages `ASTNode::evaluate` throws. -/
inductive EvalError where
  /-- "Undefined variable: " + name -/
  | undefinedVariable (name : Str)
  /-- "Division by zero" -/
  | divisionByZero
  /-- "Unknown binary operator" -/
  | unknownBinaryOperator
  /-- "Unknown unary operator" -/
  | unknownUnaryOperator
  /-- "Square root of negative number" -/
  | squareRootOfNegative
  /-- "Log of non-positive number" -/
  | logOfNonPositive
  /-- "Unknown function or wrong number of arguments: " + name -/
  | unknownFunction (name : Str)
  deriving DecidableEq, Repr

namespace ASTNode

variable {V : Type}

/-- `ASTNode::isUnaryOperator`. -/
def isUnaryOperator (op : OperatorType) : Bool := op = .NEGATIVE

/-- `ASTNode::getPrecedence`. -/
def getPrecedence : OperatorType → Nat
  | .POWER => 4
  | .NEGATIVE => 3
  | .MULTIPLY => 2
  | .DIVIDE => 2
  | .ADD => 1
  | .SUBTRACT => 1
  | .NONE => 0

/-- `ASTNode::opToString`. -/
def opToString : OperatorType → Str
  | .ADD => ['+']
  | .SUBTRACT => ['-']
  | .MULTIPLY => ['*']
  | .DIVIDE => ['/']
  | .POWER => ['^']
  | .NEGATIVE => ['-']
  | .NONE => ['?']

/-- The switch on `op.op` of the `BINARY_OP` case of `evaluate`. -/
def applyBinary (ops : DoubleOps V) (op : OperatorType) (leftVal rightVal : V) :
    Except EvalError V :=
  match op with
  | .ADD => .ok (ops.add leftVal rightVal)
  | .SUBTRACT => .ok (ops.sub leftVal rightVal)
  | .MULTIPLY => .ok (ops.mul leftVal rightVal)
  | .DIVIDE =>
    if ops.isZero rightVal then .error .divisionByZero else .ok (ops.div leftVal rightVal)
  | .POWER => .ok (ops.pow leftVal rightVal)
  | _ => .error .unknownBinaryOperator

/-- The switch on `op.op` of the `UNARY_OP` case of `evaluate`. -/
def applyUnary (ops : DoubleOps V) (op : OperatorType) (val : V) : Except EvalError V :=
  match op with
  | .NEGATIVE => .ok (ops.neg val)
  | _ => .error .unknownUnaryOperator

/-- The `if`/`else if` chain of the `FUNCTION_CALL` case of `evaluate`. -/
def applyFunction (ops : DoubleOps V) (funcName : Str) (args : List V) :
    Except EvalError V :=
  match args with
  | [a] =>
    if funcName = "sin".toList then .ok (ops.sin a)
    else if funcName = "cos".toList then .ok (ops.cos a)
    else if funcName = "sqrt".toList then
      if ops.ltZero a then .error .squareRootOfNegative else .ok (ops.sqrt a)
    else if funcName = "log".toList then
      if ops.leZero a then .error .logOfNonPositive else .ok (ops.log a)
    else if funcName = "exp".toList then .ok (ops.exp a)
    else if funcName = "abs".toList then .ok (ops.abs a)
    else .error (.unknownFunction funcName)
  | _ => .error (.unknownFunction funcName)

mutual
/-- `ASTNode::evaluate(const VariableMap&)`. -/
def evaluate (ops : DoubleOps V) (varMap : VariableMap V) :
    ASTNode V → Except EvalError V
  | .number value => .ok value
  | .variable name =>
    match varMap name with
    | some v => .ok v
    | none => .error (.undefinedVariable name)
  | .binaryOp op left right =>
    match evaluate ops varMap left with
    | .error e => .error e
    | .ok leftVal =>
      match evaluate ops varMap right with
      | .error e => .error e
      | .ok rightVal => applyBinary ops op leftVal rightVal
  | .unaryOp op operand =>
    match evaluate ops varMap operand with
    | .error e => .error e
    | .ok val => applyUnary ops op val
  | .functionCall funcName arguments =>
    match evaluateArgs ops varMap arguments with
    | .error e => .error e
    | .ok args => applyFunction ops funcName args
/-- The loop `for (arg : function.arguments) args.push_back(arg->evaluate(varMap))`. -/
def evaluateArgs (ops : DoubleOps V) (varMap : VariableMap V) :
    List (ASTNode V) → Except EvalError (List V)
  | [] => .ok []
  | arg :: rest =>
    match evaluate ops varMap arg with
    | .error e => .error e
    | .ok v =>
      match evaluateArgs ops varMap rest with
      | .error e => .error e
      | .ok vs => .ok (v :: vs)
end

/-- `evaluate(const std::vector<std::pair<std::string, double>>&)`: fill a map with
`varMap[name] = value`, in order, then evaluate. -/
def evaluatePairs (ops : DoubleOps V) (pairs : List (Str × V)) (node : ASTNode V) :
    Except EvalError V :=
  evaluate ops (pairs.foldl (fun m p => m.assign p.1 p.2) VariableMap.empty) node

/-- `str.substr(0, str.find_last_not_of('0') + 1)`. -/
def stripTrailingZeros (str : Str) : Str := (str.reverse.dropWhile (· = '0')).reverse

/-- The `NUMBER` case of `toString`, on the text `ss << number.value` produced. -/
def trimNumber (str : Str) : Str :=
  if '.' ∈ str then
    let str1 := stripTrailingZeros str
    if str1.getLast? = some '.' then str1.dropLast else str1
  else str

/-- The operator of a `BINARY_OP` or `UNARY_OP` node (the nodes whose `op` member
`toString` inspects when it decides on parentheses). -/
def opOf : ASTNode V → Option OperatorType
  | .binaryOp op _ _ => some op
  | .unaryOp op _ => some op
  | _ => none

/-- `needParentheses` for the left child: `leftPrecedence < currentPrecedence`. -/
def needParenLeft (current : OperatorType) (left : ASTNode V) : Bool :=
  match opOf left with
  | some op => getPrecedence op < getPrecedence current
  | none => false

/-- `needParentheses` for the right child: `rightPrecedence <= currentPrecedence`. -/
def needParenRight (current : OperatorType) (right : ASTNode V) : Bool :=
  match opOf right with
  | some op => getPrecedence op ≤ getPrecedence current
  | none => false

/-- `if (needParentheses) ss << "("; ss << child; if (needParentheses) ss << ")"`. -/
def wrap (needParentheses : Bool) (s : Str) : Str :=
  if needParentheses then '(' :: s ++ [')'] else s

mutual
/-- `ASTNode::toString()`. -/
def toString (ops : DoubleOps V) : ASTNode V → Str
  | .number value => trimNumber (ops.render value)
  | .variable name => name
  | .binaryOp op left right =>
    wrap (needParenLeft op left) (toString ops left) ++ [' '] ++ opToString op ++ [' ']
      ++ wrap (needParenRight op right) (toString ops right)
  | .unaryOp op operand =>
    if op = .NEGATIVE then '-' :: toString ops operand
    else opToString op ++ ['('] ++ toString ops operand ++ [')']
  | .functionCall functionName arguments =>
    functionName ++ ['('] ++ toStringArgs ops true arguments ++ [')']
/-- The loop writing the arguments, `", "` before every argument but the first. -/
def toStringArgs (ops : DoubleOps V) : Bool → List (ASTNode V) → Str
  | _, [] => []
  | first, arg :: rest =>
    (if first then [] else [',', ' ']) ++ toString ops arg ++ toStringArgs ops false rest
end

end ASTNode

/-! ## PostfixToAST (src/PostfixToAST.cpp) -/

namespace PostfixToAST

variable {V : Type}

/-- The messages thrown while building. -/
inductive BuildError where
  /-- "Not enough operands for unary operator: " + token -/
  | notEnoughOperandsUnary (token : Str)
  /-- "Not enough operands for binary operator: " + token -/
  | notEnoughOperandsBinary (token : Str)
  /-- "Not enough arguments for function: " + token -/
  | notEnoughArguments (token : Str)
  /-- "Invalid token: " + token -/
  | invalidToken (token : Str)
  /-- "Invalid postfix expression: Stack has " + size + " elements instead of 1" -/
  | invalidPostfix (stackSize : Nat)
  /-- "Unknown operator: " + op (from `stringToOperator`) -/
  | unknownOperator (op : Str)
  /-- an exception of `std::stod` -/
  | stodFailed (token : Str)
  deriving DecidableEq, Repr

/-- `validFunctions`. -/
def validFunctions : List Str :=
  ["sin".toList, "cos".toList, "tan".toList, "sqrt".toList, "log".toList, "exp".toList,
   "abs".toList, "min".toList, "max".toList]

/-- The loop `while (ss >> token)` of `tokenize`, `cur` being the token read so far. -/
def tokenizeLoop : Str → Str → List Str
  | [], cur => if cur = [] then [] else [cur]
  | c :: cs, cur =>
    if isSpaceC c then
      if cur = [] then tokenizeLoop cs [] else cur :: tokenizeLoop cs []
    else tokenizeLoop cs (cur ++ [c])

/-- `tokenize(expression)`: the whitespace-separated words (both branches of the `if` in
the source push the token unchanged). -/
def tokenize (expression : Str) : List Str := tokenizeLoop expression []

/-- `isOperator(token)`. -/
def isOperator (token : Str) : Bool :=
  token = ['+'] || token = ['-'] || token = ['*'] || token = ['/'] || token = ['^']
    || token = ['~']

/-- `isUnaryOperator(token)`. -/
def isUnaryOperator (token : Str) : Bool := token = ['~']

/-- The `for (char c : view)` loop of `isNumber`. -/
def isNumberLoop : Str → Bool → Bool → Bool
  | [], _, hasDigit => hasDigit
  | c :: cs, hasDecimal, hasDigit =>
    if c = '.' then
      if hasDecimal then false else isNumberLoop cs true hasDigit
    else if isDigitC c then isNumberLoop cs hasDecimal true
    else false

/-- `isNumber(token)`. -/
def isNumber (token : Str) : Bool :=
  match token with
  | [] => false
  | c :: cs =>
    if c = '-' then
      if cs = [] then false else isNumberLoop cs false false
    else isNumberLoop (c :: cs) false false

/-- `isVariable(token)`. -/
def isVariable (token : Str) : Bool :=
  match token with
  | [] => false
  | c :: cs =>
    if !isAlphaC c && c != '_' then false
    else (c :: cs).all (fun ch => isAlnumC ch || ch = '_')

/-- `isFunction(token)`. -/
def isFunction (token : Str) : Bool := validFunctions.contains token

/-- `stringToOperator(op)`. -/
def stringToOperator (op : Str) : Except BuildError OperatorType :=
  if op = ['+'] then .ok .ADD
  else if op = ['-'] then .ok .SUBTRACT
  else if op = ['*'] then .ok .MULTIPLY
  else if op = ['/'] then .ok .DIVIDE
  else if op = ['^'] then .ok .POWER
  else if op = ['~'] then .ok .NEGATIVE
  else .error (.unknownOperator op)

/-- `processToken(token, stack)`; the stack is passed in and returned. -/
def processToken (ops : DoubleOps V) (token : Str) (stack : List (ASTNode V)) :
    Except BuildError (List (ASTNode V)) :=
  if isNumber token then
    match ops.stod token with
    | some value => .ok (.number value :: stack)
    | none => .error (.stodFailed token)
  else if isVariable token then .ok (.variable token :: stack)
  else if isOperator token then
    if isUnaryOperator token then
      match stack with
      | [] => .error (.notEnoughOperandsUnary token)
      | operand :: rest =>
        match stringToOperator token with
        | .error e => .error e
        | .ok op => .ok (.unaryOp op operand :: rest)
    else
      match stack with
      | right :: left :: rest =>
        match stringToOperator token with
        | .error e => .error e
        | .ok op => .ok (.binaryOp op left right :: rest)
      | _ => .error (.notEnoughOperandsBinary token)
  else if isFunction token then
    match stack with
    | [] => .error (.notEnoughArguments token)
    | arg :: rest => .ok (.functionCall token [arg] :: rest)
  else .error (.invalidToken token)

/-- The loop `for (token : postfixTokens) processToken(token, stack)`. -/
def processTokens (ops : DoubleOps V) :
    List Str → List (ASTNode V) → Except BuildError (List (ASTNode V))
  | [], stack => .ok stack
  | token :: rest, stack =>
    match processToken ops token stack with
    | .error e => .error e
    | .ok stack1 => processTokens ops rest stack1

/-- `convert(const std::vector<std::string>&)`. -/
def convert (ops : DoubleOps V) (postfixTokens : List Str) : Except BuildError (ASTNode V) :=
  match processTokens ops postfixTokens [] with
  | .error e => .error e
  | .ok [root] => .ok root
  | .ok stack => .error (.invalidPostfix stack.length)

/-- `convert(const std::string&)`. -/
def convertString (ops : DoubleOps V) (postfixExpression : Str) :
    Except BuildError (ASTNode V) :=
  convert ops (tokenize postfixExpression)

end PostfixToAST

/-! ## Variable collection and validation (src/AST_NODE.cpp, src/PostfixToAST.cpp) -/

/-- `std::sort(v.begin(), v.end())` on a `std::vector<std::string>`: the permutation sorted
by `operator<` of `std::string` (lexicographic on the characters), computed here by
insertion. -/
def sortStrings (v : List Str) : List Str := List.insertionSort (· ≤ ·) v

/-- `v.erase(std::unique(v.begin(), v.end()), v.end())`: of every run of equal adjacent
elements one is kept. -/
def uniqueAdjacent : List Str → List Str
  | [] => []
  | [a] => [a]
  | a :: b :: rest =>
    if a = b then uniqueAdjacent (b :: rest) else a :: uniqueAdjacent (b :: rest)

namespace ASTNode

variable {V : Type}

mutual
/-- `collectVariablesRecursive(vars)`: the vector is passed in and returned. -/
def collectVariablesRecursive : ASTNode V → List Str → List Str
  | .variable name, vars => vars ++ [name]
  | .binaryOp _ left right, vars =>
    collectVariablesRecursive right (collectVariablesRecursive left vars)
  | .unaryOp _ operand, vars => collectVariablesRecursive operand vars
  | .functionCall _ arguments, vars => collectVariablesArgs arguments vars
  | .number _, vars => vars
/-- The loop over `function.arguments` of `collectVariablesRecursive`. -/
def collectVariablesArgs : List (ASTNode V) → List Str → List Str
  | [], vars => vars
  | arg :: rest, vars => collectVariablesArgs rest (collectVariablesRecursive arg vars)
end

/-- `ASTNode::collectVariables()`. -/
def collectVariables (node : ASTNode V) : List Str :=
  uniqueAdjacent (sortStrings (collectVariablesRecursive node []))

mutual
/-- `ASTNode::hasVariablesRecursive()`. -/
def hasVariablesRecursive : ASTNode V → Bool
  | .variable _ => true
  | .binaryOp _ left right => hasVariablesRecursive left || hasVariablesRecursive right
  | .unaryOp _ operand => hasVariablesRecursive operand
  | .functionCall _ arguments => hasVariablesArgs arguments
  | .number _ => false
/-- The loop `for (arg : function.arguments) if (arg->hasVariablesRecursive()) return true;`
followed by `return false`. -/
def hasVariablesArgs : List (ASTNode V) → Bool
  | [] => false
  | arg :: rest => if hasVariablesRecursive arg then true else hasVariablesArgs rest
end

/-- `ASTNode::hasVariables()`. -/
def hasVariables (node : ASTNode V) : Bool := hasVariablesRecursive node

end ASTNode

namespace PostfixToAST

variable {V : Type}

/-- `extractVariables(const std::vector<std::string>&)`. -/
def extractVariables (postfixTokens : List Str) : List Str :=
  uniqueAdjacent (sortStrings (postfixTokens.filter isVariable))

/-- `extractVariables(const std::string&)`. -/
def extractVariablesString (postfixExpression : Str) : List Str :=
  extractVariables (tokenize postfixExpression)

/-- The first loop of `validateVariables`: `return false` at the first variable of the
tree that is not in `providedVars`; past the loop the function only prints warnings and
returns `true`. -/
def validateLoop (providedVars : List Str) : List Str → Bool
  | [] => true
  | var :: rest => if providedVars.contains var then validateLoop providedVars rest else false

/-- `validateVariables(ast, variables)`; `providedVars` is the set of the names of the
pairs (its membership test is all that is used); the warnings on `std::cerr` are not part
of the result. -/
def validateVariables (ast : ASTNode V) (pairs : List (Str × V)) : Bool :=
  validateLoop (pairs.map (·.1)) (ASTNode.collectVariables ast)

end PostfixToAST

/-! ## An exact reading of `double` on rationals

The theorems below hold for every `DoubleOps V`.  Concrete evaluations use `exactOps`: the
values are the rationals, `+ - * /` are exact, `std::stod` reads a decimal literal exactly and
`operator<<` is the `%g` conversion with six significant digits.  It coincides with IEEE
double arithmetic wherever operands and results are exactly representable (all integers
below `2^53`, in particular); a result that is not a rational (`std::sin(1)`, say) is
`inexact`. -/

/-- A `double` known exactly, or a value outside the exact reading. -/
inductive XDouble where
  | exact (q : ℚ)
  | inexact
  deriving DecidableEq

namespace XDouble

/-- The value of a run of decimal digits. -/
def digitsValue (ds : Str) : Nat := ds.foldl (fun acc c => 10 * acc + (c.toNat - 48)) 0

/-- `std::stod` on the tokens `PostfixToAST::isNumber` accepts: `[-]digits[.digits]`. -/
def stod (token : Str) : Option XDouble :=
  if PostfixToAST.isNumber token then
    let negative := token.head? = some '-'
    let body := if negative then token.tail else token
    let intPart := body.takeWhile (· ≠ '.')
    let fracPart := (body.dropWhile (· ≠ '.')).tail
    let magnitude : ℚ := (digitsValue (intPart ++ fracPart) : ℚ) / (10 : ℚ) ^ fracPart.length
    some (.exact (if negative then -magnitude else magnitude))
  else none

/-- The least `k ≥ start` with `n * 10 ^ k ≥ d`, searched for `fuel` steps. -/
def shiftCount (n d : Nat) : Nat → Nat → Nat
  | 0, k => k
  | fuel + 1, k => if n * 10 ^ k ≥ d then k else shiftCount n d fuel (k + 1)

/-- The decimal exponent of `n / d` (`n, d > 0`): `10 ^ X ≤ n / d < 10 ^ (X + 1)`. -/
def decimalExponent (n d : Nat) : Int :=
  if n ≥ d then ((Nat.toDigits 10 (n / d)).length : Int) - 1
  else - (shiftCount n d ((Nat.toDigits 10 d).length + 1) 1 : Int)

/-- Round `N / D` to the nearest integer, ties to even. -/
def roundHalfEven (N D : Nat) : Nat :=
  let q := N / D
  let r := N % D
  if 2 * r > D ∨ (2 * r = D ∧ q % 2 = 1) then q + 1 else q

/-- Remove trailing `'0'` characters. -/
def stripZeros (s : Str) : Str := (s.reverse.dropWhile (· = '0')).reverse

/-- A fraction part with its point, nothing when the fraction is all zeros. -/
def fraction (digits : Str) : Str :=
  if stripZeros digits = [] then [] else '.' :: stripZeros digits

/-- `printf("%g")` with precision 6 for the positive rational `n / d`. -/
def renderPositive (n d : Nat) : Str :=
  let X0 := decimalExponent n d
  let m0 :=
    if X0 ≤ 5 then roundHalfEven (n * 10 ^ (5 - X0).toNat) d
    else roundHalfEven n (d * 10 ^ (X0 - 5).toNat)
  let m := if m0 = 1000000 then 100000 else m0
  let X := if m0 = 1000000 then X0 + 1 else X0
  let ds := Nat.toDigits 10 m
  if X < -4 ∨ X ≥ 6 then
    let e := Nat.toDigits 10 X.natAbs
    ds.take 1 ++ fraction (ds.drop 1) ++ ['e', if X < 0 then '-' else '+']
      ++ (if e.length < 2 then '0' :: e else e)
  else if X ≥ 0 then ds.take (X.toNat + 1) ++ fraction (ds.drop (X.toNat + 1))
  else ['0'] ++ fraction (List.replicate ((-X).toNat - 1) '0' ++ ds)

/-- The text of `ss << value`. -/
def render : XDouble → Str
  | .inexact => "nan".toList
  | .exact q =>
    if q = 0 then ['0']
    else (if q < 0 then ['-'] else []) ++ renderPositive q.num.natAbs q.den

/-- Lift an exact binary operation. -/
def lift2 (f : ℚ → ℚ → ℚ) : XDouble → XDouble → XDouble
  | .exact a, .exact b => .exact (f a b)
  | _, _ => .inexact

/-- `l / r`, exact when `r` is not zero. -/
def div : XDouble → XDouble → XDouble
  | .exact a, .exact b => if b = 0 then .inexact else .exact (a / b)
  | _, _ => .inexact

/-- `std::pow(l, r)`, exact for an integer exponent. -/
def pow : XDouble → XDouble → XDouble
  | .exact a, .exact b =>
    if b.den = 1 then
      if 0 ≤ b.num then .exact (a ^ b.num.toNat)
      else if a = 0 then .inexact else .exact ((a ^ b.num.natAbs)⁻¹)
    else .inexact
  | _, _ => .inexact

/-- `-v` and `std::abs(v)`. -/
def lift1 (f : ℚ → ℚ) : XDouble → XDouble
  | .exact a => .exact (f a)
  | .inexact => .inexact

/-- `std::sqrt`, exact on squares of rationals. -/
def sqrt : XDouble → XDouble
  | .exact a =>
    if 0 ≤ a ∧ (Nat.sqrt a.num.natAbs) ^ 2 = a.num.natAbs ∧ (Nat.sqrt a.den) ^ 2 = a.den then
      .exact ((Nat.sqrt a.num.natAbs : ℚ) / (Nat.sqrt a.den : ℚ))
    else .inexact
  | .inexact => .inexact

/-- A library function whose only rational value used here is `f(x0) = y0`. -/
def atPoint (x0 y0 : ℚ) : XDouble → XDouble
  | .exact a => if a = x0 then .exact y0 else .inexact
  | .inexact => .inexact

/-- A comparison with zero; false on `inexact`. -/
def test (p : ℚ → Bool) : XDouble → Bool
  | .exact a => p a
  | .inexact => false

end XDouble

/-- The exact reading of `double`. -/
def exactOps : DoubleOps XDouble where
  stod := XDouble.stod
  render := XDouble.render
  add := XDouble.lift2 (· + ·)
  sub := XDouble.lift2 (· - ·)
  mul := XDouble.lift2 (· * ·)
  div := XDouble.div
  pow := XDouble.pow
  neg := XDouble.lift1 (fun a => -a)
  sin := XDouble.atPoint 0 0
  cos := XDouble.atPoint 0 1
  sqrt := XDouble.sqrt
  log := XDouble.atPoint 1 0
  exp := XDouble.atPoint 0 1
  abs := XDouble.lift1 (fun a => |a|)
  isZero := XDouble.test (fun a => a = 0)
  ltZero := XDouble.test (fun a => a < 0)
  leZero := XDouble.test (fun a => a ≤ 0)

/-! ## Notions used to state the properties -/

/-- The operators a `BinaryOp` node may carry. -/
def OperatorType.isBinary : OperatorType → Bool
  | .ADD => true
  | .SUBTRACT => true
  | .MULTIPLY => true
  | .DIVIDE => true
  | .POWER => true
  | _ => false

namespace ASTNode

variable {V : Type}

mutual
/-- The post-order token list of a tree: left subtree, right subtree, operator symbol;
unary negation is written `~`, a number is written as `toString` writes it. -/
def postfixTokens (ops : DoubleOps V) : ASTNode V → List Str
  | .number value => [toString ops (.number value)]
  | .variable name => [name]
  | .binaryOp op left right =>
    postfixTokens ops left ++ postfixTokens ops right ++ [opToString op]
  | .unaryOp _ operand => postfixTokens ops operand ++ [['~']]
  | .functionCall functionName arguments =>
    postfixTokensArgs ops arguments ++ [functionName]
/-- The post-order tokens of a list of arguments. -/
def postfixTokensArgs (ops : DoubleOps V) : List (ASTNode V) → List Str
  | [] => []
  | arg :: rest => postfixTokens ops arg ++ postfixTokensArgs ops rest
end

/-- Trees built from `BinaryOp` nodes (Add, Subtract, Multiply, Divide, Power),
`UnaryOp(Negative)` nodes and `Variable` leaves with variable-shaped names. -/
def isOperatorTree : ASTNode V → Bool
  | .variable name => PostfixToAST.isVariable name
  | .binaryOp op left right => op.isBinary && isOperatorTree left && isOperatorTree right
  | .unaryOp op operand => op = .NEGATIVE && isOperatorTree operand
  | _ => false

end ASTNode

namespace PostfixToAST

/-- A token that matches one of the four shapes. -/
def hasShape (token : Str) : Bool :=
  isNumber token || isVariable token || isOperator token || isFunction token

end PostfixToAST

namespace InfixToPostfix

/-- The characters the converter accepts: spaces, alphanumerics, parentheses and the
operators `+ - * / ^ %`. -/
def accepted (c : Char) : Bool :=
  c = ' ' || isOperandChar c || c = '(' || c = ')' || isOp c

/-- The text emitted when the operators `ops` are popped in turn (head first): each one
followed by a space. -/
def flush : List Char → Str
  | [] => []
  | o :: rest => o :: ' ' :: flush rest

/-- The parentheses of `s` are unbalanced: some prefix contains more `)` than `(`, or
the totals differ. -/
def Unbalanced (s : Str) : Prop :=
  (∃ n, (s.take n).count '(' < (s.take n).count ')') ∨ s.count '(' ≠ s.count ')'

/-- The nesting depth after reading `s` at depth `k`; `none` when a `)` is read at depth
zero. -/
def depthAfter : Str → Nat → Option Nat
  | [], k => some k
  | c :: cs, k =>
    if c = '(' then depthAfter cs (k + 1)
    else if c = ')' then
      match k with
      | 0 => none
      | j + 1 => depthAfter cs j
    else depthAfter cs k

/-- Every entry of the operator stack is `(` or an operator. -/
def StackOK (st : List Char) : Prop := ∀ c ∈ st, c = '(' ∨ isOp c = true

/-- A text without parentheses. -/
def NoParen (out : Str) : Prop := '(' ∉ out ∧ ')' ∉ out

end InfixToPostfix

/-- The space-separated text of a token list: each token followed by one space. -/
def textOf : List Str → Str
  | [] => []
  | tok :: rest => tok ++ ' ' :: textOf rest

/-- A non-empty run of alphanumeric characters. -/
def isOperandToken (tok : Str) : Bool := tok ≠ [] && tok.all InfixToPostfix.isOperandChar

/-- A letter followed by letters and digits. -/
def isLetterInitialAlnum (name : Str) : Bool :=
  match name with
  | [] => false
  | c :: cs => isAlphaC c && cs.all isAlnumC

/-- A non-empty run of digits. -/
def isDigits (tok : Str) : Bool := tok ≠ [] && tok.all isDigitC

namespace InfixToPostfix

/-- The maximal runs of alphanumeric characters of a text, `cur` being the run read so
far. -/
def operandRunsLoop : Str → Str → List Str
  | [], cur => if cur = [] then [] else [cur]
  | c :: cs, cur =>
    if isOperandChar c then operandRunsLoop cs (cur ++ [c])
    else if cur = [] then operandRunsLoop cs []
    else cur :: operandRunsLoop cs []

/-- The maximal runs of alphanumeric characters of a text, in order. -/
def operandRuns (s : Str) : List Str := operandRunsLoop s []

/-- The loop turns `text` into the postfix `post`: started on a stack whose top (if any)
has precedence below `lvl`, it leaves on the stack some pending operators of precedence at
least `lvl` and has emitted `post` but for these pending operators. -/
def Shunts (text : Str) (lvl : Nat) (post : Str) : Prop :=
  ∃ pend pre, (∀ o ∈ pend, isOp o = true ∧ lvl ≤ prec o) ∧ pre ++ flush pend = post ∧
    ∀ st out, (∀ top, st.head? = some top → prec top < lvl) →
      runLoop text ⟨st, out⟩ = .ok ⟨pend ++ st, out ++ pre⟩

end InfixToPostfix

namespace ASTNode

variable {V : Type}

/-- The character of a binary operator in an infix text. -/
def opChar : OperatorType → Char
  | .ADD => '+'
  | .SUBTRACT => '-'
  | .MULTIPLY => '*'
  | .DIVIDE => '/'
  | .POWER => '^'
  | .NEGATIVE => '-'
  | .NONE => '?'

/-- The converter's precedence of the operator at the root; 5 for a leaf. -/
def level : ASTNode V → Nat
  | .binaryOp op _ _ => InfixToPostfix.prec (opChar op)
  | _ => 5

/-- Trees built only from `BinaryOp` nodes (Add, Subtract, Multiply, Divide, Power) over
`Variable` leaves whose names are letter-initial alphanumeric strings. -/
def isVariableTree : ASTNode V → Bool
  | .variable name => isLetterInitialAlnum name
  | .binaryOp op left right => op.isBinary && isVariableTree left && isVariableTree right
  | _ => false

/-- Trees of binary operators whose leaves are written by `toString` as one run of
alphanumeric characters. -/
def isInfixTree (ops : DoubleOps V) : ASTNode V → Bool
  | .number value => isOperandToken (toString ops (.number value))
  | .variable name => isOperandToken name
  | .binaryOp op left right => op.isBinary && isInfixTree ops left && isInfixTree ops right
  | _ => false

/-- Trees the builder rebuilds from their post-order tokens: operators as in
`isOperatorTree`, variable-shaped names, and numbers whose text is number-shaped and is
read back by `std::stod` as the same value. -/
def Rebuilds (ops : DoubleOps V) : ASTNode V → Prop
  | .number value =>
    PostfixToAST.isNumber (toString ops (.number value)) = true ∧
      ops.stod (toString ops (.number value)) = some value
  | .variable name => PostfixToAST.isVariable name = true
  | .binaryOp op left right => op.isBinary = true ∧ Rebuilds ops left ∧ Rebuilds ops right
  | .unaryOp op operand => op = .NEGATIVE ∧ Rebuilds ops operand
  | .functionCall _ _ => False

/-- Every number of the tree is written by `toString` as a run of digits that `std::stod`
reads back as the same value. -/
def Reprints (ops : DoubleOps V) : ASTNode V → Prop
  | .number value =>
    isDigits (toString ops (.number value)) = true ∧
      ops.stod (toString ops (.number value)) = some value
  | .binaryOp _ left right => Reprints ops left ∧ Reprints ops right
  | .unaryOp _ operand => Reprints ops operand
  | _ => True

end ASTNode

/-- `Parses ops s toks t`: `s` is a fully parenthesized infix expression over the binary
operators `+ - * / ^`, with spaces allowed between its tokens, whose operands are variable
names (a letter followed by letters and digits) and digit-only number literals accepted by
`std::stod`; `toks` are its tokens in postfix order and `t` is the tree it denotes. -/
inductive Parses {V : Type} (ops : DoubleOps V) : Str → List Str → ASTNode V → Prop where
  | var (name : Str) (h : isLetterInitialAlnum name = true) :
    Parses ops name [name] (.variable name)
  | num (lit : Str) (value : V) (h : isDigits lit = true) (hv : ops.stod lit = some value) :
    Parses ops lit [lit] (.number value)
  | paren (op : OperatorType) (s1 s2 : Str) (k1 k2 : List Str) (t1 t2 : ASTNode V)
    (hop : op.isBinary = true) (h1 : Parses ops s1 k1 t1) (h2 : Parses ops s2 k2 t2) :
    Parses ops ('(' :: s1 ++ ASTNode.opChar op :: s2 ++ [')'])
      (k1 ++ k2 ++ [[ASTNode.opChar op]]) (.binaryOp op t1 t2)
  | spaceLeft (s : Str) (k : List Str) (t : ASTNode V) (h : Parses ops s k t) :
    Parses ops (' ' :: s) k t
  | spaceRight (s : Str) (k : List Str) (t : ASTNode V) (h : Parses ops s k t) :
    Parses ops (s ++ [' ']) k t

namespace ASTNode

variable {V : Type}

mutual
/-- `HasVariable n t`: some Variable node of the tree `t` has the name `n`. -/
def HasVariable (n : Str) : ASTNode V → Prop
  | .variable name => name = n
  | .binaryOp _ left right => HasVariable n left ∨ HasVariable n right
  | .unaryOp _ operand => HasVariable n operand
  | .functionCall _ arguments => HasVariableArgs n arguments
  | .number _ => False
/-- Some Variable node of one of the trees has the name `n`. -/
def HasVariableArgs (n : Str) : List (ASTNode V) → Prop
  | [] => False
  | arg :: rest => HasVariable n arg ∨ HasVariableArgs n rest
end

end ASTNode

/-- A variable-shaped token, in the words of the specification: the first character is a
letter or an underscore, the remaining characters are letters, digits or underscores. -/
def VariableShaped (token : Str) : Prop :=
  ∃ c cs, token = c :: cs ∧ (isAlphaC c = true ∨ c = '_') ∧
    ∀ x ∈ cs, isAlphaC x = true ∨ isDigitC x = true ∨ x = '_'

/-- The function names `ASTNode::evaluate` implements. -/
def evaluableFunctions : List Str :=
  ["sin".toList, "cos".toList, "sqrt".toList, "log".toList, "exp".toList, "abs".toList]

/-- The child `c` is a BinaryOp or UnaryOp node whose operator satisfies `p`. -/
def IsOperatorNodeWith {V : Type} (p : OperatorType → Prop) (c : ASTNode V) : Prop :=
  (∃ o l r, c = .binaryOp o l r ∧ p o) ∨ (∃ o x, c = .unaryOp o x ∧ p o)

/-- A text, in parentheses when `b` holds. -/
def parenthesizedIf (b : Bool) (s : Str) : Str := if b then ['('] ++ s ++ [')'] else s

/-- `WellFormed false s`: `s` is a well-formed infix expression over variable operands (a
letter followed by letters and digits) and the binary operators `+ - * / % ^` of the
converter's table, with parentheses and with spaces allowed between the tokens: operands
and operators alternate, starting and ending with an operand.  `WellFormed true s`: `s` is
one operand of such an expression, a variable or an expression in parentheses. -/
inductive WellFormed : Bool → Str → Prop where
  | operand (name : Str) (h : isLetterInitialAlnum name = true) : WellFormed true name
  | paren (s : Str) (h : WellFormed false s) : WellFormed true ('(' :: s ++ [')'])
  | primary (s : Str) (h : WellFormed true s) : WellFormed false s
  | binary (s1 s2 : Str) (o : Char) (h1 : WellFormed false s1)
    (ho : InfixToPostfix.isOp o = true) (h2 : WellFormed true s2) :
    WellFormed false (s1 ++ o :: s2)
  | spaceLeft (b : Bool) (s : Str) (h : WellFormed b s) : WellFormed b (' ' :: s)
  | spaceRight (b : Bool) (s : Str) (h : WellFormed b s) : WellFormed b (s ++ [' '])

/-- The builder's net effect on the tokens `toks`: started on any stack it fails with
"Invalid token: %" when `%` is among the tokens, and otherwise pushes `k` nodes on top of
that stack. -/
def Pushes {V : Type} (ops : DoubleOps V) (toks : List Str) (k : Nat) : Prop :=
  ∀ stack : List (ASTNode V),
    (['%'] ∈ toks → PostfixToAST.processTokens ops toks stack = .error (.invalidToken ['%'])) ∧
    (['%'] ∉ toks → ∃ nodes : List (ASTNode V), nodes.length = k ∧
      PostfixToAST.processTokens ops toks stack = .ok (nodes ++ stack))

/-- The converter on a well-formed text: it leaves some operators `pend` pending on the
stack (none for an operand) and has emitted tokens on which the builder pushes one node
more than there are pending operators. -/
def ShuntsWF {V : Type} (ops : DoubleOps V) (b : Bool) (s : Str) : Prop :=
  ∃ (pend : List Char) (toks : List Str),
    (b = true → pend = []) ∧ (∀ o ∈ pend, InfixToPostfix.isOp o = true) ∧
    (∀ t ∈ toks, isOperandToken t = true ∨ ∃ o, InfixToPostfix.isOp o = true ∧ t = [o]) ∧
    Pushes ops toks (1 + pend.length) ∧
    ('%' ∈ s ↔ (['%'] ∈ toks ∨ '%' ∈ pend)) ∧
    ∀ st out, (b = false → ∀ top, st.head? = some top → InfixToPostfix.prec top < 2) →
      InfixToPostfix.runLoop s ⟨st, out⟩ = .ok ⟨pend ++ st, out ++ textOf toks⟩

/-- A number-shaped token, in the words of the specification: an optional single leading
`-`, then a non-empty string made only of digits and at most one `.`, with at least one
digit. -/
def NumberShaped (token : Str) : Prop :=
  ∃ body : Str, (token = body ∨ token = '-' :: body) ∧ body ≠ [] ∧
    (∀ c ∈ body, isDigitC c = true ∨ c = '.') ∧ body.count '.' ≤ 1 ∧
    ∃ c ∈ body, isDigitC c = true

namespace ASTNode

variable {V : Type}

/-- The node invariant: every BinaryOp node has one of the operators Add, Subtract,
Multiply, Divide, Power, every UnaryOp node has the operator Negative, and every other
node is a Number or Variable leaf. -/
def wellFormedNodes : ASTNode V → Bool
  | .number _ => true
  | .variable _ => true
  | .binaryOp op left right => op.isBinary && wellFormedNodes left && wellFormedNodes right
  | .unaryOp op operand => decide (op = .NEGATIVE) && wellFormedNodes operand
  | .functionCall _ _ => false

/-- The tree contains a FunctionCall node. -/
def hasFunctionCall : ASTNode V → Bool
  | .number _ => false
  | .variable _ => false
  | .binaryOp _ left right => hasFunctionCall left || hasFunctionCall right
  | .unaryOp _ operand => hasFunctionCall operand
  | .functionCall _ _ => true

/-- The node invariant, and every Variable leaf carries a variable-shaped name. -/
def isBuiltTree : ASTNode V → Bool
  | .number _ => true
  | .variable name => PostfixToAST.isVariable name
  | .binaryOp op left right => op.isBinary && isBuiltTree left && isBuiltTree right
  | .unaryOp op operand => decide (op = .NEGATIVE) && isBuiltTree operand
  | .functionCall _ _ => false

/-- The names `collectVariablesRecursive` appends for the nodes of a stack, the bottom of
the stack first. -/
def stackVariables : List (ASTNode V) → List Str
  | [] => []
  | top :: rest => stackVariables rest ++ collectVariablesRecursive top []

end ASTNode

/-! ## Theorems: the builder -/

namespace PostfixToAST

variable {V : Type}

theorem processTokens_append (ops : DoubleOps V) (pre post : List Str)
    (stack : List (ASTNode V)) :
    processTokens ops (pre ++ post) stack =
      match processTokens ops pre stack with
      | .error e => .error e
      | .ok stack1 => processTokens ops post stack1 := by
  induction pre generalizing stack with
  | nil => simp [processTokens]
  | cons tok pre ih =>
    simp only [List.cons_append, processTokens]
    cases h : processToken ops tok stack with
    | error e => simp
    | ok st => simp [ih]

theorem processTokens_error_split (ops : DoubleOps V) (tokens : List Str)
    (stack : List (ASTNode V)) (e : BuildError)
    (h : processTokens ops tokens stack = .error e) :
    ∃ pre tok post st, tokens = pre ++ tok :: post ∧ processTokens ops pre stack = .ok st ∧
      processToken ops tok st = .error e := by
  induction tokens generalizing stack with
  | nil => simp [processTokens] at h
  | cons tok rest ih =>
    simp only [processTokens] at h
    cases h1 : processToken ops tok stack with
    | error e1 =>
      rw [h1] at h
      simp only [Except.error.injEq] at h
      exact ⟨[], tok, rest, stack, rfl, rfl, h ▸ h1⟩
    | ok st =>
      rw [h1] at h
      obtain ⟨pre, t, post, st1, hsplit, hpre, htok⟩ := ih st h
      refine ⟨tok :: pre, t, post, st1, by simp [hsplit], ?_, htok⟩
      simp [processTokens, h1, hpre]

theorem processTokens_prefix_error (ops : DoubleOps V) (pre post : List Str) (tok : Str)
    (st : List (ASTNode V)) (e : BuildError)
    (hpre : processTokens ops pre [] = .ok st) (htok : processToken ops tok st = .error e) :
    processTokens ops (pre ++ tok :: post) [] = .error e := by
  rw [processTokens_append, hpre]
  simp [processTokens, htok]

theorem convert_error_of_processTokens (ops : DoubleOps V) (tokens : List Str)
    (e : BuildError) (h : processTokens ops tokens [] = .error e) :
    convert ops tokens = .error e := by
  simp [convert, h]

theorem operator_not_number_variable :
    ∀ tok ∈ [['+'], ['-'], ['*'], ['/'], ['^'], ['~']],
      isNumber tok = false ∧ isVariable tok = false := by
  decide

theorem isOperator_cases (tok : Str) (h : isOperator tok = true) :
    tok = ['+'] ∨ tok = ['-'] ∨ tok = ['*'] ∨ tok = ['/'] ∨ tok = ['^'] ∨ tok = ['~'] := by
  simpa [isOperator, or_assoc] using h

theorem isOperator_mem (tok : Str) (h : isOperator tok = true) :
    tok ∈ [['+'], ['-'], ['*'], ['/'], ['^'], ['~']] := by
  have := isOperator_cases tok h
  simp only [List.mem_cons, List.mem_singleton, List.not_mem_nil, or_false]
  exact this

/-- What `processToken` does on an operator token. -/
theorem processToken_operator (ops : DoubleOps V) (tok : Str) (stack : List (ASTNode V))
    (h : isOperator tok = true) :
    processToken ops tok stack =
      if isUnaryOperator tok then
        match stack with
        | [] => .error (.notEnoughOperandsUnary tok)
        | operand :: rest =>
          match stringToOperator tok with
          | .error e => .error e
          | .ok op => .ok (.unaryOp op operand :: rest)
      else
        match stack with
        | right :: left :: rest =>
          match stringToOperator tok with
          | .error e => .error e
          | .ok op => .ok (.binaryOp op left right :: rest)
        | _ => .error (.notEnoughOperandsBinary tok) := by
  have hnv := operator_not_number_variable tok (isOperator_mem tok h)
  simp only [processToken, hnv.1, hnv.2, h, if_true]
  simp

end PostfixToAST

/-! ## Theorems: character classes -/

theorem isAlphaC_not_digit (c : Char) (h : isAlphaC c = true) : isDigitC c = false := by
  simp only [isAlphaC, isDigitC, Bool.or_eq_true, Bool.and_eq_true, decide_eq_true_eq,
    Bool.and_eq_false_imp, decide_eq_false_iff_not] at *
  omega


/-! ## Theorems: token classification and the stack builder -/

namespace PostfixToAST

variable {V : Type}

theorem isVariable_not_number (tok : Str) (h : isVariable tok = true) :
    isNumber tok = false := by
  cases tok with
  | nil => simp [isVariable] at h
  | cons c cs =>
    have hc : isAlphaC c = true ∨ c = '_' := by
      by_cases h1 : isAlphaC c = true
      · exact Or.inl h1
      · by_cases h2 : c = '_'
        · exact Or.inr h2
        · simp [isVariable, h1, h2] at h
    have hminus : c ≠ '-' := by
      rcases hc with h1 | h1
      · intro h2
        rw [h2] at h1
        exact absurd h1 (by decide)
      · rw [h1]
        decide
    have hdot : c ≠ '.' := by
      rcases hc with h1 | h1
      · intro h2
        rw [h2] at h1
        exact absurd h1 (by decide)
      · rw [h1]
        decide
    have hdig : isDigitC c = false := by
      rcases hc with h1 | h1
      · exact isAlphaC_not_digit c h1
      · rw [h1]
        decide
    simp [isNumber, isNumberLoop, hminus, hdot, hdig]

theorem processToken_variable (ops : DoubleOps V) (tok : Str) (stack : List (ASTNode V))
    (h : isVariable tok = true) :
    processToken ops tok stack = .ok (.variable tok :: stack) := by
  simp [processToken, isVariable_not_number tok h, h]

theorem processToken_binary (ops : DoubleOps V) (op : OperatorType) (h : op.isBinary = true)
    (left right : ASTNode V) (rest : List (ASTNode V)) :
    processToken ops (ASTNode.opToString op) (right :: left :: rest) =
      .ok (.binaryOp op left right :: rest) := by
  cases op <;> first
    | (exact absurd h (by decide))
    | (rw [processToken_operator ops _ _ (by decide)]
       simp [ASTNode.opToString, isUnaryOperator, stringToOperator])

theorem processToken_negative (ops : DoubleOps V) (operand : ASTNode V)
    (rest : List (ASTNode V)) :
    processToken ops ['~'] (operand :: rest) = .ok (.unaryOp .NEGATIVE operand :: rest) := by
  rw [processToken_operator ops _ _ (by decide)]
  simp [isUnaryOperator, stringToOperator]

theorem processTokens_postfixTokens (ops : DoubleOps V) :
    ∀ (t : ASTNode V), ASTNode.isOperatorTree t = true → ∀ stack : List (ASTNode V),
      processTokens ops (ASTNode.postfixTokens ops t) stack = .ok (t :: stack)
  | .number _, h, _ => by simp [ASTNode.isOperatorTree] at h
  | .functionCall _ _, h, _ => by simp [ASTNode.isOperatorTree] at h
  | .variable name, h, stack => by
    simp only [ASTNode.isOperatorTree] at h
    simp [ASTNode.postfixTokens, processTokens, processToken_variable ops name stack h]
  | .unaryOp op operand, h, stack => by
    simp only [ASTNode.isOperatorTree, Bool.and_eq_true, decide_eq_true_eq] at h
    obtain ⟨hop, hx⟩ := h
    subst hop
    rw [ASTNode.postfixTokens, processTokens_append,
      processTokens_postfixTokens ops operand hx stack]
    simp [processTokens, processToken_negative]
  | .binaryOp op left right, h, stack => by
    simp only [ASTNode.isOperatorTree, Bool.and_eq_true] at h
    obtain ⟨⟨hop, hl⟩, hr⟩ := h
    rw [ASTNode.postfixTokens, processTokens_append, processTokens_append,
      processTokens_postfixTokens ops left hl stack]
    simp only []
    rw [processTokens_postfixTokens ops right hr (left :: stack)]
    simp [processTokens, processToken_binary ops op hop]

/-- C2: for every tree built from BinaryOp nodes (Add, Subtract, Multiply, Divide, Power),
UnaryOp(Negative) nodes and Variable leaves with variable-shaped names, `convert` applied
to the post-order token list of the tree succeeds and returns the tree itself; on a binary
operator token the node popped first becomes the right child and the second the left
child, and `~` wraps the popped node in a Negative node. -/
theorem convert_postfixTokens (ops : DoubleOps V) (t : ASTNode V)
    (h : ASTNode.isOperatorTree t = true) :
    convert ops (ASTNode.postfixTokens ops t) = .ok t ∧
    (∀ (op : OperatorType) (left right : ASTNode V) (rest : List (ASTNode V)),
      op.isBinary = true →
      processToken ops (ASTNode.opToString op) (right :: left :: rest) =
        .ok (.binaryOp op left right :: rest)) ∧
    (∀ (operand : ASTNode V) (rest : List (ASTNode V)),
      processToken ops ['~'] (operand :: rest) = .ok (.unaryOp .NEGATIVE operand :: rest)) := by
  refine ⟨?_, ?_, ?_⟩
  · simp [convert, processTokens_postfixTokens ops t h []]
  · intro op left right rest hop
    exact processToken_binary ops op hop left right rest
  · intro operand rest
    exact processToken_negative ops operand rest

/-- C2, at the tokens `x y ^ z *`: they are the post-order tokens of
Multiply(Power(x, y), z), `convert` returns that tree, and it evaluates to 32 for
x = 2, y = 3, z = 4. -/
theorem convert_postfixTokens_witness :
    ASTNode.isOperatorTree (V := XDouble)
      (.binaryOp .MULTIPLY (.binaryOp .POWER (.variable ['x']) (.variable ['y']))
        (.variable ['z'])) = true ∧
    tokenize "x y ^ z *".toList =
      ASTNode.postfixTokens exactOps
        (.binaryOp .MULTIPLY (.binaryOp .POWER (.variable ['x']) (.variable ['y']))
          (.variable ['z'])) ∧
    convertString exactOps "x y ^ z *".toList =
      .ok (.binaryOp .MULTIPLY (.binaryOp .POWER (.variable ['x']) (.variable ['y']))
        (.variable ['z'])) ∧
    ASTNode.evaluatePairs exactOps [(['x'], .exact 2), (['y'], .exact 3), (['z'], .exact 4)]
      (.binaryOp .MULTIPLY (.binaryOp .POWER (.variable ['x']) (.variable ['y']))
        (.variable ['z'])) = .ok (.exact 32) := by
  refine ⟨by decide, by decide, ?_, by decide!⟩
  have h := (convert_postfixTokens exactOps
    (.binaryOp .MULTIPLY (.binaryOp .POWER (.variable ['x']) (.variable ['y']))
      (.variable ['z'])) (by decide)).1
  rw [convertString, show tokenize "x y ^ z *".toList =
      ASTNode.postfixTokens exactOps
        (.binaryOp .MULTIPLY (.binaryOp .POWER (.variable ['x']) (.variable ['y']))
          (.variable ['z'])) from by decide]
  exact h

end PostfixToAST

namespace PostfixToAST

variable {V : Type}

theorem validFunctions_variable : ∀ f ∈ validFunctions, isVariable f = true := by
  decide

/-- C4 (what the code does): every name of `validFunctions` is variable-shaped and
`processToken` tests `isVariable` before `isFunction`, so a function-name token pops
nothing and pushes a Variable leaf; `convert("-1 sqrt")` never returns a tree (with
`-1` read as a number it ends with two nodes on the stack). -/
theorem function_token_pushes_variable (ops : DoubleOps V) :
    (∀ f ∈ validFunctions, ∀ stack : List (ASTNode V),
      processToken ops f stack = .ok (.variable f :: stack)) ∧
    (∀ root : ASTNode V, convertString ops "-1 sqrt".toList ≠ .ok root) ∧
    convertString exactOps "-1 sqrt".toList = .error (.invalidPostfix 2) := by
  refine ⟨?_, ?_, by decide!⟩
  · intro f hf stack
    exact processToken_variable ops f stack (validFunctions_variable f hf)
  · intro root
    have htok : tokenize "-1 sqrt".toList = [['-', '1'], ['s', 'q', 'r', 't']] := by decide
    have hnum : isNumber ['-', '1'] = true := by decide
    have hvar : ∀ stack : List (ASTNode V), processToken ops ['s', 'q', 'r', 't'] stack =
        .ok (.variable ['s', 'q', 'r', 't'] :: stack) :=
      fun stack => processToken_variable ops _ stack (by decide)
    rw [convertString, htok]
    cases hs : ops.stod ['-', '1'] with
    | none => simp [convert, processTokens, processToken, hnum, hs]
    | some v =>
      have h1 : processToken ops ['-', '1'] [] = .ok [.number v] := by
        simp [processToken, hnum, hs]
      simp [convert, processTokens, hvar, h1]

/-- C5: when every token is processed without error, `convert` succeeds if and only if
exactly one node is on the stack after the last token, and then returns that node;
otherwise it fails with the invalid-postfix-expression error reporting the actual stack
size. -/
theorem convert_single_root (ops : DoubleOps V) (tokens : List Str)
    (stack : List (ASTNode V)) (h : processTokens ops tokens [] = .ok stack) :
    ((∃ root, convert ops tokens = .ok root) ↔ stack.length = 1) ∧
    (∀ root, convert ops tokens = .ok root ↔ stack = [root]) ∧
    (stack.length ≠ 1 → convert ops tokens = .error (.invalidPostfix stack.length)) := by
  match stack, h with
  | [], h => simp [convert, h]
  | [root], h => simp [convert, h]
  | a :: b :: rest, h => simp [convert, h]

/-- C5, at `a b c +` (two nodes remain: the error reports 2) and at the empty token list
(the error reports 0). -/
theorem convert_single_root_witness :
    processTokens exactOps (tokenize "a b c +".toList) [] =
      .ok [.binaryOp .ADD (.variable ['b']) (.variable ['c']), .variable ['a']] ∧
    convertString exactOps "a b c +".toList = .error (.invalidPostfix 2) ∧
    processTokens exactOps [] [] = .ok [] ∧
    convert exactOps [] = .error (.invalidPostfix 0) :=
  ⟨by decide,
   (convert_single_root exactOps (tokenize "a b c +".toList)
      [.binaryOp .ADD (.variable ['b']) (.variable ['c']), .variable ['a']]
      (by decide)).2.2 (by decide),
   by decide,
   (convert_single_root exactOps [] [] (by decide)).2.2 (by decide)⟩

theorem convert_error_iff (ops : DoubleOps V) (tokens : List Str) (e : BuildError)
    (he : ∀ n, e ≠ .invalidPostfix n) :
    convert ops tokens = .error e ↔ processTokens ops tokens [] = .error e := by
  constructor
  · intro h
    cases hp : processTokens ops tokens [] with
    | error e1 =>
      simp [convert, hp] at h
      rw [h]
    | ok stack =>
      match stack, hp with
      | [], hp =>
        simp [convert, hp] at h
        exact absurd h.symm (he _)
      | [root], hp => simp [convert, hp] at h
      | a :: b :: rest, hp =>
        simp [convert, hp] at h
        exact absurd h.symm (he _)
  · exact convert_error_of_processTokens ops tokens e

theorem processToken_unary_error (ops : DoubleOps V) (tok t : Str)
    (stack : List (ASTNode V)) :
    processToken ops tok stack = .error (.notEnoughOperandsUnary t) ↔
      t = tok ∧ tok = ['~'] ∧ stack = [] := by
  by_cases hop : isOperator tok = true
  · rw [processToken_operator ops tok stack hop]
    rcases isOperator_cases tok hop with h | h | h | h | h | h <;> subst h <;>
      cases stack with
      | nil => simp [isUnaryOperator, stringToOperator, eq_comm]
      | cons a rest =>
        cases rest with
        | nil => simp [isUnaryOperator, stringToOperator]
        | cons b rest => simp [isUnaryOperator, stringToOperator]
  · have hne : tok ≠ ['~'] := by
      intro h
      rw [h] at hop
      exact hop (by decide)
    have hop1 : isOperator tok = false := by simpa using hop
    simp only [processToken, hop1, Bool.false_eq_true, if_false]
    constructor
    · intro h
      split at h
      · split at h <;> simp at h
      · split at h
        · simp at h
        · split at h
          · split at h <;> simp at h
          · simp at h
    · rintro ⟨-, h, -⟩
      exact absurd h hne

theorem processToken_binary_error (ops : DoubleOps V) (tok t : Str)
    (stack : List (ASTNode V)) :
    processToken ops tok stack = .error (.notEnoughOperandsBinary t) ↔
      t = tok ∧ tok ∈ [['+'], ['-'], ['*'], ['/'], ['^']] ∧ stack.length < 2 := by
  by_cases hop : isOperator tok = true
  · rw [processToken_operator ops tok stack hop]
    rcases isOperator_cases tok hop with h | h | h | h | h | h <;> subst h <;>
      cases stack with
      | nil => simp [isUnaryOperator, stringToOperator, eq_comm]
      | cons a rest =>
        cases rest with
        | nil => simp [isUnaryOperator, stringToOperator, eq_comm]
        | cons b rest => simp [isUnaryOperator, stringToOperator]
  · have hne : tok ∉ [['+'], ['-'], ['*'], ['/'], ['^']] := by
      intro h
      apply hop
      simp only [List.mem_cons, List.mem_singleton, List.not_mem_nil, or_false] at h
      rcases h with h | h | h | h | h <;> subst h <;> decide
    have hop1 : isOperator tok = false := by simpa using hop
    simp only [processToken, hop1, Bool.false_eq_true, if_false]
    constructor
    · intro h
      split at h
      · split at h <;> simp at h
      · split at h
        · simp at h
        · split at h
          · split at h <;> simp at h
          · simp at h
    · rintro ⟨-, h, -⟩
      exact absurd h hne

end PostfixToAST

namespace PostfixToAST

variable {V : Type}

/-- C6: `convert` fails with a "Not enough operands" error exactly when, with every
earlier token processed without failure, it reaches a binary operator token
(`+ - * / ^`) with fewer than two nodes on the stack, or the unary token `~` with an
empty stack; an operator token reached with enough nodes does not fail.  The tokens
`+`, `a +` and `~` fail; `a ~` and `a b +` succeed. -/
theorem insufficient_operands_iff (ops : DoubleOps V) (tokens : List Str) (t : Str) :
    (convert ops tokens = .error (.notEnoughOperandsBinary t) ↔
      ∃ pre post st, tokens = pre ++ t :: post ∧ processTokens ops pre [] = .ok st ∧
        t ∈ [['+'], ['-'], ['*'], ['/'], ['^']] ∧ st.length < 2) ∧
    (convert ops tokens = .error (.notEnoughOperandsUnary t) ↔
      ∃ pre post st, tokens = pre ++ t :: post ∧ processTokens ops pre [] = .ok st ∧
        t = ['~'] ∧ st = []) ∧
    (∀ (tok : Str) (st : List (ASTNode V)), isOperator tok = true →
      (tok = ['~'] → st ≠ []) → (tok ≠ ['~'] → 2 ≤ st.length) →
      ∃ st1, processToken ops tok st = .ok st1) ∧
    convertString ops "+".toList = .error (.notEnoughOperandsBinary ['+']) ∧
    convertString ops "a +".toList = .error (.notEnoughOperandsBinary ['+']) ∧
    convertString ops "~".toList = .error (.notEnoughOperandsUnary ['~']) ∧
    convertString ops "a ~".toList = .ok (.unaryOp .NEGATIVE (.variable ['a'])) ∧
    convertString ops "a b +".toList =
      .ok (.binaryOp .ADD (.variable ['a']) (.variable ['b'])) := by
  refine ⟨?_, ?_, ?_, rfl, rfl, rfl, rfl, rfl⟩
  · rw [convert_error_iff ops tokens _ (by intro n; simp)]
    constructor
    · intro h
      obtain ⟨pre, tok, post, st, hsplit, hpre, htok⟩ := processTokens_error_split ops _ _ _ h
      obtain ⟨h1, h2, h3⟩ := (processToken_binary_error ops tok t st).1 htok
      subst h1
      exact ⟨pre, post, st, hsplit, hpre, h2, h3⟩
    · rintro ⟨pre, post, st, hsplit, hpre, h2, h3⟩
      rw [hsplit]
      exact processTokens_prefix_error ops pre post t st _ hpre
        ((processToken_binary_error ops t t st).2 ⟨rfl, h2, h3⟩)
  · rw [convert_error_iff ops tokens _ (by intro n; simp)]
    constructor
    · intro h
      obtain ⟨pre, tok, post, st, hsplit, hpre, htok⟩ := processTokens_error_split ops _ _ _ h
      obtain ⟨h1, h2, h3⟩ := (processToken_unary_error ops tok t st).1 htok
      subst h1
      exact ⟨pre, post, st, hsplit, hpre, h2, h3⟩
    · rintro ⟨pre, post, st, hsplit, hpre, h2, h3⟩
      rw [hsplit]
      exact processTokens_prefix_error ops pre post t st _ hpre
        ((processToken_unary_error ops t t st).2 ⟨rfl, h2, h3⟩)
  · intro tok st hop hun hbin
    rw [processToken_operator ops tok st hop]
    rcases isOperator_cases tok hop with h | h | h | h | h | h <;> subst h
    all_goals first
      | (have h2 := hbin (by decide)
         match st, h2 with
         | a :: b :: rest, _ => simp [isUnaryOperator, stringToOperator])
      | (have h2 := hun rfl
         match st, h2 with
         | a :: rest, _ => simp [isUnaryOperator, stringToOperator])

theorem processToken_shape_not_invalid (ops : DoubleOps V) (tok t : Str)
    (st : List (ASTNode V)) (h : hasShape tok = true) :
    processToken ops tok st ≠ .error (.invalidToken t) := by
  intro he
  by_cases hop : isOperator tok = true
  · rw [processToken_operator ops tok st hop] at he
    rcases isOperator_cases tok hop with h1 | h1 | h1 | h1 | h1 | h1 <;> subst h1 <;>
      cases st with
      | nil => simp [isUnaryOperator, stringToOperator] at he
      | cons a rest =>
        cases rest with
        | nil => simp [isUnaryOperator, stringToOperator] at he
        | cons b rest => simp [isUnaryOperator, stringToOperator] at he
  · have hop1 : isOperator tok = false := by simpa using hop
    simp only [hasShape, hop1, Bool.or_false, Bool.or_eq_true] at h
    simp only [processToken, hop1, Bool.false_eq_true, if_false] at he
    split at he
    · split at he <;> simp at he
    · split at he
      · simp at he
      · split at he
        · split at he <;> simp at he
        · rcases h with (h | h) | h <;> simp_all

/-- C7: if every token before `tok` is processed without error and `tok` matches none of
the number, variable, operator and function shapes, `convert` fails with the invalid-token
error naming `tok` (no tree is returned); a token that matches one of the four shapes
never causes the invalid-token error. -/
theorem invalid_token_error (ops : DoubleOps V) (pre post : List Str) (tok : Str)
    (st : List (ASTNode V)) (hpre : processTokens ops pre [] = .ok st)
    (hshape : hasShape tok = false) :
    convert ops (pre ++ tok :: post) = .error (.invalidToken tok) ∧
    (∀ (tok1 t : Str) (st1 : List (ASTNode V)), hasShape tok1 = true →
      processToken ops tok1 st1 ≠ .error (.invalidToken t)) := by
  refine ⟨?_, fun tok1 t st1 h => processToken_shape_not_invalid ops tok1 t st1 h⟩
  apply convert_error_of_processTokens
  apply processTokens_prefix_error ops pre post tok st _ hpre
  simp only [hasShape, Bool.or_eq_false_iff] at hshape
  obtain ⟨⟨⟨h1, h2⟩, h3⟩, h4⟩ := hshape
  simp [processToken, h1, h2, h3, h4]

/-- C7, at the tokens `%`, `3abc`, `(` and `1.2.3`: none has a shape and each makes
`convert` fail with the invalid-token error naming it. -/
theorem invalid_token_error_witness :
    processTokens exactOps [] [] = .ok [] ∧
    hasShape "%".toList = false ∧
    convertString exactOps "%".toList = .error (.invalidToken "%".toList) ∧
    convertString exactOps "3abc".toList = .error (.invalidToken "3abc".toList) ∧
    convertString exactOps "(".toList = .error (.invalidToken "(".toList) ∧
    convertString exactOps "1.2.3".toList = .error (.invalidToken "1.2.3".toList) ∧
    convertString exactOps "a b 3abc +".toList = .error (.invalidToken "3abc".toList) :=
  ⟨rfl, by decide,
   (invalid_token_error exactOps [] [] "%".toList [] rfl (by decide)).1,
   (invalid_token_error exactOps [] [] "3abc".toList [] rfl (by decide)).1,
   (invalid_token_error exactOps [] [] "(".toList [] rfl (by decide)).1,
   (invalid_token_error exactOps [] [] "1.2.3".toList [] rfl (by decide)).1,
   (invalid_token_error exactOps ["a".toList, "b".toList] ["+".toList] "3abc".toList
      [.variable ['b'], .variable ['a']] rfl (by decide)).1⟩

end PostfixToAST

/-! ## Theorems: the converter loop -/

namespace InfixToPostfix

theorem length_dropWhile_le (p : Char → Bool) (l : Str) :
    (l.dropWhile p).length ≤ l.length :=
  (List.dropWhile_sublist p).length_le

theorem mainLoop_fuel (f1 : Nat) : ∀ (f2 : Nat) (cs : Str) (s : State),
    cs.length ≤ f1 → cs.length ≤ f2 → mainLoop f1 cs s = mainLoop f2 cs s := by
  induction f1 with
  | zero =>
    intro f2 cs s h1 h2
    have : cs = [] := List.length_eq_zero.mp (Nat.le_zero.mp h1)
    subst this
    cases f2 <;> simp [mainLoop]
  | succ n ih =>
    intro f2 cs s h1 h2
    cases cs with
    | nil => cases f2 <;> simp [mainLoop]
    | cons c rest =>
      cases f2 with
      | zero => simp at h2
      | succ m =>
        have hr1 : rest.length ≤ n := by simpa using h1
        have hr2 : rest.length ≤ m := by simpa using h2
        have hd := length_dropWhile_le isOperandChar rest
        simp only [mainLoop]
        rw [ih m rest s hr1 hr2, ih m (rest.dropWhile isOperandChar) _ (by omega) (by omega),
          ih m rest ⟨c :: s.opStack, s.output⟩ hr1 hr2,
          ih m rest (handleOperator c s.opStack s.output) hr1 hr2]
        by_cases h3 : c = ')'
        · cases h4 : handleRightParen s.opStack s.output with
          | error e => simp
          | ok s1 => simp [ih m rest s1 hr1 hr2]
        · simp [h3]

/-- One iteration of the loop. -/
theorem runLoop_cons (c : Char) (cs : Str) (s : State) :
    runLoop (c :: cs) s =
      if c = ' ' then runLoop cs s
      else if isOperandChar c then
        runLoop (cs.dropWhile isOperandChar)
          ⟨s.opStack, s.output ++ c :: cs.takeWhile isOperandChar ++ [' ']⟩
      else if c = '(' then runLoop cs ⟨c :: s.opStack, s.output⟩
      else if c = ')' then
        match handleRightParen s.opStack s.output with
        | .error e => .error e
        | .ok s1 => runLoop cs s1
      else if isOp c then runLoop cs (handleOperator c s.opStack s.output)
      else .error .invalidCharacter := by
  have hd := length_dropWhile_le isOperandChar cs
  simp only [runLoop, List.length_cons, mainLoop]
  rw [mainLoop_fuel cs.length (cs.dropWhile isOperandChar).length
    (cs.dropWhile isOperandChar) _ hd (le_refl _)]

theorem runLoop_nil (s : State) : runLoop [] s = .ok s := by
  simp [runLoop, mainLoop]

theorem handleRightParen_ne_outOfFuel (st : List Char) (out : Str) :
    handleRightParen st out ≠ .error .outOfFuel := by
  induction st generalizing out with
  | nil => simp [handleRightParen]
  | cons top rest ih =>
    by_cases h : top = '('
    · simp [handleRightParen, h]
    · simpa [handleRightParen, h] using ih _

/-- The loop terminates within its fuel: the model never stops short. -/
theorem runLoop_fuel_suffices (n : Nat) : ∀ (cs : Str), cs.length ≤ n → ∀ s : State,
    runLoop cs s ≠ .error .outOfFuel := by
  induction n with
  | zero =>
    intro cs hlen s
    have : cs = [] := List.length_eq_zero.mp (Nat.le_zero.mp hlen)
    subst this
    simp [runLoop_nil]
  | succ n ih =>
    intro cs hlen s
    cases cs with
    | nil => simp [runLoop_nil]
    | cons c rest =>
      have hrest : rest.length ≤ n := by simpa using hlen
      have hd := length_dropWhile_le isOperandChar rest
      rw [runLoop_cons]
      split
      · exact ih rest hrest _
      · split
        · exact ih _ (by omega) _
        · split
          · exact ih rest hrest _
          · split
            · cases hr : handleRightParen s.opStack s.output with
              | error e =>
                intro h
                simp only [Except.error.injEq] at h
                exact handleRightParen_ne_outOfFuel _ _ (h ▸ hr)
              | ok s1 => exact ih rest hrest s1
            · split
              · exact ih rest hrest _
              · simp

theorem handleRightParen_eq (st : List Char) (out : Str) :
    handleRightParen st out =
      if '(' ∈ st then
        .ok ⟨(st.dropWhile (· ≠ '(')).tail, out ++ flush (st.takeWhile (· ≠ '('))⟩
      else .error .mismatchedParentheses := by
  induction st generalizing out with
  | nil => simp [handleRightParen]
  | cons top rest ih =>
    by_cases h : top = '('
    · subst h
      simp [handleRightParen, flush]
    · have h1 : ¬ '(' = top := fun h2 => h h2.symm
      simp [handleRightParen, h, h1, ih, flush, List.takeWhile_cons, List.dropWhile_cons]

theorem handleOperator_eq (op : Char) (st : List Char) (out : Str) :
    handleOperator op st out =
      ⟨op :: st.dropWhile (fun top => prec top ≥ prec op),
       out ++ flush (st.takeWhile (fun top => prec top ≥ prec op))⟩ := by
  induction st generalizing out with
  | nil => simp [handleOperator, flush]
  | cons top rest ih =>
    by_cases h : prec top ≥ prec op
    · simp [handleOperator, h, ih, flush, List.takeWhile_cons, List.dropWhile_cons]
    · simp [handleOperator, h, flush, List.takeWhile_cons, List.dropWhile_cons]

/-- The converter never stops short: its failures are the two C++ exceptions. -/
theorem convert_error_cases (s : Str) (e : ConvError)
    (h : convertInfixToPostfix s = .error e) :
    e = .mismatchedParentheses ∨ e = .invalidCharacter := by
  cases e with
  | mismatchedParentheses => exact Or.inl rfl
  | invalidCharacter => exact Or.inr rfl
  | outOfFuel =>
    exfalso
    simp only [convertInfixToPostfix] at h
    cases hrun : runLoop s ⟨[], []⟩ with
    | error e1 =>
      rw [hrun] at h
      simp only [Except.error.injEq] at h
      exact runLoop_fuel_suffices s.length s (le_refl _) _ (h ▸ hrun)
    | ok s1 =>
      rw [hrun] at h
      simp only [] at h
      have hpop : ∀ (st : List Char) (out : Str), popRemaining st out ≠ .error .outOfFuel := by
        intro st
        induction st with
        | nil => intro out; simp [popRemaining]
        | cons top rest ih =>
          intro out
          by_cases h1 : top = '('
          · simp [popRemaining, h1]
          · simpa [popRemaining, h1] using ih _
      exact hpop _ _ h

theorem popRemaining_eq (st : List Char) (out : Str) :
    popRemaining st out =
      if '(' ∈ st then .error .mismatchedParentheses else .ok (out ++ flush st) := by
  induction st generalizing out with
  | nil => simp [popRemaining, flush]
  | cons top rest ih =>
    by_cases h : top = '('
    · subst h
      simp [popRemaining]
    · have h1 : ¬ '(' = top := fun h2 => h h2.symm
      simp [popRemaining, h, h1, ih, flush]

end InfixToPostfix

namespace InfixToPostfix

theorem isOp_iff (c : Char) :
    isOp c = true ↔ c = '^' ∨ c = '*' ∨ c = '/' ∨ c = '%' ∨ c = '+' ∨ c = '-' := by
  constructor
  · intro h
    by_contra hne
    simp only [not_or] at hne
    obtain ⟨h1, h2, h3, h4, h5, h6⟩ := hne
    by_cases h7 : c = '('
    · subst h7
      exact absurd h (by decide)
    · have e1 : (c == '^') = false := by simp [h1]
      have e2 : (c == '*') = false := by simp [h2]
      have e3 : (c == '/') = false := by simp [h3]
      have e4 : (c == '%') = false := by simp [h4]
      have e5 : (c == '+') = false := by simp [h5]
      have e6 : (c == '-') = false := by simp [h6]
      have e7 : (c == '(') = false := by simp [h7]
      simp [isOp, precedence, List.lookup, e1, e2, e3, e4, e5, e6, e7] at h
  · rintro (h | h | h | h | h | h) <;> subst h <;> decide

theorem isOp_facts (c : Char) (h : isOp c = true) :
    2 ≤ prec c ∧ c ≠ '(' ∧ c ≠ ')' ∧ c ≠ ' ' ∧ isOperandChar c = false := by
  rcases (isOp_iff c).1 h with h | h | h | h | h | h <;> subst h <;> decide

theorem isOperandChar_facts (c : Char) (h : isOperandChar c = true) :
    c ≠ '(' ∧ c ≠ ')' ∧ c ≠ ' ' ∧ isOp c = false := by
  refine ⟨?_, ?_, ?_, ?_⟩
  · intro hc
    rw [hc] at h
    exact absurd h (by decide)
  · intro hc
    rw [hc] at h
    exact absurd h (by decide)
  · intro hc
    rw [hc] at h
    exact absurd h (by decide)
  · cases hop : isOp c with
    | false => rfl
    | true => rw [(isOp_facts c hop).2.2.2.2] at h; exact absurd h (by decide)

theorem mem_flush (x : Char) (l : List Char) :
    x ∈ flush l ↔ (x = ' ' ∧ l ≠ []) ∨ x ∈ l := by
  induction l with
  | nil => simp [flush]
  | cons o rest ih =>
    simp only [flush, List.mem_cons, ih]
    constructor
    · rintro (h | h | h | h)
      · exact Or.inr (Or.inl h)
      · exact Or.inl ⟨h, by simp⟩
      · exact Or.inl ⟨h.1, by simp⟩
      · exact Or.inr (Or.inr h)
    · rintro (⟨h, -⟩ | h | h)
      · exact Or.inr (Or.inl h)
      · exact Or.inl h
      · exact Or.inr (Or.inr (Or.inr h))

theorem flush_append (a b : List Char) : flush (a ++ b) = flush a ++ flush b := by
  induction a with
  | nil => simp [flush]
  | cons o rest ih => simp [flush, ih]

theorem takeWhile_append_head (q : Char → Bool) (p rest : Str)
    (h : ∀ c, rest.head? = some c → q c = false) :
    (p ++ rest).takeWhile q = p.takeWhile q ∧
      (p ++ rest).dropWhile q = p.dropWhile q ++ rest := by
  induction p with
  | nil =>
    cases rest with
    | nil => simp
    | cons c cs =>
      have := h c rfl
      simp [List.takeWhile_cons, List.dropWhile_cons, this]
  | cons a p ih =>
    by_cases ha : q a = true
    · simp [List.takeWhile_cons, List.dropWhile_cons, ha, ih.1, ih.2]
    · simp [List.takeWhile_cons, List.dropWhile_cons, ha]

/-- The loop on a concatenation, when the second part does not start inside an operand. -/
theorem runLoop_append (n : Nat) : ∀ (pre : Str), pre.length ≤ n → ∀ (rest : Str) (s : State),
    (∀ c, rest.head? = some c → isOperandChar c = false) →
    runLoop (pre ++ rest) s =
      match runLoop pre s with
      | .error e => .error e
      | .ok s1 => runLoop rest s1 := by
  induction n with
  | zero =>
    intro pre hlen rest s _
    have : pre = [] := List.length_eq_zero.mp (Nat.le_zero.mp hlen)
    subst this
    simp [runLoop_nil]
  | succ n ih =>
    intro pre hlen rest s hrest
    cases pre with
    | nil => simp [runLoop_nil]
    | cons c p =>
      have hp : p.length ≤ n := by simpa using hlen
      have hd := length_dropWhile_le isOperandChar p
      obtain ⟨ht, hdw⟩ := takeWhile_append_head isOperandChar p rest hrest
      rw [List.cons_append, runLoop_cons, runLoop_cons, ht, hdw]
      rw [ih p hp rest s hrest, ih (p.dropWhile isOperandChar) (by omega) rest _ hrest,
        ih p hp rest ⟨c :: s.opStack, s.output⟩ hrest,
        ih p hp rest (handleOperator c s.opStack s.output) hrest]
      by_cases h1 : c = ' '
      · simp [h1]
      · by_cases h2 : isOperandChar c = true
        · simp [h1, h2]
        · by_cases h3 : c = '('
          · subst h3
            simp [show isOperandChar '(' = false from by decide]
          · by_cases h4 : c = ')'
            · subst h4
              simp only [show isOperandChar ')' = false from by decide, Bool.false_eq_true,
                if_false, if_true, show ¬ ')' = ' ' from by decide,
                show ¬ ')' = '(' from by decide]
              cases handleRightParen s.opStack s.output with
              | error e => rfl
              | ok s1 => simp [ih p hp rest s1 hrest]
            · by_cases h5 : isOp c = true
              · simp [h1, h2, h3, h4, h5]
              · simp [h1, h2, h3, h4, h5]

end InfixToPostfix

namespace InfixToPostfix

theorem depthAfter_dropWhile (cs : Str) (k : Nat) :
    depthAfter (cs.dropWhile isOperandChar) k = depthAfter cs k := by
  induction cs with
  | nil => rfl
  | cons c rest ih =>
    by_cases h : isOperandChar c = true
    · obtain ⟨h1, h2, -, -⟩ := isOperandChar_facts c h
      simp [List.dropWhile_cons, h, depthAfter, h1, h2, ih]
    · simp [List.dropWhile_cons, h]

theorem count_dropWhile_of_false (q : Char → Bool) (a : Char) (hq : q a = false)
    (st : List Char) : (st.dropWhile q).count a = st.count a := by
  induction st with
  | nil => rfl
  | cons top rest ih =>
    by_cases h : q top = true
    · have hne : top ≠ a := by
        intro h1
        rw [h1, hq] at h
        exact Bool.noConfusion h
      simp [List.dropWhile_cons, h, ih, List.count_cons, hne]
    · simp [List.dropWhile_cons, h]

theorem count_after_rightParen (st : List Char) (h : '(' ∈ st) :
    ((st.dropWhile (· ≠ '(')).tail).count '(' + 1 = st.count '(' := by
  induction st with
  | nil => simp at h
  | cons top rest ih =>
    by_cases ht : top = '('
    · subst ht
      simp [List.dropWhile_cons]
    · have h1 : '(' ∈ rest := by
        rcases List.mem_cons.1 h with h2 | h2
        · exact absurd h2.symm ht
        · exact h2
      simpa [List.dropWhile_cons, ht, List.count_cons] using ih h1

theorem StackOK.dropWhile {st : List Char} (h : StackOK st) (q : Char → Bool) :
    StackOK (st.dropWhile q) :=
  fun c hc => h c (List.dropWhile_subset q hc)

theorem StackOK.tail {st : List Char} (h : StackOK st) : StackOK st.tail :=
  fun c hc => h c (List.mem_of_mem_tail hc)

theorem noParen_flush (out : Str) (l : List Char) (hout : NoParen out)
    (hl : ∀ c ∈ l, isOp c = true) : NoParen (out ++ flush l) := by
  constructor
  · intro h
    rcases List.mem_append.1 h with h1 | h1
    · exact hout.1 h1
    · rcases (mem_flush _ _).1 h1 with ⟨h2, -⟩ | h2
      · exact absurd h2 (by decide)
      · exact (isOp_facts _ (hl _ h2)).2.1 rfl
  · intro h
    rcases List.mem_append.1 h with h1 | h1
    · exact hout.2 h1
    · rcases (mem_flush _ _).1 h1 with ⟨h2, -⟩ | h2
      · exact absurd h2 (by decide)
      · exact (isOp_facts _ (hl _ h2)).2.2.1 rfl

theorem takeWhile_ops_of_stackOK {st : List Char} (h : StackOK st) (q : Char → Bool)
    (hq : q '(' = false) : ∀ c ∈ st.takeWhile q, isOp c = true := by
  intro c hc
  have hmem := List.mem_takeWhile_imp hc
  rcases h c ((List.takeWhile_sublist q).subset hc) with h1 | h1
  · rw [h1, hq] at hmem
    exact Bool.noConfusion hmem
  · exact h1

/-- The loop on accepted characters: it fails exactly when the depth drops below zero, and
otherwise keeps as many `(` on the stack as the depth says, and no parenthesis in the
output. -/
theorem runLoop_depth (n : Nat) : ∀ (cs : Str), cs.length ≤ n →
    (∀ c ∈ cs, accepted c = true) → ∀ (s : State), StackOK s.opStack → NoParen s.output →
    (depthAfter cs (s.opStack.count '(') = none →
      runLoop cs s = .error .mismatchedParentheses) ∧
    (∀ j, depthAfter cs (s.opStack.count '(') = some j →
      ∃ s1, runLoop cs s = .ok s1 ∧ s1.opStack.count '(' = j ∧ StackOK s1.opStack ∧
        NoParen s1.output) := by
  induction n with
  | zero =>
    intro cs hlen _ s hst hout
    have : cs = [] := List.length_eq_zero.mp (Nat.le_zero.mp hlen)
    subst this
    simp [depthAfter, runLoop_nil, hst, hout]
  | succ n ih =>
    intro cs hlen hacc s hst hout
    cases cs with
    | nil => simp [depthAfter, runLoop_nil, hst, hout]
    | cons c rest =>
      have hrest : rest.length ≤ n := by simpa using hlen
      have haccr : ∀ x ∈ rest, accepted x = true := fun x hx => hacc x (List.mem_cons_of_mem _ hx)
      have hc := hacc c (List.mem_cons_self _ _)
      rw [runLoop_cons]
      by_cases h1 : c = ' '
      · subst h1
        simpa [depthAfter] using ih rest hrest haccr s hst hout
      · by_cases h2 : isOperandChar c = true
        · obtain ⟨f1, f2, -, -⟩ := isOperandChar_facts c h2
          have hd := length_dropWhile_le isOperandChar rest
          have hsub : ∀ x ∈ rest.dropWhile isOperandChar, accepted x = true :=
            fun x hx => haccr x (List.dropWhile_subset _ hx)
          have hout1 : NoParen (s.output ++ c :: rest.takeWhile isOperandChar ++ [' ']) := by
            constructor
            · intro hm
              simp only [List.mem_append, List.mem_cons, List.mem_singleton,
                List.not_mem_nil, or_false] at hm
              rcases hm with (hm | hm | hm) | hm
              · exact hout.1 hm
              · exact f1 hm.symm
              · exact (isOperandChar_facts _ (List.mem_takeWhile_imp hm)).1 rfl
              · exact absurd hm (by decide)
            · intro hm
              simp only [List.mem_append, List.mem_cons, List.mem_singleton,
                List.not_mem_nil, or_false] at hm
              rcases hm with (hm | hm | hm) | hm
              · exact hout.2 hm
              · exact f2 hm.symm
              · exact (isOperandChar_facts _ (List.mem_takeWhile_imp hm)).2.1 rfl
              · exact absurd hm (by decide)
          have := ih (rest.dropWhile isOperandChar) (by omega) hsub
            ⟨s.opStack, s.output ++ c :: rest.takeWhile isOperandChar ++ [' ']⟩ hst hout1
          simpa [h1, h2, depthAfter, f1, f2, depthAfter_dropWhile] using this
        · by_cases h3 : c = '('
          · subst h3
            have hst1 : StackOK ('(' :: s.opStack) := by
              intro x hx
              rcases List.mem_cons.1 hx with hx | hx
              · exact Or.inl hx
              · exact hst x hx
            have := ih rest hrest haccr ⟨'(' :: s.opStack, s.output⟩ hst1 hout
            simpa [h2, depthAfter] using this
          · by_cases h4 : c = ')'
            · subst h4
              rw [handleRightParen_eq]
              by_cases hmem : '(' ∈ s.opStack
              · have hcnt := count_after_rightParen s.opStack hmem
                have hst1 : StackOK ((s.opStack.dropWhile (· ≠ '(')).tail) :=
                  (hst.dropWhile _).tail
                have hout1 : NoParen (s.output ++ flush (s.opStack.takeWhile (· ≠ '('))) :=
                  noParen_flush _ _ hout (takeWhile_ops_of_stackOK hst _ (by simp))
                have := ih rest hrest haccr
                  ⟨(s.opStack.dropWhile (· ≠ '(')).tail,
                    s.output ++ flush (s.opStack.takeWhile (· ≠ '('))⟩ hst1 hout1
                obtain ⟨k, hk⟩ : ∃ k, s.opStack.count '(' = k + 1 := ⟨_, hcnt.symm⟩
                have hk1 : ((s.opStack.dropWhile (· ≠ '(')).tail).count '(' = k := by omega
                simp only [hk1] at this
                simpa [h2, hmem, depthAfter, hk] using this
              · have hzero : s.opStack.count '(' = 0 := List.count_eq_zero.2 hmem
                simp [h2, hmem, depthAfter, hzero]
            · have h5 : isOp c = true := by
                simpa [accepted, h1, h2, h3, h4] using hc
              obtain ⟨g1, -, -, -, -⟩ := isOp_facts c h5
              have hq : (fun top => decide (prec top ≥ prec c)) '(' = false := by
                have : prec '(' = 1 := by decide
                simp [this]
                omega
              rw [handleOperator_eq]
              have hst1 : StackOK (c :: s.opStack.dropWhile (fun top => prec top ≥ prec c)) := by
                intro x hx
                rcases List.mem_cons.1 hx with hx | hx
                · exact Or.inr (hx ▸ h5)
                · exact (hst.dropWhile _) x hx
              have hout1 : NoParen
                  (s.output ++ flush (s.opStack.takeWhile (fun top => prec top ≥ prec c))) :=
                noParen_flush _ _ hout (takeWhile_ops_of_stackOK hst _ hq)
              have hcnt : (c :: s.opStack.dropWhile (fun top => prec top ≥ prec c)).count '('
                  = s.opStack.count '(' := by
                rw [List.count_cons, count_dropWhile_of_false _ _ hq]
                simp [h3]
              have := ih rest hrest haccr
                ⟨c :: s.opStack.dropWhile (fun top => prec top ≥ prec c),
                  s.output ++ flush (s.opStack.takeWhile (fun top => prec top ≥ prec c))⟩
                hst1 hout1
              simp only [hcnt] at this
              simpa [h1, h2, h3, h4, h5, depthAfter] using this

end InfixToPostfix

namespace InfixToPostfix

theorem exists_take_cons (P : Str → Prop) (c : Char) (cs : Str) :
    (∃ n, P ((c :: cs).take n)) ↔ P [] ∨ ∃ n, P (c :: cs.take n) := by
  constructor
  · rintro ⟨n, hn⟩
    cases n with
    | zero => exact Or.inl (by simpa using hn)
    | succ m => exact Or.inr ⟨m, by simpa using hn⟩
  · rintro (h | ⟨n, hn⟩)
    · exact ⟨0, by simpa using h⟩
    · exact ⟨n + 1, by simpa using hn⟩

theorem depthAfter_none_iff (s : Str) : ∀ k : Nat,
    depthAfter s k = none ↔ ∃ n, k + (s.take n).count '(' < (s.take n).count ')' := by
  induction s with
  | nil => intro k; simp [depthAfter]
  | cons c cs ih =>
    intro k
    rw [exists_take_cons (fun l => k + l.count '(' < l.count ')')]
    by_cases h1 : c = '('
    · subst h1
      simp only [depthAfter, if_true, ih (k + 1)]
      simp [List.count_cons]
      constructor
      · rintro ⟨n, hn⟩
        exact ⟨n, by omega⟩
      · rintro ⟨n, hn⟩
        exact ⟨n, by omega⟩
    · by_cases h2 : c = ')'
      · subst h2
        cases k with
        | zero =>
          simp [depthAfter, List.count_cons]
          exact ⟨0, by simp⟩
        | succ j =>
          simp only [depthAfter, if_true, ih j, show ¬ ')' = '(' from by decide, if_false]
          simp [List.count_cons]
          constructor
          · rintro ⟨n, hn⟩
            exact ⟨n, by omega⟩
          · rintro ⟨n, hn⟩
            exact ⟨n, by omega⟩
      · simp [depthAfter, h1, h2, ih k, List.count_cons]

theorem depthAfter_some (s : Str) : ∀ k j : Nat,
    depthAfter s k = some j → j + s.count ')' = k + s.count '(' := by
  induction s with
  | nil => intro k j h; simp [depthAfter] at h; simp [h]
  | cons c cs ih =>
    intro k j h
    by_cases h1 : c = '('
    · subst h1
      simp only [depthAfter, if_true] at h
      have := ih _ _ h
      simp [List.count_cons]
      omega
    · by_cases h2 : c = ')'
      · subst h2
        cases k with
        | zero => simp [depthAfter] at h
        | succ i =>
          simp only [depthAfter, if_true, show ¬ ')' = '(' from by decide, if_false] at h
          have := ih _ _ h
          simp [List.count_cons]
          omega
      · simp only [depthAfter, h1, h2, if_false] at h
        have := ih _ _ h
        simp [List.count_cons, h1, h2]
        exact this

theorem unbalanced_iff (s : Str) : Unbalanced s ↔ depthAfter s 0 ≠ some 0 := by
  unfold Unbalanced
  cases h : depthAfter s 0 with
  | none =>
    have := (depthAfter_none_iff s 0).1 h
    simp only [Nat.zero_add] at this
    simp [this]
  | some j =>
    have hn : ¬ ∃ n, (s.take n).count '(' < (s.take n).count ')' := by
      intro hex
      have := (depthAfter_none_iff s 0).2 (by simpa using hex)
      rw [h] at this
      exact Option.noConfusion this
    have hj := depthAfter_some s 0 j h
    simp only [hn, false_or, ne_eq, Option.some.injEq]
    omega

/-- What the converter does on an input of accepted characters. -/
theorem convert_accepted (s : Str) (h : ∀ c ∈ s, accepted c = true) :
    (depthAfter s 0 = some 0 ∧ ∃ out, convertInfixToPostfix s = .ok out ∧ NoParen out) ∨
    (depthAfter s 0 ≠ some 0 ∧ convertInfixToPostfix s = .error .mismatchedParentheses) := by
  have hst : StackOK ([] : List Char) := fun c hc => absurd hc (List.not_mem_nil c)
  have hout : NoParen ([] : Str) := ⟨List.not_mem_nil _, List.not_mem_nil _⟩
  obtain ⟨hnone, hsome⟩ := runLoop_depth s.length s (le_refl _) h ⟨[], []⟩ hst hout
  simp only [List.count_nil] at hnone hsome
  cases hd : depthAfter s 0 with
  | none =>
    right
    refine ⟨by simp, ?_⟩
    simp [convertInfixToPostfix, hnone hd]
  | some j =>
    obtain ⟨s1, hrun, hcnt, hst1, hout1⟩ := hsome j hd
    cases j with
    | zero =>
      left
      have hmem : '(' ∉ s1.opStack := List.count_eq_zero.1 hcnt
      refine ⟨rfl, s1.output ++ flush s1.opStack, ?_, ?_⟩
      · simp [convertInfixToPostfix, hrun, popRemaining_eq, hmem]
      · apply noParen_flush _ _ hout1
        intro c hc
        rcases hst1 c hc with h1 | h1
        · exact absurd (h1 ▸ hc) hmem
        · exact h1
    | succ i =>
      right
      have hmem : '(' ∈ s1.opStack := by
        apply List.count_pos_iff.1
        omega
      refine ⟨by simp, ?_⟩
      simp [convertInfixToPostfix, hrun, popRemaining_eq, hmem]

/-- C8: on an input made only of accepted characters (spaces, alphanumerics, parentheses
and the operators `+ - * / ^ %`), `convertInfixToPostfix` fails with "Mismatched
parentheses" if and only if the parentheses are unbalanced (some prefix contains more `)`
than `(`, or the totals differ); when it succeeds the output contains neither `(` nor
`)`. -/
theorem mismatched_iff_unbalanced (s : Str) (h : ∀ c ∈ s, accepted c = true) :
    (convertInfixToPostfix s = .error .mismatchedParentheses ↔ Unbalanced s) ∧
    (∀ out, convertInfixToPostfix s = .ok out → '(' ∉ out ∧ ')' ∉ out) := by
  rw [unbalanced_iff]
  rcases convert_accepted s h with ⟨hd, out, hout, hnp⟩ | ⟨hd, herr⟩
  · refine ⟨?_, ?_⟩
    · simp [hout, hd]
    · intro out1 h1
      rw [hout] at h1
      simp only [Except.ok.injEq] at h1
      exact h1 ▸ hnp
  · refine ⟨?_, ?_⟩
    · simp [herr, hd]
    · intro out1 h1
      rw [herr] at h1
      exact Except.noConfusion h1

/-- C8, at `(a + b) * c` (balanced: converted, no parenthesis in the output), at
`(a + b` and at `a + b)` (unbalanced: both fail with "Mismatched parentheses"). -/
theorem mismatched_iff_unbalanced_witness :
    (∀ c ∈ "(a + b) * c".toList, accepted c = true) ∧
    convertInfixToPostfix "(a + b) * c".toList = .ok "a b + c * ".toList ∧
    ('(' ∉ "a b + c * ".toList ∧ ')' ∉ "a b + c * ".toList) ∧
    (Unbalanced "(a + b".toList ↔
      convertInfixToPostfix "(a + b".toList = .error .mismatchedParentheses) ∧
    convertInfixToPostfix "(a + b".toList = .error .mismatchedParentheses ∧
    convertInfixToPostfix "a + b)".toList = .error .mismatchedParentheses :=
  ⟨by decide, by decide,
   (mismatched_iff_unbalanced "(a + b) * c".toList (by decide)).2 _ (by decide),
   (mismatched_iff_unbalanced "(a + b".toList (by decide)).1.symm,
   by decide, by decide⟩

end InfixToPostfix

namespace InfixToPostfix

/-- C10: `convertInfixToPostfix` fails with "Invalid character in expression" whenever the
leftmost character that is not accepted (not a space, an alphanumeric, a parenthesis or one
of `+ - * / ^ %`) is reached without an earlier unmatched `)`; an input all of whose
characters are accepted never fails with that error. -/
theorem invalid_character (pre post : Str) (c : Char)
    (hpre : ∀ x ∈ pre, accepted x = true) (hc : accepted c = false)
    (hbal : ∀ n, (pre.take n).count ')' ≤ (pre.take n).count '(') :
    convertInfixToPostfix (pre ++ c :: post) = .error .invalidCharacter ∧
    (∀ s : Str, (∀ x ∈ s, accepted x = true) →
      convertInfixToPostfix s ≠ .error .invalidCharacter) := by
  constructor
  · have hst : StackOK ([] : List Char) := fun c hc => absurd hc (List.not_mem_nil c)
    have hout : NoParen ([] : Str) := ⟨List.not_mem_nil _, List.not_mem_nil _⟩
    obtain ⟨-, hsome⟩ := runLoop_depth pre.length pre (le_refl _) hpre ⟨[], []⟩ hst hout
    simp only [List.count_nil] at hsome
    have hne : depthAfter pre 0 ≠ none := by
      intro h
      obtain ⟨n, hn⟩ := (depthAfter_none_iff pre 0).1 h
      have := hbal n
      omega
    obtain ⟨j, hj⟩ := Option.ne_none_iff_exists.1 hne
    obtain ⟨s1, hrun, -, -, -⟩ := hsome j hj.symm
    simp only [accepted, Bool.or_eq_false_iff, decide_eq_false_iff_not] at hc
    obtain ⟨⟨⟨⟨h1, h2⟩, h3⟩, h4⟩, h5⟩ := hc
    have happ := runLoop_append pre.length pre (le_refl _) (c :: post) ⟨[], []⟩
      (by intro x hx; simp only [List.head?_cons, Option.some.injEq] at hx; exact hx ▸ h2)
    simp only [convertInfixToPostfix, happ, hrun]
    rw [runLoop_cons]
    simp [h1, h2, h3, h4, h5]
  · intro s hs
    rcases convert_accepted s hs with ⟨-, out, hout, -⟩ | ⟨-, herr⟩
    · rw [hout]
      simp
    · rw [herr]
      simp

/-- C10, at `a ~ b`: `~` is not accepted, nothing before it is unmatched, and the
conversion fails with "Invalid character in expression". -/
theorem invalid_character_witness :
    (∀ x ∈ "a ".toList, accepted x = true) ∧ accepted '~' = false ∧
    convertInfixToPostfix "a ~ b".toList = .error .invalidCharacter :=
  ⟨by decide, by decide,
   (invalid_character "a ".toList " b".toList '~' (by decide) (by decide)
      (by intro n
          match n with
          | 0 => decide
          | 1 => decide
          | k + 2 => simp [List.take])).1⟩

end InfixToPostfix

/-! ## Theorems: shunting composed texts -/

namespace InfixToPostfix

theorem runLoop_app (pre rest : Str) (s : State)
    (h : ∀ c, rest.head? = some c → isOperandChar c = false) :
    runLoop (pre ++ rest) s =
      match runLoop pre s with
      | .error e => .error e
      | .ok s1 => runLoop rest s1 :=
  runLoop_append pre.length pre (le_refl _) rest s h

theorem takeWhile_dropWhile_append (q : Char → Bool) (a b : List Char)
    (ha : ∀ x ∈ a, q x = true) (hb : ∀ c, b.head? = some c → q c = false) :
    (a ++ b).takeWhile q = a ∧ (a ++ b).dropWhile q = b := by
  induction a with
  | nil =>
    cases b with
    | nil => simp
    | cons c cs =>
      have := hb c rfl
      simp [List.takeWhile_cons, List.dropWhile_cons, this]
  | cons x a ih =>
    have hx := ha x (List.mem_cons_self _ _)
    have ih1 := ih (fun y hy => ha y (List.mem_cons_of_mem _ hy))
    simp [List.takeWhile_cons, List.dropWhile_cons, hx, ih1.1, ih1.2]

theorem runLoop_space (cs : Str) (s : State) : runLoop (' ' :: cs) s = runLoop cs s := by
  rw [runLoop_cons]
  simp

theorem runLoop_lparen (cs : Str) (s : State) :
    runLoop ('(' :: cs) s = runLoop cs ⟨'(' :: s.opStack, s.output⟩ := by
  rw [runLoop_cons]
  simp [show isOperandChar '(' = false from by decide]

theorem runLoop_rparen (cs : Str) (s : State) :
    runLoop (')' :: cs) s =
      match handleRightParen s.opStack s.output with
      | .error e => .error e
      | .ok s1 => runLoop cs s1 := by
  rw [runLoop_cons]
  simp [show isOperandChar ')' = false from by decide]

theorem runLoop_op (o : Char) (ho : isOp o = true) (cs : Str) (s : State) :
    runLoop (o :: cs) s = runLoop cs (handleOperator o s.opStack s.output) := by
  obtain ⟨-, f1, f2, f3, f4⟩ := isOp_facts o ho
  rw [runLoop_cons]
  simp [f1, f2, f3, f4, ho]

theorem runLoop_operand (a : Str) (h : isOperandToken a = true) (s : State) :
    runLoop a s = .ok ⟨s.opStack, s.output ++ a ++ [' ']⟩ := by
  cases a with
  | nil => simp [isOperandToken] at h
  | cons c cs =>
    simp only [isOperandToken, ne_eq, reduceCtorEq, not_false_eq_true, decide_True,
      Bool.true_and, List.all_cons, Bool.and_eq_true, List.all_eq_true] at h
    obtain ⟨hc, hcs⟩ := h
    obtain ⟨-, -, f3, -⟩ := isOperandChar_facts c hc
    obtain ⟨ht, hd⟩ := takeWhile_dropWhile_append isOperandChar cs [] hcs (by simp)
    simp only [List.append_nil] at ht hd
    rw [runLoop_cons, ht, hd, runLoop_nil]
    simp [f3, hc]

theorem shunts_atom (a : Str) (h : isOperandToken a = true) (lvl : Nat) :
    Shunts a lvl (a ++ [' ']) := by
  refine ⟨[], a ++ [' '], by simp, by simp [flush], ?_⟩
  intro st out _
  rw [runLoop_operand a h]
  simp

theorem shunts_wrap {text post : Str} {lvl : Nat} (h : Shunts text lvl post)
    (hlvl : 2 ≤ lvl) (m : Nat) : Shunts ('(' :: text ++ [')']) m post := by
  obtain ⟨pend, pre, hp, hpost, hrun⟩ := h
  refine ⟨[], post, by simp, by simp [flush], ?_⟩
  intro st out _
  have h1 := hrun ('(' :: st) out (by
    intro top htop
    simp only [List.head?_cons, Option.some.injEq] at htop
    subst htop
    have : prec '(' = 1 := by decide
    omega)
  have hq : ∀ x ∈ pend, (fun c => decide (c ≠ '(')) x = true := by
    intro x hx
    simpa using (isOp_facts x (hp x hx).1).2.1
  obtain ⟨ht, hd⟩ := takeWhile_dropWhile_append (fun c => decide (c ≠ '(')) pend ('(' :: st) hq
    (by intro c hc; simp only [List.head?_cons, Option.some.injEq] at hc; subst hc; simp)
  rw [List.cons_append, runLoop_lparen,
    runLoop_app text [')'] _ (by intro c hc; simp at hc; subst hc; decide), h1]
  simp only []
  rw [runLoop_rparen, handleRightParen_eq, ht, hd]
  simp [runLoop_nil, ← hpost]

theorem shunts_binary {textL textR postL postR : Str} {lvlL lvlR : Nat} (o : Char)
    (hL : Shunts textL lvlL postL) (hR : Shunts textR lvlR postR) (ho : isOp o = true)
    (h1 : prec o ≤ lvlL) (h2 : prec o < lvlR) :
    Shunts (textL ++ o :: textR) (prec o) (postL ++ postR ++ [o, ' ']) := by
  obtain ⟨pendL, preL, hpL, hpostL, hrunL⟩ := hL
  obtain ⟨pendR, preR, hpR, hpostR, hrunR⟩ := hR
  obtain ⟨-, f1, f2, f3, f4⟩ := isOp_facts o ho
  refine ⟨pendR ++ [o], postL ++ preR, ?_, ?_, ?_⟩
  · intro x hx
    rcases List.mem_append.1 hx with hx | hx
    · exact ⟨(hpR x hx).1, le_of_lt (lt_of_lt_of_le h2 (hpR x hx).2)⟩
    · simp only [List.mem_singleton] at hx
      subst hx
      exact ⟨ho, le_refl _⟩
  · rw [flush_append, ← hpostR]
    simp [flush]
  · intro st out htop
    have hq : ∀ x ∈ pendL, (fun top => decide (prec top ≥ prec o)) x = true := by
      intro x hx
      have := (hpL x hx).2
      simp only [ge_iff_le, decide_eq_true_eq]
      omega
    obtain ⟨ht, hd⟩ := takeWhile_dropWhile_append (fun top => decide (prec top ≥ prec o))
      pendL st hq (by
        intro c hc
        have := htop c hc
        simp only [ge_iff_le, decide_eq_false_iff_not, not_le]
        exact this)
    rw [runLoop_app textL (o :: textR) _
      (by intro c hc; simp only [List.head?_cons, Option.some.injEq] at hc; subst hc; exact f4),
      hrunL st out (fun top h3 => lt_of_lt_of_le (htop top h3) h1)]
    simp only []
    rw [runLoop_op o ho, handleOperator_eq, ht, hd]
    rw [hrunR (o :: st) _ (by
      intro top h3
      simp only [List.head?_cons, Option.some.injEq] at h3
      subst h3
      exact h2)]
    simp [← hpostL]

theorem shunts_spaceLeft {text post : Str} {lvl : Nat} (h : Shunts text lvl post) :
    Shunts (' ' :: text) lvl post := by
  obtain ⟨pend, pre, hp, hpost, hrun⟩ := h
  refine ⟨pend, pre, hp, hpost, ?_⟩
  intro st out htop
  rw [runLoop_space, hrun st out htop]

theorem shunts_spaceRight {text post : Str} {lvl : Nat} (h : Shunts text lvl post) :
    Shunts (text ++ [' ']) lvl post := by
  obtain ⟨pend, pre, hp, hpost, hrun⟩ := h
  refine ⟨pend, pre, hp, hpost, ?_⟩
  intro st out htop
  rw [runLoop_app text [' '] _ (by intro c hc; simp at hc; subst hc; decide),
    hrun st out htop]
  simp only []
  rw [runLoop_space, runLoop_nil]

theorem shunts_convert {text post : Str} {lvl : Nat} (h : Shunts text lvl post) :
    convertInfixToPostfix text = .ok post := by
  obtain ⟨pend, pre, hp, hpost, hrun⟩ := h
  have hmem : '(' ∉ pend := fun hm => (isOp_facts _ (hp _ hm).1).2.1 rfl
  have := hrun [] [] (by simp)
  simp only [List.append_nil, List.nil_append] at this
  simp [convertInfixToPostfix, this, popRemaining_eq, hmem, hpost]

end InfixToPostfix

/-! ## Theorems: serialisation followed by conversion -/

theorem textOf_append (a b : List Str) : textOf (a ++ b) = textOf a ++ textOf b := by
  induction a with
  | nil => rfl
  | cons t rest ih => simp [textOf, ih]

theorem textOf_singleton (a : Str) : textOf [a] = a ++ [' '] := rfl

namespace ASTNode

variable {V : Type}

open InfixToPostfix

theorem binary_facts (op : OperatorType) (h : op.isBinary = true) :
    opToString op = [opChar op] ∧ isOp (opChar op) = true ∧ prec (opChar op) ≤ 4 ∧
      2 ≤ prec (opChar op) := by
  cases op <;> first | (exact absurd h (by decide)) | decide

theorem precedence_agree (a b : OperatorType) (ha : a.isBinary = true)
    (hb : b.isBinary = true) :
    (getPrecedence a < getPrecedence b ↔ prec (opChar a) < prec (opChar b)) ∧
    (getPrecedence a ≤ getPrecedence b ↔ prec (opChar a) ≤ prec (opChar b)) := by
  cases a <;> first
    | (exact absurd ha (by decide))
    | (cases b <;> first | (exact absurd hb (by decide)) | decide)

theorem level_ge_two (ops : DoubleOps V) (t : ASTNode V) (h : isInfixTree ops t = true) :
    2 ≤ level t := by
  match t, h with
  | .number v, _ => simp [level]
  | .variable n, _ => simp [level]
  | .binaryOp op l r, h =>
    simp only [isInfixTree, Bool.and_eq_true] at h
    exact (binary_facts op h.1.1).2.2.2
  | .unaryOp op x, h => simp [isInfixTree] at h
  | .functionCall f args, h => simp [isInfixTree] at h

theorem level_of_no_paren_left (ops : DoubleOps V) (op : OperatorType) (t : ASTNode V)
    (hop : op.isBinary = true) (h : isInfixTree ops t = true)
    (hp : needParenLeft op t = false) : prec (opChar op) ≤ level t := by
  have h4 := (binary_facts op hop).2.2.1
  match t, h, hp with
  | .number v, _, _ => simp only [level]; omega
  | .variable n, _, _ => simp only [level]; omega
  | .binaryOp op1 l r, h, hp =>
    simp only [isInfixTree, Bool.and_eq_true] at h
    simp only [needParenLeft, opOf, decide_eq_false_iff_not, not_lt] at hp
    simp only [level]
    exact ((precedence_agree op op1 hop h.1.1).2).1 hp
  | .unaryOp op1 x, h, _ => simp [isInfixTree] at h
  | .functionCall f args, h, _ => simp [isInfixTree] at h

theorem level_of_no_paren_right (ops : DoubleOps V) (op : OperatorType) (t : ASTNode V)
    (hop : op.isBinary = true) (h : isInfixTree ops t = true)
    (hp : needParenRight op t = false) : prec (opChar op) < level t := by
  have h4 := (binary_facts op hop).2.2.1
  match t, h, hp with
  | .number v, _, _ => simp only [level]; omega
  | .variable n, _, _ => simp only [level]; omega
  | .binaryOp op1 l r, h, hp =>
    simp only [isInfixTree, Bool.and_eq_true] at h
    simp only [needParenRight, opOf, decide_eq_false_iff_not, not_le] at hp
    simp only [level]
    exact ((precedence_agree op op1 hop h.1.1).1).1 hp
  | .unaryOp op1 x, h, _ => simp [isInfixTree] at h
  | .functionCall f args, h, _ => simp [isInfixTree] at h

/-- A child as `toString` writes it under the operator `op`, parenthesized or not. -/
theorem shunts_wrap_child {text post : Str} {lvl : Nat} (o : Char) (b : Bool)
    (h : Shunts text lvl post) (hlvl : 2 ≤ lvl) (ho : prec o ≤ 4)
    (hb : b = false → prec o < lvl) :
    ∃ m, prec o < m ∧ Shunts (wrap b text) m post := by
  cases b with
  | true => exact ⟨5, by omega, shunts_wrap h hlvl 5⟩
  | false => exact ⟨lvl, hb rfl, by simpa [wrap] using h⟩

theorem shunts_toString (ops : DoubleOps V) :
    ∀ t : ASTNode V, isInfixTree ops t = true →
      Shunts (toString ops t) (level t) (textOf (postfixTokens ops t))
  | .number v, h => by
    simp only [isInfixTree] at h
    simpa [postfixTokens, textOf_singleton, level] using shunts_atom _ h 5
  | .variable n, h => by
    simp only [isInfixTree] at h
    simpa [postfixTokens, textOf_singleton, level, toString] using shunts_atom _ h 5
  | .unaryOp _ _, h => by simp [isInfixTree] at h
  | .functionCall _ _, h => by simp [isInfixTree] at h
  | .binaryOp op l r, h => by
    simp only [isInfixTree, Bool.and_eq_true] at h
    obtain ⟨⟨hop, hl⟩, hr⟩ := h
    obtain ⟨hsym, hisop, h4, h2⟩ := binary_facts op hop
    have ihl := shunts_toString ops l hl
    have ihr := shunts_toString ops r hr
    -- the left child: parenthesized, or of precedence at least that of `op`
    have hL : ∃ m, prec (opChar op) ≤ m ∧
        Shunts (wrap (needParenLeft op l) (toString ops l)) m
          (textOf (postfixTokens ops l)) := by
      cases hb : needParenLeft op l with
      | true => exact ⟨5, by omega, shunts_wrap ihl (level_ge_two ops l hl) 5⟩
      | false =>
        exact ⟨level l, level_of_no_paren_left ops op l hop hl hb, by simpa [wrap] using ihl⟩
    obtain ⟨mL, hmL, sL⟩ := hL
    obtain ⟨mR, hmR, sR⟩ := shunts_wrap_child (opChar op) (needParenRight op r) ihr
      (level_ge_two ops r hr) h4 (level_of_no_paren_right ops op r hop hr)
    have key := shunts_binary (opChar op) (shunts_spaceRight sL) (shunts_spaceLeft sR)
      hisop hmL hmR
    simpa [toString, postfixTokens, hsym, level, textOf_append, textOf_singleton,
      List.append_assoc] using key

theorem isLetterInitialAlnum_operand (name : Str) (h : isLetterInitialAlnum name = true) :
    isOperandToken name = true := by
  cases name with
  | nil => simp [isLetterInitialAlnum] at h
  | cons c cs =>
    simp only [isLetterInitialAlnum, Bool.and_eq_true, List.all_eq_true] at h
    simp only [isOperandToken, ne_eq, reduceCtorEq, not_false_eq_true, decide_True,
      Bool.true_and, List.all_cons, Bool.and_eq_true, List.all_eq_true]
    refine ⟨?_, fun x hx => ?_⟩
    · simp [isOperandChar, isAlnumC, h.1]
    · exact h.2 x hx

theorem isVariableTree_isInfixTree (ops : DoubleOps V) :
    ∀ t : ASTNode V, isVariableTree t = true → isInfixTree ops t = true
  | .number _, h => by simp [isVariableTree] at h
  | .unaryOp _ _, h => by simp [isVariableTree] at h
  | .functionCall _ _, h => by simp [isVariableTree] at h
  | .variable n, h => by
    simp only [isVariableTree] at h
    simpa [isInfixTree] using isLetterInitialAlnum_operand n h
  | .binaryOp op l r, h => by
    simp only [isVariableTree, Bool.and_eq_true] at h
    simp only [isInfixTree, Bool.and_eq_true]
    exact ⟨⟨h.1.1, isVariableTree_isInfixTree ops l h.1.2⟩, isVariableTree_isInfixTree ops r h.2⟩

/-- C1: for every tree built only from BinaryOp nodes (Add, Subtract, Multiply, Divide,
Power) over Variable leaves whose names are letter-initial alphanumeric strings,
`convertInfixToPostfix(t.toString())` succeeds and returns exactly the post-order token
sequence of the tree (left subtree, right subtree, operator symbol), each token followed
by one space. -/
theorem convert_toString (ops : DoubleOps V) (t : ASTNode V)
    (h : isVariableTree t = true) :
    convertInfixToPostfix (toString ops t) = .ok (textOf (postfixTokens ops t)) :=
  shunts_convert (shunts_toString ops t (isVariableTree_isInfixTree ops t h))

/-- C1, at the tree Add(a, Divide(Multiply(b, Subtract(c, d)), e)): it is written
`a + b * (c - d) / e` and converted to `a b c d - * e / + `. -/
theorem convert_toString_witness :
    isVariableTree (V := XDouble)
      (.binaryOp .ADD (.variable ['a'])
        (.binaryOp .DIVIDE
          (.binaryOp .MULTIPLY (.variable ['b'])
            (.binaryOp .SUBTRACT (.variable ['c']) (.variable ['d'])))
          (.variable ['e']))) = true ∧
    toString exactOps
      (.binaryOp .ADD (.variable ['a'])
        (.binaryOp .DIVIDE
          (.binaryOp .MULTIPLY (.variable ['b'])
            (.binaryOp .SUBTRACT (.variable ['c']) (.variable ['d'])))
          (.variable ['e']))) = "a + b * (c - d) / e".toList ∧
    convertInfixToPostfix "a + b * (c - d) / e".toList = .ok "a b c d - * e / + ".toList := by
  refine ⟨by decide, by decide, ?_⟩
  have h := convert_toString exactOps
    (.binaryOp .ADD (.variable ['a'])
      (.binaryOp .DIVIDE
        (.binaryOp .MULTIPLY (.variable ['b'])
          (.binaryOp .SUBTRACT (.variable ['c']) (.variable ['d'])))
        (.variable ['e']))) (by decide)
  exact h

end ASTNode

/-! ## Theorems: the tokens of the converter's output -/

namespace InfixToPostfix

theorem operandRunsLoop_cur (cs : Str) : ∀ cur : Str, cur ≠ [] →
    operandRunsLoop cs cur =
      (cur ++ cs.takeWhile isOperandChar) :: operandRuns (cs.dropWhile isOperandChar) := by
  induction cs with
  | nil => intro cur h; simp [operandRunsLoop, operandRuns, h]
  | cons c cs ih =>
    intro cur h
    by_cases hc : isOperandChar c = true
    · simp [operandRunsLoop, hc, ih (cur ++ [c]) (by simp), List.takeWhile_cons,
        List.dropWhile_cons]
    · simp [operandRunsLoop, operandRuns, hc, h, List.takeWhile_cons, List.dropWhile_cons]

theorem operandRuns_cons_operand (c : Char) (cs : Str) (h : isOperandChar c = true) :
    operandRuns (c :: cs) =
      (c :: cs.takeWhile isOperandChar) :: operandRuns (cs.dropWhile isOperandChar) := by
  simp [operandRuns, operandRunsLoop, h, operandRunsLoop_cur cs [c] (by simp)]

theorem operandRuns_cons_other (c : Char) (cs : Str) (h : isOperandChar c = false) :
    operandRuns (c :: cs) = operandRuns cs := by
  simp [operandRuns, operandRunsLoop, h]

theorem flush_eq_textOf (l : List Char) : flush l = textOf (l.map (fun o => [o])) := by
  induction l with
  | nil => rfl
  | cons o rest ih => simp [flush, textOf, ih]

theorem filter_operators (l : List Char) (h : ∀ o ∈ l, isOp o = true) :
    (l.map (fun o => [o])).filter isOperandToken = [] := by
  induction l with
  | nil => rfl
  | cons o rest ih =>
    have ho := (isOp_facts o (h o (List.mem_cons_self _ _))).2.2.2.2
    simp [List.filter_cons, isOperandToken, ho, ih (fun x hx => h x (List.mem_cons_of_mem _ hx))]

/-- Tokens of a postfix text: runs of alphanumerics and single operator characters. -/
theorem tokens_after_flush (toks : List Str) (l : List Char)
    (htok : ∀ t ∈ toks, isOperandToken t = true ∨ ∃ o, isOp o = true ∧ t = [o])
    (hl : ∀ o ∈ l, isOp o = true) :
    textOf toks ++ flush l = textOf (toks ++ l.map (fun o => [o])) ∧
    (∀ t ∈ toks ++ l.map (fun o => [o]),
      isOperandToken t = true ∨ ∃ o, isOp o = true ∧ t = [o]) ∧
    (toks ++ l.map (fun o => [o])).filter isOperandToken = toks.filter isOperandToken := by
  refine ⟨by rw [textOf_append, flush_eq_textOf], ?_, ?_⟩
  · intro t ht
    rcases List.mem_append.1 ht with h1 | h1
    · exact htok t h1
    · obtain ⟨o, ho, rfl⟩ := List.mem_map.1 h1
      exact Or.inr ⟨o, hl o ho, rfl⟩
  · rw [List.filter_append, filter_operators l hl, List.append_nil]

theorem runLoop_tokens (n : Nat) : ∀ (cs : Str), cs.length ≤ n →
    ∀ (s s1 : State) (toks : List Str), s.output = textOf toks →
    (∀ t ∈ toks, isOperandToken t = true ∨ ∃ o, isOp o = true ∧ t = [o]) →
    StackOK s.opStack → runLoop cs s = .ok s1 →
    ∃ toks1, s1.output = textOf toks1 ∧
      (∀ t ∈ toks1, isOperandToken t = true ∨ ∃ o, isOp o = true ∧ t = [o]) ∧
      toks1.filter isOperandToken = toks.filter isOperandToken ++ operandRuns cs ∧
      StackOK s1.opStack := by
  induction n with
  | zero =>
    intro cs hlen s s1 toks hout htok hst hrun
    have : cs = [] := List.length_eq_zero.mp (Nat.le_zero.mp hlen)
    subst this
    rw [runLoop_nil] at hrun
    simp only [Except.ok.injEq] at hrun
    subst hrun
    exact ⟨toks, hout, htok, by simp [operandRuns, operandRunsLoop], hst⟩
  | succ n ih =>
    intro cs hlen s s1 toks hout htok hst hrun
    cases cs with
    | nil =>
      rw [runLoop_nil] at hrun
      simp only [Except.ok.injEq] at hrun
      subst hrun
      exact ⟨toks, hout, htok, by simp [operandRuns, operandRunsLoop], hst⟩
    | cons c rest =>
      have hrest : rest.length ≤ n := by simpa using hlen
      by_cases h1 : c = ' '
      · subst h1
        rw [runLoop_space] at hrun
        rw [operandRuns_cons_other _ _ (by decide)]
        exact ih rest hrest s s1 toks hout htok hst hrun
      · by_cases h2 : isOperandChar c = true
        · have hd := length_dropWhile_le isOperandChar rest
          rw [runLoop_cons] at hrun
          simp only [h1, h2, if_false, if_true] at hrun
          have hrunTok : isOperandToken (c :: rest.takeWhile isOperandChar) = true := by
            simp only [isOperandToken, ne_eq, reduceCtorEq, not_false_eq_true, decide_True,
              Bool.true_and, List.all_cons, Bool.and_eq_true, List.all_eq_true]
            exact ⟨h2, fun x hx => List.mem_takeWhile_imp hx⟩
          obtain ⟨toks1, e1, e2, e3, e4⟩ := ih (rest.dropWhile isOperandChar) (by omega)
            ⟨s.opStack, s.output ++ c :: rest.takeWhile isOperandChar ++ [' ']⟩ s1
            (toks ++ [c :: rest.takeWhile isOperandChar])
            (by simp [hout, textOf_append, textOf_singleton])
            (by
              intro t ht
              rcases List.mem_append.1 ht with h3 | h3
              · exact htok t h3
              · simp only [List.mem_singleton] at h3
                exact Or.inl (h3 ▸ hrunTok))
            hst hrun
          refine ⟨toks1, e1, e2, ?_, e4⟩
          rw [e3, operandRuns_cons_operand c rest h2, List.filter_append]
          simp [List.filter_cons, hrunTok]
        · have h2f : isOperandChar c = false := by simpa using h2
          rw [operandRuns_cons_other c rest h2f]
          by_cases h3 : c = '('
          · subst h3
            rw [runLoop_lparen] at hrun
            refine ih rest hrest ⟨'(' :: s.opStack, s.output⟩ s1 toks hout htok ?_ hrun
            intro x hx
            rcases List.mem_cons.1 hx with hx | hx
            · exact Or.inl hx
            · exact hst x hx
          · by_cases h4 : c = ')'
            · subst h4
              rw [runLoop_rparen, handleRightParen_eq] at hrun
              by_cases hmem : '(' ∈ s.opStack
              · simp only [hmem, if_true] at hrun
                obtain ⟨f1, f2, f3⟩ := tokens_after_flush toks
                  (s.opStack.takeWhile (· ≠ '(')) htok
                  (takeWhile_ops_of_stackOK hst _ (by simp))
                exact f3 ▸ ih rest hrest
                  ⟨(s.opStack.dropWhile (· ≠ '(')).tail,
                    s.output ++ flush (s.opStack.takeWhile (· ≠ '('))⟩ s1 _
                  (by rw [hout]; exact f1) f2 ((hst.dropWhile _).tail) hrun
              · simp [hmem] at hrun
            · by_cases h5 : isOp c = true
              · obtain ⟨g1, -, -, -, -⟩ := isOp_facts c h5
                have hq : (fun top => decide (prec top ≥ prec c)) '(' = false := by
                  have : prec '(' = 1 := by decide
                  simp [this]
                  omega
                rw [runLoop_op c h5, handleOperator_eq] at hrun
                obtain ⟨f1, f2, f3⟩ := tokens_after_flush toks
                  (s.opStack.takeWhile (fun top => prec top ≥ prec c)) htok
                  (takeWhile_ops_of_stackOK hst _ hq)
                refine f3 ▸ ih rest hrest
                  ⟨c :: s.opStack.dropWhile (fun top => prec top ≥ prec c),
                    s.output ++ flush (s.opStack.takeWhile (fun top => prec top ≥ prec c))⟩
                  s1 _ (by rw [hout]; exact f1) f2 ?_ hrun
                intro x hx
                rcases List.mem_cons.1 hx with hx | hx
                · exact Or.inr (hx ▸ h5)
                · exact (hst.dropWhile _) x hx
              · rw [runLoop_cons] at hrun
                simp [h1, h2, h3, h4, h5] at hrun

/-- The output of a successful conversion is a list of tokens, each followed by a space;
its operand tokens are the maximal alphanumeric runs of the input, in order. -/
theorem convert_tokens (s out : Str) (h : convertInfixToPostfix s = .ok out) :
    ∃ toks, out = textOf toks ∧
      (∀ t ∈ toks, isOperandToken t = true ∨ ∃ o, isOp o = true ∧ t = [o]) ∧
      toks.filter isOperandToken = operandRuns s := by
  simp only [convertInfixToPostfix] at h
  cases hrun : runLoop s ⟨[], []⟩ with
  | error e => simp [hrun] at h
  | ok s1 =>
    simp only [hrun, popRemaining_eq] at h
    by_cases hmem : '(' ∈ s1.opStack
    · simp [hmem] at h
    · simp only [hmem, if_false, Except.ok.injEq] at h
      obtain ⟨toks1, e1, e2, e3, e4⟩ := runLoop_tokens s.length s (le_refl _) ⟨[], []⟩ s1 []
        rfl (by simp) (fun c hc => absurd hc (List.not_mem_nil c)) hrun
      have hops : ∀ o ∈ s1.opStack, isOp o = true := by
        intro o ho
        rcases e4 o ho with h1 | h1
        · exact absurd (h1 ▸ ho) hmem
        · exact h1
      obtain ⟨f1, f2, f3⟩ := tokens_after_flush toks1 s1.opStack e2 hops
      refine ⟨_, ?_, f2, ?_⟩
      · rw [← h, e1, f1]
      · rw [f3, e3]
        simp

theorem split_first (P : Char → Bool) (s : Str) (h : ∃ c ∈ s, P c = true) :
    ∃ pre c post, s = pre ++ c :: post ∧ (∀ x ∈ pre, P x = false) ∧ P c = true := by
  induction s with
  | nil => simp at h
  | cons a rest ih =>
    by_cases ha : P a = true
    · exact ⟨[], a, rest, rfl, by simp, ha⟩
    · obtain ⟨c, hc, hPc⟩ := h
      have hc1 : c ∈ rest := by
        rcases List.mem_cons.1 hc with h1 | h1
        · exact absurd (h1 ▸ hPc) ha
        · exact h1
      obtain ⟨pre, d, post, e1, e2, e3⟩ := ih ⟨c, hc1, hPc⟩
      refine ⟨a :: pre, d, post, by simp [e1], ?_, e3⟩
      intro x hx
      rcases List.mem_cons.1 hx with h1 | h1
      · rw [h1]; simpa using ha
      · exact e2 x h1

/-- An input with a character outside the accepted set is rejected. -/
theorem convert_error_of_not_accepted (s : Str) (h : ∃ c ∈ s, accepted c = false) :
    ∃ e, convertInfixToPostfix s = .error e := by
  obtain ⟨pre, c, post, e1, -, e3⟩ := split_first (fun c => !accepted c) s
    (by obtain ⟨c, hc, hacc⟩ := h; exact ⟨c, hc, by simp [hacc]⟩)
  have hc : accepted c = false := by simpa using e3
  simp only [accepted, Bool.or_eq_false_iff, decide_eq_false_iff_not] at hc
  obtain ⟨⟨⟨⟨h1, h2⟩, h3⟩, h4⟩, h5⟩ := hc
  have happ := runLoop_app pre (c :: post) ⟨[], []⟩
    (by intro x hx; simp only [List.head?_cons, Option.some.injEq] at hx; exact hx ▸ h2)
  subst e1
  simp only [convertInfixToPostfix, happ]
  cases runLoop pre ⟨[], []⟩ with
  | error e => exact ⟨e, rfl⟩
  | ok s1 =>
    refine ⟨.invalidCharacter, ?_⟩
    simp only []
    rw [runLoop_cons]
    simp [h1, h2, h3, h4, h5]

/-- C9 (amended): on an input made of letters, digits, the operators `+ - * / ^ %`,
balanced parentheses and spaces, `convertInfixToPostfix` returns a postfix text in which
every token is followed by one space, a token being a run of letters and digits or one
operator character, and the operand tokens are exactly the maximal alphanumeric runs of
the input, in order; a decimal point or an underscore is not an operand character: an
input that contains one is rejected ("Invalid character in expression", unless
"Mismatched parentheses" is thrown first). -/
theorem alnum_runs_kept (s : Str) (hacc : ∀ c ∈ s, accepted c = true)
    (hbal : ¬ Unbalanced s) :
    (∃ toks, convertInfixToPostfix s = .ok (textOf toks) ∧
      (∀ t ∈ toks, isOperandToken t = true ∨ ∃ o, isOp o = true ∧ t = [o]) ∧
      toks.filter isOperandToken = operandRuns s) ∧
    (∀ s1 : Str, ('.' ∈ s1 ∨ '_' ∈ s1) →
      convertInfixToPostfix s1 = .error .invalidCharacter ∨
      convertInfixToPostfix s1 = .error .mismatchedParentheses) := by
  constructor
  · rcases convert_accepted s hacc with ⟨-, out, hout, -⟩ | ⟨hd, -⟩
    · obtain ⟨toks, e1, e2, e3⟩ := convert_tokens s out hout
      exact ⟨toks, e1 ▸ hout, e2, e3⟩
    · exact absurd ((unbalanced_iff s).2 hd) hbal
  · intro s1 h1
    obtain ⟨e, he⟩ := convert_error_of_not_accepted s1 (by
      rcases h1 with h1 | h1
      · exact ⟨'.', h1, by decide⟩
      · exact ⟨'_', h1, by decide⟩)
    rcases convert_error_cases s1 e he with h2 | h2
    · exact Or.inr (h2 ▸ he)
    · exact Or.inl (h2 ▸ he)

/-- C9 (amended), at `30 + x1 * (y - 42)`: the conversion returns
`30 x1 y 42 - * + `, whose operand tokens are the runs `30`, `x1`, `y`, `42`. -/
theorem alnum_runs_kept_witness :
    (∀ c ∈ "30 + x1 * (y - 42)".toList, accepted c = true) ∧
    ¬ Unbalanced "30 + x1 * (y - 42)".toList ∧
    operandRuns "30 + x1 * (y - 42)".toList =
      ["30".toList, "x1".toList, "y".toList, "42".toList] ∧
    convertInfixToPostfix "30 + x1 * (y - 42)".toList = .ok "30 x1 y 42 - * + ".toList ∧
    (∃ toks, convertInfixToPostfix "30 + x1 * (y - 42)".toList = .ok (textOf toks) ∧
      (∀ t ∈ toks, isOperandToken t = true ∨ ∃ o, isOp o = true ∧ t = [o]) ∧
      toks.filter isOperandToken = operandRuns "30 + x1 * (y - 42)".toList) :=
  ⟨by decide, by rw [unbalanced_iff]; decide, by decide, by decide,
   (alnum_runs_kept "30 + x1 * (y - 42)".toList (by decide)
      (by rw [unbalanced_iff]; decide)).1⟩

/-- C9 as stated fails: on `3.5 + x_1` the converter throws "Invalid character in
expression" (at the decimal point) instead of returning the tokens `3.5 x_1 +`. -/
theorem decimal_point_rejected :
    convertInfixToPostfix "3.5 + x_1".toList = .error .invalidCharacter ∧
    convertInfixToPostfix "x_1".toList = .error .invalidCharacter := by
  decide

end InfixToPostfix

/-! ## Theorems: the round trip through `toString` -/

theorem isDigitC_alnum (c : Char) (h : isDigitC c = true) :
    InfixToPostfix.isOperandChar c = true := by
  simp [InfixToPostfix.isOperandChar, isAlnumC, h]

theorem isDigits_operand (tok : Str) (h : isDigits tok = true) : isOperandToken tok = true := by
  simp only [isDigits, isOperandToken, Bool.and_eq_true, List.all_eq_true] at *
  exact ⟨h.1, fun x hx => isDigitC_alnum x (h.2 x hx)⟩

theorem isSpaceC_of_operand (c : Char) (h : InfixToPostfix.isOperandChar c = true) :
    isSpaceC c = false := by
  have hne : c ≠ ' ' := (InfixToPostfix.isOperandChar_facts c h).2.2.1
  simp only [InfixToPostfix.isOperandChar, isAlnumC, isAlphaC, isDigitC, Bool.or_eq_true,
    Bool.and_eq_true, decide_eq_true_eq] at h
  simp only [isSpaceC, Bool.or_eq_false_iff, decide_eq_false_iff_not, Bool.and_eq_false_imp,
    decide_eq_true_eq, not_le]
  exact ⟨hne, by omega⟩

namespace PostfixToAST

variable {V : Type}

theorem isNumberLoop_digits (ds : Str) (h : ∀ c ∈ ds, isDigitC c = true) :
    ∀ hasDecimal hasDigit : Bool,
      isNumberLoop ds hasDecimal hasDigit = (hasDigit || !ds.isEmpty) := by
  induction ds with
  | nil => intro a b; simp [isNumberLoop]
  | cons c cs ih =>
    intro a b
    have hc := h c (List.mem_cons_self _ _)
    have hdot : c ≠ '.' := by
      intro h1
      rw [h1] at hc
      exact absurd hc (by decide)
    simp [isNumberLoop, hdot, hc, ih (fun x hx => h x (List.mem_cons_of_mem _ hx))]

theorem isDigits_number (tok : Str) (h : isDigits tok = true) : isNumber tok = true := by
  cases tok with
  | nil => simp [isDigits] at h
  | cons c cs =>
    simp only [isDigits, ne_eq, reduceCtorEq, not_false_eq_true, decide_True, Bool.true_and,
      List.all_eq_true] at h
    have hc := h c (List.mem_cons_self _ _)
    have hminus : c ≠ '-' := by
      intro h1
      rw [h1] at hc
      exact absurd hc (by decide)
    simp [isNumber, hminus, isNumberLoop_digits (c :: cs) h]

theorem isLetterInitialAlnum_variable (name : Str) (h : isLetterInitialAlnum name = true) :
    isVariable name = true := by
  cases name with
  | nil => simp [isLetterInitialAlnum] at h
  | cons c cs =>
    simp only [isLetterInitialAlnum, Bool.and_eq_true, List.all_eq_true] at h
    have hc : isAlnumC c = true := by simp [isAlnumC, h.1]
    simp only [isVariable, h.1, Bool.not_true, Bool.false_and, Bool.false_eq_true, if_false,
      List.all_eq_true, Bool.or_eq_true, decide_eq_true_eq]
    intro x hx
    rcases List.mem_cons.1 hx with h1 | h1
    · exact Or.inl (h1 ▸ hc)
    · exact Or.inl (h.2 x h1)

theorem processToken_number (ops : DoubleOps V) (tok : Str) (value : V)
    (stack : List (ASTNode V)) (h : isNumber tok = true) (hv : ops.stod tok = some value) :
    processToken ops tok stack = .ok (.number value :: stack) := by
  simp [processToken, h, hv]

/-- The builder rebuilds a tree from its post-order tokens. -/
theorem processTokens_rebuilds (ops : DoubleOps V) :
    ∀ (t : ASTNode V), ASTNode.Rebuilds ops t → ∀ stack : List (ASTNode V),
      processTokens ops (ASTNode.postfixTokens ops t) stack = .ok (t :: stack)
  | .functionCall _ _, h, _ => by simp [ASTNode.Rebuilds] at h
  | .number value, h, stack => by
    simp only [ASTNode.Rebuilds] at h
    simp [ASTNode.postfixTokens, processTokens, processToken_number ops _ value stack h.1 h.2]
  | .variable name, h, stack => by
    simp only [ASTNode.Rebuilds] at h
    simp [ASTNode.postfixTokens, processTokens, processToken_variable ops name stack h]
  | .unaryOp op operand, h, stack => by
    simp only [ASTNode.Rebuilds] at h
    obtain ⟨hop, hx⟩ := h
    subst hop
    rw [ASTNode.postfixTokens, processTokens_append,
      processTokens_rebuilds ops operand hx stack]
    simp [processTokens, processToken_negative]
  | .binaryOp op left right, h, stack => by
    simp only [ASTNode.Rebuilds] at h
    obtain ⟨hop, hl, hr⟩ := h
    rw [ASTNode.postfixTokens, processTokens_append, processTokens_append,
      processTokens_rebuilds ops left hl stack]
    simp only []
    rw [processTokens_rebuilds ops right hr (left :: stack)]
    simp [processTokens, processToken_binary ops op hop]

theorem tokenizeLoop_token (tok : Str) (h : ∀ c ∈ tok, isSpaceC c = false) :
    ∀ (cur rest : Str), cur ++ tok ≠ [] →
      tokenizeLoop (tok ++ ' ' :: rest) cur = (cur ++ tok) :: tokenizeLoop rest [] := by
  induction tok with
  | nil =>
    intro cur rest hne
    have hcur : cur ≠ [] := by simpa using hne
    simp [tokenizeLoop, show isSpaceC ' ' = true from by decide, hcur]
  | cons c cs ih =>
    intro cur rest _
    have hc := h c (List.mem_cons_self _ _)
    have key := ih (fun x hx => h x (List.mem_cons_of_mem _ hx)) (cur ++ [c]) rest (by simp)
    rw [List.cons_append, tokenizeLoop]
    simp only [hc, Bool.false_eq_true, if_false]
    rw [key]
    simp

/-- Splitting a space-separated text gives its tokens back. -/
theorem tokenize_textOf (toks : List Str)
    (h : ∀ t ∈ toks, isOperandToken t = true ∨ ∃ o, InfixToPostfix.isOp o = true ∧ t = [o]) :
    tokenize (textOf toks) = toks := by
  induction toks with
  | nil => rfl
  | cons tok rest ih =>
    have hne : tok ≠ [] ∧ ∀ c ∈ tok, isSpaceC c = false := by
      rcases h tok (List.mem_cons_self _ _) with h1 | ⟨o, ho, rfl⟩
      · simp only [isOperandToken, Bool.and_eq_true, List.all_eq_true, decide_eq_true_eq] at h1
        exact ⟨h1.1, fun c hc => isSpaceC_of_operand c (h1.2 c hc)⟩
      · refine ⟨by simp, ?_⟩
        intro c hc
        simp only [List.mem_singleton] at hc
        subst hc
        rcases (InfixToPostfix.isOp_iff c).1 ho with h2 | h2 | h2 | h2 | h2 | h2 <;>
          subst h2 <;> decide
    have ih1 := ih (fun t ht => h t (List.mem_cons_of_mem _ ht))
    simp only [tokenize] at ih1 ⊢
    rw [textOf, tokenizeLoop_token tok hne.2 [] (textOf rest) (by simpa using hne.1), ih1]
    simp

end PostfixToAST

namespace XDouble

theorem digitChar_facts (d : Nat) (h : d < 10) :
    isDigitC (Nat.digitChar d) = true ∧ (Nat.digitChar d).toNat - 48 = d := by
  interval_cases d <;> decide

/-- The digit loop of the library does not depend on its fuel. -/
theorem toDigitsCore_eq (n : Nat) : ∀ (fuel : Nat) (ds : List Char), n < fuel →
    Nat.toDigitsCore 10 fuel n ds = Nat.toDigits 10 n ++ ds := by
  induction n using Nat.strong_induction_on with
  | _ n ih =>
    intro fuel ds hf
    cases fuel with
    | zero => omega
    | succ f =>
      by_cases h0 : n / 10 = 0
      · simp [Nat.toDigits, Nat.toDigitsCore, h0]
      · have hlt : n / 10 < n := by omega
        have e1 : Nat.toDigits 10 n =
            Nat.toDigits 10 (n / 10) ++ [Nat.digitChar (n % 10)] := by
          have : Nat.toDigits 10 n =
              Nat.toDigitsCore 10 n (n / 10) [Nat.digitChar (n % 10)] := by
            simp [Nat.toDigits, Nat.toDigitsCore, h0]
          rw [this, ih (n / 10) hlt n _ hlt]
        have e2 : Nat.toDigitsCore 10 (f + 1) n ds =
            Nat.toDigitsCore 10 f (n / 10) (Nat.digitChar (n % 10) :: ds) := by
          simp [Nat.toDigitsCore, h0]
        rw [e2, ih (n / 10) hlt f _ (by omega), e1]
        simp

theorem toDigits_small (n : Nat) (h : n < 10) : Nat.toDigits 10 n = [Nat.digitChar n] := by
  have h0 : n / 10 = 0 := by omega
  have h1 : n % 10 = n := by omega
  simp [Nat.toDigits, Nat.toDigitsCore, h0, h1]

theorem toDigits_step (n : Nat) (h : 10 ≤ n) :
    Nat.toDigits 10 n = Nat.toDigits 10 (n / 10) ++ [Nat.digitChar (n % 10)] := by
  have h0 : ¬ n / 10 = 0 := by omega
  have : Nat.toDigits 10 n = Nat.toDigitsCore 10 n (n / 10) [Nat.digitChar (n % 10)] := by
    simp [Nat.toDigits, Nat.toDigitsCore, h0]
  rw [this, toDigitsCore_eq (n / 10) n _ (by omega)]

theorem digitsValue_append (l : Str) (c : Char) :
    digitsValue (l ++ [c]) = 10 * digitsValue l + (c.toNat - 48) := by
  simp [digitsValue, List.foldl_append]

/-- The decimal digits of `n`: digits only, at least one, of value `n`, and `n` is below
the power of ten of their number. -/
theorem toDigits_facts (n : Nat) :
    (∀ c ∈ Nat.toDigits 10 n, isDigitC c = true) ∧ Nat.toDigits 10 n ≠ [] ∧
    digitsValue (Nat.toDigits 10 n) = n ∧ n < 10 ^ (Nat.toDigits 10 n).length := by
  induction n using Nat.strong_induction_on with
  | _ n ih =>
    by_cases h : n < 10
    · rw [toDigits_small n h]
      obtain ⟨d1, d2⟩ := digitChar_facts n h
      refine ⟨by simpa using d1, by simp, ?_, by simpa using h⟩
      simp [digitsValue, d2]
    · have h10 : 10 ≤ n := by omega
      obtain ⟨a1, a2, a3, a4⟩ := ih (n / 10) (by omega)
      obtain ⟨d1, d2⟩ := digitChar_facts (n % 10) (Nat.mod_lt _ (by decide))
      rw [toDigits_step n h10]
      refine ⟨?_, by simp, ?_, ?_⟩
      · intro c hc
        rcases List.mem_append.1 hc with hc | hc
        · exact a1 c hc
        · rw [List.mem_singleton.1 hc]; exact d1
      · rw [digitsValue_append, a3, d2]
        omega
      · rw [List.length_append, List.length_singleton, pow_succ]
        omega

theorem toDigits_mul_pow (n : Nat) (h : 1 ≤ n) (k : Nat) :
    Nat.toDigits 10 (n * 10 ^ k) = Nat.toDigits 10 n ++ List.replicate k '0' := by
  induction k with
  | zero => simp
  | succ k ih =>
    have hpos : 1 ≤ n * 10 ^ k := Nat.mul_pos h (Nat.pow_pos (by decide))
    have e : n * 10 ^ (k + 1) = (n * 10 ^ k) * 10 := by rw [pow_succ, Nat.mul_assoc]
    rw [e, toDigits_step _ (by omega)]
    have e1 : n * 10 ^ k * 10 / 10 = n * 10 ^ k := by omega
    have e2 : n * 10 ^ k * 10 % 10 = 0 := by omega
    rw [e1, e2, ih, List.replicate_succ', List.append_assoc]
    rfl

theorem fraction_zeros (k : Nat) : fraction (List.replicate k '0') = [] := by
  have : stripZeros (List.replicate k '0') = [] := by
    simp only [stripZeros, List.reverse_replicate, List.reverse_eq_nil_iff]
    rw [List.dropWhile_eq_nil_iff]
    intro c hc
    simp [(List.mem_replicate.1 hc).2]
  simp [fraction, this]

/-- A positive integer below `10 ^ 6` is written with its decimal digits. -/
theorem renderPositive_integer (n : Nat) (h1 : 1 ≤ n) (h6 : n < 10 ^ 6) :
    renderPositive n 1 = Nat.toDigits 10 n := by
  obtain ⟨-, hne, -, hlt⟩ := toDigits_facts n
  have hlen6 : (Nat.toDigits 10 n).length ≤ 6 :=
    Nat.toDigitsCore_length 10 (by decide) (n + 1) n 6 h6 (by decide)
  have hlen1 : 1 ≤ (Nat.toDigits 10 n).length := List.length_pos.2 hne
  generalize hL : (Nat.toDigits 10 n).length = L at hlt hlen6 hlen1
  have hX0 : decimalExponent n 1 = (L : Int) - 1 := by
    simp [decimalExponent, h1, hL]
  have hsh : (5 - ((L : Int) - 1)).toNat = 6 - L := by omega
  have hm0 : roundHalfEven (n * 10 ^ (6 - L)) 1 = n * 10 ^ (6 - L) := by
    simp [roundHalfEven, Nat.mod_one]
  have hbound : n * 10 ^ (6 - L) < 1000000 := by
    have : n * 10 ^ (6 - L) < 10 ^ L * 10 ^ (6 - L) :=
      Nat.mul_lt_mul_of_pos_right hlt (Nat.pow_pos (by decide))
    rw [← pow_add, show L + (6 - L) = 6 by omega] at this
    exact this
  have hne6 : ¬ n * 10 ^ (6 - L) = 1000000 := by omega
  have hle5 : (L : Int) - 1 ≤ 5 := by omega
  have hnot : ¬ ((L : Int) - 1 < -4 ∨ (L : Int) - 1 ≥ 6) := by omega
  have hge : (L : Int) - 1 ≥ 0 := by omega
  have htn : ((L : Int) - 1).toNat + 1 = L := by omega
  simp only [renderPositive, hX0, hle5, if_true, hsh, hm0, hne6, if_false, hnot, hge, htn]
  rw [toDigits_mul_pow n h1, ← hL, List.take_left, List.drop_left, fraction_zeros,
    List.append_nil]

theorem render_natCast (n : Nat) (h6 : n < 10 ^ 6) :
    render (.exact (n : ℚ)) = Nat.toDigits 10 n := by
  by_cases h0 : n = 0
  · subst h0
    decide!
  · have hq : ¬ ((n : ℚ) = 0) := by exact_mod_cast h0
    have hq1 : ¬ ((n : ℚ) < 0) := by
      have : (0 : ℚ) ≤ (n : ℚ) := Nat.cast_nonneg n
      exact not_lt.2 this
    simp only [render, hq, if_false, hq1, List.nil_append, Rat.num_natCast, Int.natAbs_ofNat,
      Rat.den_natCast]
    exact renderPositive_integer n (by omega) h6

theorem stod_digits (l : Str) (h : isDigits l = true) :
    stod l = some (.exact (digitsValue l : ℚ)) := by
  have hnum := PostfixToAST.isDigits_number l h
  simp only [isDigits, Bool.and_eq_true, List.all_eq_true, decide_eq_true_eq] at h
  obtain ⟨hne, hall⟩ := h
  have hdot : ∀ c ∈ l, c ≠ '.' := by
    intro c hc he
    have := hall c hc
    rw [he] at this
    exact absurd this (by decide)
  have hhead : ¬ (l.head? = some '-') := by
    intro hh
    have hm : '-' ∈ l := List.mem_of_mem_head? hh
    exact absurd (hall _ hm) (by decide)
  have ht : l.takeWhile (fun c => decide (c ≠ '.')) = l := by
    rw [List.takeWhile_eq_self_iff]
    intro c hc
    simpa using hdot c hc
  have hd : l.dropWhile (fun c => decide (c ≠ '.')) = [] := by
    rw [List.dropWhile_eq_nil_iff]
    intro c hc
    simpa using hdot c hc
  simp only [stod, hnum, if_true, hhead, decide_False, Bool.false_eq_true, if_false, ht, hd,
    List.tail_nil, List.append_nil, List.length_nil, pow_zero, div_one]

end XDouble

namespace ASTNode

/-- Under the exact reading of `double`, every integer below `10 ^ 6` reprints: `toString`
writes it with its decimal digits, which `std::stod` reads back as the same value. -/
theorem reprints_integer (n : Nat) (h6 : n < 10 ^ 6) :
    Reprints exactOps (.number (.exact (n : ℚ))) := by
  obtain ⟨hall, hne, hval, -⟩ := XDouble.toDigits_facts n
  have hdig : isDigits (Nat.toDigits 10 n) = true := by
    simp only [isDigits, Bool.and_eq_true, List.all_eq_true, decide_eq_true_eq]
    exact ⟨hne, hall⟩
  have hdot : '.' ∉ Nat.toDigits 10 n := by
    intro hm
    exact absurd (hall _ hm) (by decide)
  have hts : toString exactOps (.number (.exact (n : ℚ))) = Nat.toDigits 10 n := by
    simp only [toString]
    show trimNumber (XDouble.render (.exact (n : ℚ))) = _
    rw [XDouble.render_natCast n h6]
    simp [trimNumber, hdot]
  simp only [Reprints]
  rw [hts]
  refine ⟨hdig, ?_⟩
  show XDouble.stod (Nat.toDigits 10 n) = _
  rw [XDouble.stod_digits _ hdig, hval]

end ASTNode

namespace ASTNode

variable {V : Type}

open InfixToPostfix PostfixToAST

/-- The converter on a fully parenthesized expression emits its postfix tokens. -/
theorem parses_shunts (ops : DoubleOps V) (s : Str) (toks : List Str) (t : ASTNode V)
    (h : Parses ops s toks t) : Shunts s 5 (textOf toks) := by
  induction h with
  | var name h => exact shunts_atom name (isLetterInitialAlnum_operand name h) 5
  | num lit value h hv => exact shunts_atom lit (isDigits_operand lit h) 5
  | paren op s1 s2 k1 k2 t1 t2 hop _ _ ih1 ih2 =>
    obtain ⟨-, hisop, h4, h2⟩ := binary_facts op hop
    have key := shunts_wrap (shunts_binary (opChar op) ih1 ih2 hisop (by omega) (by omega))
      h2 5
    simpa [textOf_append, textOf_singleton, List.append_assoc] using key
  | spaceLeft s k t _ ih => exact shunts_spaceLeft ih
  | spaceRight s k t _ ih => exact shunts_spaceRight ih

/-- The tokens of a fully parenthesized expression are operand runs and operators. -/
theorem parses_tokens (ops : DoubleOps V) (s : Str) (toks : List Str) (t : ASTNode V)
    (h : Parses ops s toks t) :
    ∀ k ∈ toks, isOperandToken k = true ∨ ∃ o, isOp o = true ∧ k = [o] := by
  induction h with
  | var name h =>
    intro k hk
    simp only [List.mem_singleton] at hk
    exact Or.inl (hk ▸ isLetterInitialAlnum_operand name h)
  | num lit value h hv =>
    intro k hk
    simp only [List.mem_singleton] at hk
    exact Or.inl (hk ▸ isDigits_operand lit h)
  | paren op s1 s2 k1 k2 t1 t2 hop _ _ ih1 ih2 =>
    intro k hk
    simp only [List.mem_append, List.mem_singleton] at hk
    rcases hk with (hk | hk) | hk
    · exact ih1 k hk
    · exact ih2 k hk
    · exact Or.inr ⟨opChar op, (binary_facts op hop).2.1, hk⟩
  | spaceLeft s k t _ ih => exact ih
  | spaceRight s k t _ ih => exact ih

/-- The builder on the tokens of a fully parenthesized expression builds its tree. -/
theorem parses_builds (ops : DoubleOps V) (s : Str) (toks : List Str) (t : ASTNode V)
    (h : Parses ops s toks t) :
    ∀ stack : List (ASTNode V), processTokens ops toks stack = .ok (t :: stack) := by
  induction h with
  | var name h =>
    intro stack
    simp [processTokens,
      processToken_variable ops name stack (isLetterInitialAlnum_variable name h)]
  | num lit value h hv =>
    intro stack
    simp [processTokens, processToken_number ops lit value stack (isDigits_number lit h) hv]
  | paren op s1 s2 k1 k2 t1 t2 hop _ _ ih1 ih2 =>
    intro stack
    have hb := processToken_binary ops op hop t1 t2 stack
    rw [(binary_facts op hop).1] at hb
    rw [processTokens_append, processTokens_append, ih1 stack]
    simp only []
    rw [ih2 (t1 :: stack)]
    simp [processTokens, hb]
  | spaceLeft s k t _ ih => exact ih
  | spaceRight s k t _ ih => exact ih

/-- The tree of a fully parenthesized expression whose numbers reprint can be written by
`toString`, converted and rebuilt. -/
theorem parses_infix_rebuilds (ops : DoubleOps V) (s : Str) (toks : List Str)
    (t : ASTNode V) (h : Parses ops s toks t) :
    Reprints ops t → isInfixTree ops t = true ∧ Rebuilds ops t := by
  induction h with
  | var name h =>
    intro _
    exact ⟨by simpa [isInfixTree] using isLetterInitialAlnum_operand name h,
      by simpa [Rebuilds] using isLetterInitialAlnum_variable name h⟩
  | num lit value h hv =>
    intro hr
    simp only [Reprints] at hr
    exact ⟨by simpa [isInfixTree] using isDigits_operand _ hr.1,
      by simpa [Rebuilds] using ⟨isDigits_number _ hr.1, hr.2⟩⟩
  | paren op s1 s2 k1 k2 t1 t2 hop _ _ ih1 ih2 =>
    intro hr
    simp only [Reprints] at hr
    obtain ⟨i1, r1⟩ := ih1 hr.1
    obtain ⟨i2, r2⟩ := ih2 hr.2
    exact ⟨by simp [isInfixTree, hop, i1, i2], by simp [Rebuilds, hop, r1, r2]⟩
  | spaceLeft s k t _ ih => exact ih
  | spaceRight s k t _ ih => exact ih

theorem infixTree_tokens (ops : DoubleOps V) :
    ∀ t : ASTNode V, isInfixTree ops t = true →
      ∀ k ∈ postfixTokens ops t, isOperandToken k = true ∨ ∃ o, isOp o = true ∧ k = [o]
  | .unaryOp _ _, h => by simp [isInfixTree] at h
  | .functionCall _ _, h => by simp [isInfixTree] at h
  | .number v, h => by
    intro k hk
    simp only [postfixTokens, List.mem_singleton] at hk
    simp only [isInfixTree] at h
    exact Or.inl (hk ▸ h)
  | .variable n, h => by
    intro k hk
    simp only [postfixTokens, List.mem_singleton] at hk
    simp only [isInfixTree] at h
    exact Or.inl (hk ▸ h)
  | .binaryOp op l r, h => by
    intro k hk
    simp only [isInfixTree, Bool.and_eq_true] at h
    simp only [postfixTokens, List.mem_append, List.mem_singleton] at hk
    rcases hk with (hk | hk) | hk
    · exact infixTree_tokens ops l h.1.2 k hk
    · exact infixTree_tokens ops r h.2 k hk
    · rw [(binary_facts op h.1.1).1] at hk
      exact Or.inr ⟨opChar op, (binary_facts op h.1.1).2.1, hk⟩

/-- C3 (amended): for every fully parenthesized infix expression `s` over the binary
operators `+ - * / ^` whose operands are variable names or digit-only number literals
accepted by `std::stod`, the tree `t` built from `convertInfixToPostfix(s)` exists; if
moreover every number of `t` is written by `toString` as a run of digits that `std::stod`
reads back as the same value, then the tree built from
`convertInfixToPostfix(t.toString())` exists too, is `t` again, and so evaluates to the
same result (same value or same failure) as `t` under every variable binding.  Under the
exact reading of `double` every integer below 10^6 is such a number, and 1000000 is
written `1e+06`. -/
theorem roundtrip_fully_parenthesized (ops : DoubleOps V) (s : Str) (toks : List Str)
    (t : ASTNode V) (hp : Parses ops s toks t) :
    (∃ post, convertInfixToPostfix s = .ok post ∧ convertString ops post = .ok t ∧
      (Reprints ops t → ∃ post1 t1,
        convertInfixToPostfix (toString ops t) = .ok post1 ∧
        convertString ops post1 = .ok t1 ∧ t1 = t ∧
        ∀ varMap : VariableMap V, evaluate ops varMap t1 = evaluate ops varMap t)) ∧
    (∀ n : ℕ, n < 10 ^ 6 → Reprints exactOps (.number (.exact (n : ℚ)))) ∧
    toString exactOps (.number (.exact 1000000)) = "1e+06".toList := by
  refine ⟨⟨textOf toks, shunts_convert (parses_shunts ops s toks t hp), ?_, ?_⟩,
    reprints_integer, by decide!⟩
  · rw [convertString, tokenize_textOf toks (parses_tokens ops s toks t hp)]
    simp [convert, parses_builds ops s toks t hp []]
  · intro hr
    obtain ⟨hinf, hreb⟩ := parses_infix_rebuilds ops s toks t hp hr
    refine ⟨textOf (postfixTokens ops t), t, shunts_convert (shunts_toString ops t hinf), ?_,
      rfl, fun _ => rfl⟩
    rw [convertString, tokenize_textOf _ (infixTree_tokens ops t hinf)]
    simp [convert, processTokens_rebuilds ops t hreb []]

end ASTNode

namespace ASTNode

open InfixToPostfix PostfixToAST

theorem parses_example :
    Parses exactOps "((12 + x) * y1)".toList
      ["12".toList, "x".toList, "+".toList, "y1".toList, "*".toList]
      (.binaryOp .MULTIPLY
        (.binaryOp .ADD (.number (.exact 12)) (.variable ['x'])) (.variable ['y', '1'])) := by
  have h12 : Parses exactOps "12".toList ["12".toList] (.number (.exact 12)) :=
    Parses.num _ _ (by decide) (by decide!)
  have hx : Parses exactOps "x".toList ["x".toList] (.variable ['x']) :=
    Parses.var _ (by decide)
  have hy : Parses exactOps "y1".toList ["y1".toList] (.variable ['y', '1']) :=
    Parses.var _ (by decide)
  have hsum := Parses.paren .ADD _ _ _ _ _ _ rfl
    (Parses.spaceRight _ _ _ h12) (Parses.spaceLeft _ _ _ hx)
  exact Parses.paren .MULTIPLY _ _ _ _ _ _ rfl
    (Parses.spaceRight _ _ _ hsum) (Parses.spaceLeft _ _ _ hy)

/-- C3 (amended), at `((12 + x) * y1)`: the expression is fully parenthesized, the first
build returns Multiply(Add(12, x), y1), whose number reprints and whose text is
`(12 + x) * y1`, and the second build returns the same tree. -/
theorem roundtrip_fully_parenthesized_witness :
    Parses exactOps "((12 + x) * y1)".toList
      ["12".toList, "x".toList, "+".toList, "y1".toList, "*".toList]
      (.binaryOp .MULTIPLY
        (.binaryOp .ADD (.number (.exact 12)) (.variable ['x'])) (.variable ['y', '1'])) ∧
    Reprints exactOps
      (.binaryOp .MULTIPLY
        (.binaryOp .ADD (.number (.exact 12)) (.variable ['x'])) (.variable ['y', '1'])) ∧
    toString exactOps
      (.binaryOp .MULTIPLY
        (.binaryOp .ADD (.number (.exact 12)) (.variable ['x'])) (.variable ['y', '1']))
      = "(12 + x) * y1".toList ∧
    convertInfixToPostfix "((12 + x) * y1)".toList = .ok "12 x + y1 * ".toList ∧
    convertInfixToPostfix "(12 + x) * y1".toList = .ok "12 x + y1 * ".toList ∧
    ((∃ post, convertInfixToPostfix "((12 + x) * y1)".toList = .ok post ∧
      convertString exactOps post =
        .ok (.binaryOp .MULTIPLY
          (.binaryOp .ADD (.number (.exact 12)) (.variable ['x'])) (.variable ['y', '1'])) ∧
      (Reprints exactOps
          (.binaryOp .MULTIPLY
            (.binaryOp .ADD (.number (.exact 12)) (.variable ['x']))
            (.variable ['y', '1'])) →
        ∃ post1 t1,
          convertInfixToPostfix
            (toString exactOps
              (.binaryOp .MULTIPLY
                (.binaryOp .ADD (.number (.exact 12)) (.variable ['x']))
                (.variable ['y', '1']))) = .ok post1 ∧
          convertString exactOps post1 = .ok t1 ∧
          t1 = .binaryOp .MULTIPLY
            (.binaryOp .ADD (.number (.exact 12)) (.variable ['x'])) (.variable ['y', '1']) ∧
          ∀ varMap : VariableMap XDouble,
            evaluate exactOps varMap t1 =
              evaluate exactOps varMap
                (.binaryOp .MULTIPLY
                  (.binaryOp .ADD (.number (.exact 12)) (.variable ['x']))
                  (.variable ['y', '1'])))) ∧
    (∀ n : ℕ, n < 10 ^ 6 → Reprints exactOps (.number (.exact (n : ℚ)))) ∧
    toString exactOps (.number (.exact 1000000)) = "1e+06".toList) := by
  have hr : Reprints exactOps
      (.binaryOp .MULTIPLY
        (.binaryOp .ADD (.number (.exact 12)) (.variable ['x'])) (.variable ['y', '1'])) := by
    simp only [Reprints, and_true]
    decide!
  exact ⟨parses_example, hr, by decide!, by decide, by decide,
    roundtrip_fully_parenthesized exactOps _ _ _ parses_example⟩

/-- C3 as stated fails at `(1000000 + 1)`: the first build succeeds, but `toString`
writes the number 1000000 as `1e+06`, the converter turns `1e+06 + 1` into
`1e 06 + 1 + `, and the second build fails on the token `1e`. -/
theorem roundtrip_fails_at_million :
    Parses exactOps "(1000000 + 1)".toList ["1000000".toList, "1".toList, "+".toList]
      (.binaryOp .ADD (.number (.exact 1000000)) (.number (.exact 1))) ∧
    convertInfixToPostfix "(1000000 + 1)".toList = .ok "1000000 1 + ".toList ∧
    convertString exactOps "1000000 1 + ".toList =
      .ok (.binaryOp .ADD (.number (.exact 1000000)) (.number (.exact 1))) ∧
    toString exactOps (.binaryOp .ADD (.number (.exact 1000000)) (.number (.exact 1))) =
      "1e+06 + 1".toList ∧
    convertInfixToPostfix "1e+06 + 1".toList = .ok "1e 06 + 1 + ".toList ∧
    convertString exactOps "1e 06 + 1 + ".toList = .error (.invalidToken "1e".toList) := by
  refine ⟨?_, by decide, by decide!, by decide!, by decide, by decide!⟩
  have hm : Parses exactOps "1000000".toList ["1000000".toList] (.number (.exact 1000000)) :=
    Parses.num _ _ (by decide) (by decide!)
  have h1 : Parses exactOps "1".toList ["1".toList] (.number (.exact 1)) :=
    Parses.num _ _ (by decide) (by decide!)
  exact Parses.paren .ADD _ _ _ _ _ _ rfl
    (Parses.spaceRight _ _ _ hm) (Parses.spaceLeft _ _ _ h1)

end ASTNode

/-! ## Theorems: evaluation -/

namespace ASTNode

variable {V : Type}

open PostfixToAST

/-- The map filled from a list of pairs has no value for `n` exactly when `n` is the name
of no pair. -/
theorem foldl_assign_none (pairs : List (Str × V)) : ∀ (m : VariableMap V) (n : Str),
    (pairs.foldl (fun m p => m.assign p.1 p.2) m) n = none ↔
      m n = none ∧ n ∉ pairs.map (·.1) := by
  induction pairs with
  | nil => intro m n; simp
  | cons p rest ih =>
    intro m n
    rw [List.foldl_cons, ih]
    simp only [VariableMap.assign, List.map_cons, List.mem_cons, not_or]
    by_cases h : n = p.1
    · simp only [h, if_true]
      constructor
      · rintro ⟨h1, -⟩
        exact Option.noConfusion h1
      · rintro ⟨-, h1, -⟩
        exact absurd trivial h1
    · simp only [h, if_false, not_false_eq_true, true_and]

/-- A value of the map filled from a list of pairs comes from the start map or from a
pair. -/
theorem foldl_assign_some (pairs : List (Str × V)) : ∀ (m : VariableMap V) (n : Str) (v : V),
    (pairs.foldl (fun m p => m.assign p.1 p.2) m) n = some v →
      m n = some v ∨ (n, v) ∈ pairs := by
  induction pairs with
  | nil => intro m n v h; exact Or.inl h
  | cons p rest ih =>
    intro m n v h
    rw [List.foldl_cons] at h
    rcases ih _ n v h with h1 | h1
    · by_cases h2 : n = p.1
      · simp only [VariableMap.assign, h2, if_true, Option.some.injEq] at h1
        right
        rw [h2, ← h1]
        exact List.mem_cons_self _ _
      · simp only [VariableMap.assign, h2, if_false] at h1
        exact Or.inl h1
    · exact Or.inr (List.mem_cons_of_mem _ h1)

/-- C12: for every Variable node with name `n` and every binding, `evaluate` returns the
value bound to `n` when `n` is a key of the binding and fails with "Undefined variable: n"
when it is not; with the binding given as a list of pairs, `n` is a key exactly when it is
the name of some pair.  The tree of `a b +` evaluates to 5 under a = 2, b = 3 and fails
with undefined variable `b` under a = 2 alone. -/
theorem evaluate_variable (ops : DoubleOps V) (varMap : VariableMap V)
    (pairs : List (Str × V)) (n : Str) :
    (∀ v, varMap n = some v → evaluate ops varMap (.variable n) = .ok v) ∧
    (varMap n = none → evaluate ops varMap (.variable n) = .error (.undefinedVariable n)) ∧
    (n ∈ pairs.map (·.1) →
      ∃ v, (n, v) ∈ pairs ∧ evaluatePairs ops pairs (.variable n) = .ok v) ∧
    (n ∉ pairs.map (·.1) →
      evaluatePairs ops pairs (.variable n) = .error (.undefinedVariable n)) ∧
    convertString exactOps "a b +".toList =
      .ok (.binaryOp .ADD (.variable ['a']) (.variable ['b'])) ∧
    evaluatePairs exactOps [(['a'], .exact 2), (['b'], .exact 3)]
      (.binaryOp .ADD (.variable ['a']) (.variable ['b'])) = .ok (.exact 5) ∧
    evaluatePairs exactOps [(['a'], .exact 2)]
      (.binaryOp .ADD (.variable ['a']) (.variable ['b'])) =
        .error (.undefinedVariable ['b']) := by
  refine ⟨?_, ?_, ?_, ?_, by decide, by decide!, by decide!⟩
  · intro v h
    simp [evaluate, h]
  · intro h
    simp [evaluate, h]
  · intro h
    cases hm : (pairs.foldl (fun m p => m.assign p.1 p.2) VariableMap.empty) n with
    | none => exact absurd h ((foldl_assign_none pairs _ n).1 hm).2
    | some v =>
      rcases foldl_assign_some pairs _ n v hm with h1 | h1
      · simp [VariableMap.empty] at h1
      · exact ⟨v, h1, by simp [evaluatePairs, evaluate, hm]⟩
  · intro h
    have hm := (foldl_assign_none pairs VariableMap.empty n).2 ⟨rfl, h⟩
    simp [evaluatePairs, evaluate, hm]

/-- C13: for a BinaryOp node with operator Divide whose children evaluate to `l` and `r`,
`evaluate` fails with "Division by zero" if and only if `r == 0`, and otherwise returns
`l / r`. -/
theorem evaluate_divide (ops : DoubleOps V) (varMap : VariableMap V) (left right : ASTNode V)
    (l r : V) (hl : evaluate ops varMap left = .ok l) (hr : evaluate ops varMap right = .ok r) :
    (evaluate ops varMap (.binaryOp .DIVIDE left right) = .error .divisionByZero ↔
      ops.isZero r = true) ∧
    (ops.isZero r = false →
      evaluate ops varMap (.binaryOp .DIVIDE left right) = .ok (ops.div l r)) := by
  cases hz : ops.isZero r <;> simp [evaluate, hl, hr, applyBinary, hz]

/-- C13, at the tree of `5 0 /`: the children evaluate to 5 and 0 and the division fails
with "Division by zero"; `6 3 /` evaluates to 2. -/
theorem evaluate_divide_witness :
    convertString exactOps "5 0 /".toList =
      .ok (.binaryOp .DIVIDE (.number (.exact 5)) (.number (.exact 0))) ∧
    evaluate exactOps VariableMap.empty (.number (.exact 5)) = .ok (.exact 5) ∧
    evaluate exactOps VariableMap.empty (.number (.exact 0)) = .ok (.exact 0) ∧
    exactOps.isZero (.exact 0) = true ∧
    evaluate exactOps VariableMap.empty
      (.binaryOp .DIVIDE (.number (.exact 5)) (.number (.exact 0))) = .error .divisionByZero ∧
    evaluate exactOps VariableMap.empty
      (.binaryOp .DIVIDE (.number (.exact 6)) (.number (.exact 3))) = .ok (.exact 2) :=
  ⟨by decide!, rfl, rfl, by decide!,
   (evaluate_divide exactOps VariableMap.empty (.number (.exact 5)) (.number (.exact 0))
      (.exact 5) (.exact 0) rfl rfl).1.2 (by decide!),
   by decide!⟩

end ASTNode

namespace ASTNode

variable {V : Type}

open PostfixToAST

theorem evaluateArgs_length (ops : DoubleOps V) (varMap : VariableMap V) :
    ∀ (args : List (ASTNode V)) (vals : List V),
      evaluateArgs ops varMap args = .ok vals → vals.length = args.length := by
  intro args
  induction args with
  | nil => intro vals h; simp [evaluateArgs] at h; simp [← h]
  | cons a rest ih =>
    intro vals h
    simp only [evaluateArgs] at h
    cases ha : evaluate ops varMap a with
    | error e => simp [ha] at h
    | ok v =>
      cases hrest : evaluateArgs ops varMap rest with
      | error e => simp [ha, hrest] at h
      | ok vs =>
        simp only [ha, hrest, Except.ok.injEq] at h
        simp [← h, ih vs hrest]

theorem applyFunction_unknown_iff (ops : DoubleOps V) (f g : Str) (vals : List V) :
    applyFunction ops f vals = .error (.unknownFunction g) ↔
      g = f ∧ (f ∉ evaluableFunctions ∨ vals.length ≠ 1) := by
  match vals with
  | [] => simp [applyFunction, eq_comm]
  | _ :: _ :: _ => simp [applyFunction, eq_comm]
  | [a] =>
    simp only [applyFunction, evaluableFunctions, List.length_singleton, ne_eq,
      not_true_eq_false, or_false, List.mem_cons, List.mem_singleton, List.not_mem_nil]
    by_cases h1 : f = "sin".toList
    · simp [h1]
    by_cases h2 : f = "cos".toList
    · simp [h2]
    by_cases h3 : f = "sqrt".toList
    · subst h3
      cases ops.ltZero a <;> simp
    by_cases h4 : f = "log".toList
    · subst h4
      cases ops.leZero a <;> simp
    by_cases h5 : f = "exp".toList
    · simp [h5]
    by_cases h6 : f = "abs".toList
    · simp [h6]
    simp only [h1, h2, h3, h4, h5, h6, if_false, or_self, not_false_eq_true, and_true,
      Except.error.injEq, EvalError.unknownFunction.injEq]
    exact eq_comm

/-- C14: for a FunctionCall node whose arguments all evaluate successfully, `evaluate`
fails with "Unknown function or wrong number of arguments" if and only if the name is not
one of sin, cos, sqrt, log, exp, abs or the argument count is not 1 (so tan, min and max
always fail); with one argument `a`: sqrt fails with "Square root of negative number" iff
`a < 0`, log fails with "Log of non-positive number" iff `a <= 0`, and sin, cos, exp and
abs never fail. -/
theorem evaluate_functionCall (ops : DoubleOps V) (varMap : VariableMap V) (f : Str)
    (args : List (ASTNode V)) (vals : List V)
    (h : evaluateArgs ops varMap args = .ok vals) :
    ((∃ g, evaluate ops varMap (.functionCall f args) = .error (.unknownFunction g)) ↔
      (f ∉ evaluableFunctions ∨ args.length ≠ 1)) ∧
    ((f ∉ evaluableFunctions ∨ args.length ≠ 1) →
      evaluate ops varMap (.functionCall f args) = .error (.unknownFunction f)) ∧
    (∀ g ∈ ["tan".toList, "min".toList, "max".toList],
      evaluate ops varMap (.functionCall g args) = .error (.unknownFunction g)) ∧
    (∀ a, vals = [a] →
      (evaluate ops varMap (.functionCall "sqrt".toList args) = .error .squareRootOfNegative ↔
        ops.ltZero a = true) ∧
      (ops.ltZero a = false →
        evaluate ops varMap (.functionCall "sqrt".toList args) = .ok (ops.sqrt a)) ∧
      (evaluate ops varMap (.functionCall "log".toList args) = .error .logOfNonPositive ↔
        ops.leZero a = true) ∧
      (ops.leZero a = false →
        evaluate ops varMap (.functionCall "log".toList args) = .ok (ops.log a)) ∧
      evaluate ops varMap (.functionCall "sin".toList args) = .ok (ops.sin a) ∧
      evaluate ops varMap (.functionCall "cos".toList args) = .ok (ops.cos a) ∧
      evaluate ops varMap (.functionCall "exp".toList args) = .ok (ops.exp a) ∧
      evaluate ops varMap (.functionCall "abs".toList args) = .ok (ops.abs a)) := by
  have hlen := evaluateArgs_length ops varMap args vals h
  have hev : ∀ g, evaluate ops varMap (.functionCall g args) = applyFunction ops g vals := by
    intro g
    simp [evaluate, h]
  refine ⟨?_, ?_, ?_, ?_⟩
  · rw [hev]
    constructor
    · rintro ⟨g, hg⟩
      have := ((applyFunction_unknown_iff ops f g vals).1 hg).2
      rwa [hlen] at this
    · intro hc
      exact ⟨f, (applyFunction_unknown_iff ops f f vals).2 ⟨rfl, by rwa [hlen]⟩⟩
  · intro hc
    rw [hev]
    exact (applyFunction_unknown_iff ops f f vals).2 ⟨rfl, by rwa [hlen]⟩
  · intro g hg
    rw [hev]
    apply (applyFunction_unknown_iff ops g g vals).2
    refine ⟨rfl, Or.inl ?_⟩
    simp only [List.mem_cons, List.mem_singleton, List.not_mem_nil, or_false] at hg
    rcases hg with hg | hg | hg <;> subst hg <;> decide
  · intro a ha
    subst ha
    simp only [hev, applyFunction]
    cases ops.ltZero a <;> cases ops.leZero a <;> simp

/-- C14, at sqrt(-1) (fails with "Square root of negative number"), sqrt(4) = 2,
log(0) (fails with "Log of non-positive number"), tan(0) and min(1, 2) (unknown function
or wrong number of arguments), and sin(0) = 0. -/
theorem evaluate_functionCall_witness :
    evaluateArgs exactOps VariableMap.empty [.number (.exact (-1))] = .ok [.exact (-1)] ∧
    exactOps.ltZero (.exact (-1)) = true ∧
    evaluate exactOps VariableMap.empty
      (.functionCall "sqrt".toList [.number (.exact (-1))]) = .error .squareRootOfNegative ∧
    evaluate exactOps VariableMap.empty
      (.functionCall "sqrt".toList [.number (.exact 4)]) = .ok (.exact 2) ∧
    evaluate exactOps VariableMap.empty
      (.functionCall "log".toList [.number (.exact 0)]) = .error .logOfNonPositive ∧
    evaluate exactOps VariableMap.empty
      (.functionCall "tan".toList [.number (.exact 0)]) =
        .error (.unknownFunction "tan".toList) ∧
    evaluate exactOps VariableMap.empty
      (.functionCall "min".toList [.number (.exact 1), .number (.exact 2)]) =
        .error (.unknownFunction "min".toList) ∧
    evaluate exactOps VariableMap.empty
      (.functionCall "sin".toList [.number (.exact 0)]) = .ok (.exact 0) :=
  ⟨rfl, by decide!,
   ((evaluate_functionCall exactOps VariableMap.empty "sqrt".toList
      [.number (.exact (-1))] [.exact (-1)] rfl).2.2.2 (.exact (-1)) rfl).1.2 (by decide!),
   by decide!, by decide!, by decide!, by decide!, by decide!⟩

/-- C15: `evaluate` is compositional on arithmetic nodes: a Number node returns its stored
value; when the children evaluate to `l` and `r`, a BinaryOp node with operator Add,
Subtract or Multiply returns `l + r`, `l - r`, `l * r`; a UnaryOp(Negative) node whose
child evaluates to `l` returns `-l`. -/
theorem evaluate_arithmetic (ops : DoubleOps V) (varMap : VariableMap V)
    (left right : ASTNode V) (l r value : V)
    (hl : evaluate ops varMap left = .ok l) (hr : evaluate ops varMap right = .ok r) :
    evaluate ops varMap (.number value) = .ok value ∧
    evaluate ops varMap (.binaryOp .ADD left right) = .ok (ops.add l r) ∧
    evaluate ops varMap (.binaryOp .SUBTRACT left right) = .ok (ops.sub l r) ∧
    evaluate ops varMap (.binaryOp .MULTIPLY left right) = .ok (ops.mul l r) ∧
    evaluate ops varMap (.unaryOp .NEGATIVE left) = .ok (ops.neg l) := by
  simp [evaluate, hl, hr, applyBinary, applyUnary]

/-- C15, at the tree of `3 4 +`: it evaluates to 7 under the empty binding. -/
theorem evaluate_arithmetic_witness :
    convertString exactOps "3 4 +".toList =
      .ok (.binaryOp .ADD (.number (.exact 3)) (.number (.exact 4))) ∧
    evaluate exactOps VariableMap.empty (.number (.exact 3)) = .ok (.exact 3) ∧
    evaluate exactOps VariableMap.empty (.number (.exact 4)) = .ok (.exact 4) ∧
    exactOps.add (.exact 3) (.exact 4) = .exact 7 ∧
    evaluate exactOps VariableMap.empty
      (.binaryOp .ADD (.number (.exact 3)) (.number (.exact 4))) = .ok (.exact 7) ∧
    evaluatePairs exactOps [] (.binaryOp .ADD (.number (.exact 3)) (.number (.exact 4))) =
      .ok (.exact 7) :=
  ⟨by decide!, rfl, rfl, by decide!,
   (show exactOps.add (.exact 3) (.exact 4) = XDouble.exact 7 from by decide!) ▸
     (evaluate_arithmetic exactOps VariableMap.empty (.number (.exact 3))
       (.number (.exact 4)) (.exact 3) (.exact 4) (.exact 0) rfl rfl).2.1,
   by decide!⟩

end ASTNode

/-! ## Theorems: serialisation of operator nodes -/

namespace ASTNode

variable {V : Type}

open PostfixToAST

theorem opOf_some_iff (p : OperatorType → Prop) (c : ASTNode V) :
    (∃ o, opOf c = some o ∧ p o) ↔ IsOperatorNodeWith p c := by
  match c with
  | .number v => simp [opOf, IsOperatorNodeWith]
  | .variable n => simp [opOf, IsOperatorNodeWith]
  | .functionCall f args => simp [opOf, IsOperatorNodeWith]
  | .binaryOp o l r => simp [opOf, IsOperatorNodeWith]
  | .unaryOp o x => simp [opOf, IsOperatorNodeWith]

theorem needParenLeft_iff (op : OperatorType) (c : ASTNode V) :
    needParenLeft op c = true ↔
      IsOperatorNodeWith (fun o => getPrecedence o < getPrecedence op) c := by
  rw [← opOf_some_iff]
  cases h : opOf c <;> simp [needParenLeft, h]

theorem needParenRight_iff (op : OperatorType) (c : ASTNode V) :
    needParenRight op c = true ↔
      IsOperatorNodeWith (fun o => getPrecedence o ≤ getPrecedence op) c := by
  rw [← opOf_some_iff]
  cases h : opOf c <;> simp [needParenRight, h]

/-- C16: for every BinaryOp node with operator `op` and children `L` and `R`, `toString`
returns the text of `L`, a space, the symbol of `op`, a space, the text of `R`, where the
text of `L` is put in parentheses iff `L` is a BinaryOp or UnaryOp node whose precedence is
strictly lower than that of `op`, and the text of `R` iff `R` is a BinaryOp or UnaryOp node
whose precedence is lower than or equal to that of `op` (precedences: `^` 4, unary minus 3,
`*` and `/` 2, `+` and `-` 1).  Subtract(a, Subtract(b, c)) gives `a - (b - c)`,
Subtract(Subtract(a, b), c) gives `a - b - c`, and the tree of `3 4 +` gives `3 + 4`. -/
theorem toString_binaryOp (ops : DoubleOps V) (op : OperatorType) (L R : ASTNode V) :
    (∃ bL bR : Bool,
      toString ops (.binaryOp op L R) =
        parenthesizedIf bL (toString ops L) ++ [' '] ++ opToString op ++ [' '] ++
          parenthesizedIf bR (toString ops R) ∧
      (bL = true ↔ IsOperatorNodeWith (fun o => getPrecedence o < getPrecedence op) L) ∧
      (bR = true ↔ IsOperatorNodeWith (fun o => getPrecedence o ≤ getPrecedence op) R)) ∧
    (getPrecedence .POWER = 4 ∧ getPrecedence .NEGATIVE = 3 ∧ getPrecedence .MULTIPLY = 2 ∧
      getPrecedence .DIVIDE = 2 ∧ getPrecedence .ADD = 1 ∧ getPrecedence .SUBTRACT = 1) ∧
    toString exactOps
      (.binaryOp .SUBTRACT (.variable ['a'])
        (.binaryOp .SUBTRACT (.variable ['b']) (.variable ['c']))) = "a - (b - c)".toList ∧
    toString exactOps
      (.binaryOp .SUBTRACT (.binaryOp .SUBTRACT (.variable ['a']) (.variable ['b']))
        (.variable ['c'])) = "a - b - c".toList ∧
    convertString exactOps "3 4 +".toList =
      .ok (.binaryOp .ADD (.number (.exact 3)) (.number (.exact 4))) ∧
    toString exactOps (.binaryOp .ADD (.number (.exact 3)) (.number (.exact 4))) =
      "3 + 4".toList := by
  refine ⟨⟨needParenLeft op L, needParenRight op R, ?_, needParenLeft_iff op L,
    needParenRight_iff op R⟩, by decide, by decide, by decide, by decide!, by decide!⟩
  simp only [toString, wrap, parenthesizedIf]
  cases needParenLeft op L <;> cases needParenRight op R <;> simp

end ASTNode

/-! ## Theorems: variable collection -/

theorem mem_uniqueAdjacent (n : Str) (l : List Str) : ∀ a : Str,
    n ∈ uniqueAdjacent (a :: l) ↔ n ∈ a :: l := by
  induction l with
  | nil => intro a; simp [uniqueAdjacent]
  | cons b rest ih =>
    intro a
    by_cases h : a = b
    · subst h
      simp [uniqueAdjacent, ih a]
    · simp [uniqueAdjacent, h, ih b]

theorem sorted_uniqueAdjacent (l : List Str) : ∀ a : Str,
    List.Sorted (· ≤ ·) (a :: l) → List.Sorted (· < ·) (uniqueAdjacent (a :: l)) := by
  induction l with
  | nil => intro a _; simp [uniqueAdjacent]
  | cons b rest ih =>
    intro a hs
    have hs1 := List.sorted_cons.1 hs
    have hs2 := List.sorted_cons.1 hs1.2
    by_cases h : a = b
    · subst h
      simpa [uniqueAdjacent] using ih a hs1.2
    · have hab : a < b := lt_of_le_of_ne (hs1.1 b (List.mem_cons_self _ _)) h
      simp only [uniqueAdjacent, h, if_false]
      refine List.sorted_cons.2 ⟨?_, ih b hs1.2⟩
      intro x hx
      rcases List.mem_cons.1 ((mem_uniqueAdjacent x rest b).1 hx) with h1 | h1
      · exact h1 ▸ hab
      · exact lt_of_lt_of_le hab (hs2.1 x h1)

/-- Sorting and then removing adjacent duplicates gives a strictly increasing list with
the same elements. -/
theorem sort_unique (l : List Str) :
    List.Sorted (· < ·) (uniqueAdjacent (sortStrings l)) ∧
    ∀ n, n ∈ uniqueAdjacent (sortStrings l) ↔ n ∈ l := by
  have hsorted : List.Sorted (· ≤ ·) (sortStrings l) := List.sorted_insertionSort _ l
  have hperm : (sortStrings l).Perm l := List.perm_insertionSort _ l
  cases hl : sortStrings l with
  | nil =>
    have : l = [] := by
      rw [hl] at hperm
      exact List.Perm.eq_nil hperm.symm
    subst this
    simp [uniqueAdjacent]
  | cons a rest =>
    rw [hl] at hsorted hperm
    refine ⟨sorted_uniqueAdjacent rest a hsorted, fun n => ?_⟩
    rw [mem_uniqueAdjacent]
    exact hperm.mem_iff

namespace ASTNode

variable {V : Type}

mutual
theorem mem_collectVariablesRecursive (n : Str) :
    ∀ (t : ASTNode V) (vars : List Str),
      n ∈ collectVariablesRecursive t vars ↔ n ∈ vars ∨ HasVariable n t
  | .number _, vars => by simp [collectVariablesRecursive, HasVariable]
  | .variable name, vars => by
    simp [collectVariablesRecursive, HasVariable, eq_comm]
  | .unaryOp _ operand, vars => by
    simp [collectVariablesRecursive, HasVariable,
      mem_collectVariablesRecursive n operand vars]
  | .binaryOp _ left right, vars => by
    simp [collectVariablesRecursive, HasVariable,
      mem_collectVariablesRecursive n right (collectVariablesRecursive left vars),
      mem_collectVariablesRecursive n left vars, or_assoc]
  | .functionCall _ arguments, vars => by
    simp [collectVariablesRecursive, HasVariable, mem_collectVariablesArgs n arguments vars]
theorem mem_collectVariablesArgs (n : Str) :
    ∀ (args : List (ASTNode V)) (vars : List Str),
      n ∈ collectVariablesArgs args vars ↔ n ∈ vars ∨ HasVariableArgs n args
  | [], vars => by simp [collectVariablesArgs, HasVariableArgs]
  | arg :: rest, vars => by
    simp [collectVariablesArgs, HasVariableArgs,
      mem_collectVariablesArgs n rest (collectVariablesRecursive arg vars),
      mem_collectVariablesRecursive n arg vars, or_assoc]
end

/-- The elements of `collectVariables` are the names of the Variable nodes of the tree. -/
theorem collectVariables_mem (t : ASTNode V) (n : Str) :
    n ∈ collectVariables t ↔ HasVariable n t := by
  rw [collectVariables, (sort_unique _).2, mem_collectVariablesRecursive]
  simp

/-- C17: for every tree, `collectVariables` returns a strictly increasing (sorted,
duplicate-free) list whose elements are exactly the names of the Variable nodes occurring
anywhere in the tree, also below UnaryOp and FunctionCall nodes.  The tree of `a b c * +`
gives `[a, b, c]`; a name occurring twice appears once. -/
theorem collectVariables_exact (t : ASTNode V) :
    List.Sorted (· < ·) (collectVariables t) ∧
    (∀ n, n ∈ collectVariables t ↔ HasVariable n t) ∧
    PostfixToAST.convertString exactOps "a b c * +".toList =
      .ok (.binaryOp .ADD (.variable ['a'])
        (.binaryOp .MULTIPLY (.variable ['b']) (.variable ['c']))) ∧
    collectVariables (V := XDouble)
      (.binaryOp .ADD (.variable ['a'])
        (.binaryOp .MULTIPLY (.variable ['b']) (.variable ['c']))) = [['a'], ['b'], ['c']] ∧
    collectVariables (V := XDouble)
      (.binaryOp .ADD (.variable ['b'])
        (.binaryOp .MULTIPLY (.variable ['a']) (.variable ['b']))) = [['a'], ['b']] ∧
    collectVariables (V := XDouble)
      (.unaryOp .NEGATIVE
        (.functionCall "max".toList [.variable ['y'], .number (.exact 1), .variable ['x']]))
      = [['x'], ['y']] := by
  exact ⟨(sort_unique _).1, collectVariables_mem t, by decide, by decide, by decide,
    by decide⟩

end ASTNode

namespace PostfixToAST

variable {V : Type}

/-- `isVariable` accepts exactly the variable-shaped tokens. -/
theorem isVariable_iff_shaped (tok : Str) : isVariable tok = true ↔ VariableShaped tok := by
  cases tok with
  | nil => simp [isVariable, VariableShaped]
  | cons c cs =>
    have hall : ((c :: cs).all (fun ch => isAlnumC ch || decide (ch = '_')) = true) ↔
        (isAlphaC c = true ∨ isDigitC c = true ∨ c = '_') ∧
          ∀ x ∈ cs, isAlphaC x = true ∨ isDigitC x = true ∨ x = '_' := by
      simp [isAlnumC, or_assoc]
    constructor
    · intro h
      by_cases h1 : isAlphaC c = true
      · simp only [isVariable, h1, Bool.not_true, Bool.false_and, Bool.false_eq_true,
          if_false] at h
        exact ⟨c, cs, rfl, Or.inl h1, (hall.1 h).2⟩
      · by_cases h2 : c = '_'
        · have h3 : (!isAlphaC c && c != '_') = false := by simp [h2]
          simp only [isVariable, h3, Bool.false_eq_true, if_false] at h
          exact ⟨c, cs, rfl, Or.inr h2, (hall.1 h).2⟩
        · have h3 : (!isAlphaC c && c != '_') = true := by simp [h1, h2]
          simp [isVariable, h3] at h
    · rintro ⟨d, ds, heq, hfirst, hrest⟩
      simp only [List.cons.injEq] at heq
      obtain ⟨rfl, rfl⟩ := heq
      have h3 : (!isAlphaC c && c != '_') = false := by
        rcases hfirst with h1 | h1
        · simp [h1]
        · simp [h1]
      simp only [isVariable, h3, Bool.false_eq_true, if_false]
      refine hall.2 ⟨?_, hrest⟩
      rcases hfirst with h1 | h1
      · exact Or.inl h1
      · exact Or.inr (Or.inr h1)

/-- C18: for every token list (valid postfix or not), `extractVariables` returns a strictly
increasing (sorted, duplicate-free) list whose elements are exactly the tokens that are
variable-shaped (first character a letter or an underscore, remaining characters letters,
digits or underscores); the string overload is the token overload applied to the
whitespace split of the string.  `temp pressure volume * + R /` gives
`[R, pressure, temp, volume]`. -/
theorem extractVariables_exact (tokens : List Str) :
    List.Sorted (· < ·) (extractVariables tokens) ∧
    (∀ n, n ∈ extractVariables tokens ↔ n ∈ tokens ∧ VariableShaped n) ∧
    (∀ s : Str, extractVariablesString s = extractVariables (tokenize s)) ∧
    extractVariablesString "temp pressure volume * + R /".toList =
      ["R".toList, "pressure".toList, "temp".toList, "volume".toList] ∧
    extractVariables ["x".toList, "+".toList, "_y1".toList, "x".toList, "2z".toList] =
      ["_y1".toList, "x".toList] := by
  refine ⟨(sort_unique _).1, fun n => ?_, fun _ => rfl, by decide, by decide⟩
  rw [extractVariables, (sort_unique _).2, List.mem_filter, isVariable_iff_shaped]

theorem validateLoop_iff (provided : List Str) (l : List Str) :
    validateLoop provided l = true ↔ ∀ n ∈ l, n ∈ provided := by
  induction l with
  | nil => simp [validateLoop]
  | cons a rest ih =>
    by_cases h : a ∈ provided
    · simp [validateLoop, h, ih]
    · simp [validateLoop, h]

theorem mem_names_iff (pairs : List (Str × V)) (n : Str) :
    n ∈ pairs.map (·.1) ↔ ∃ v, (n, v) ∈ pairs := by
  simp only [List.mem_map, Prod.exists]
  constructor
  · rintro ⟨a, b, hab, rfl⟩
    exact ⟨b, hab⟩
  · rintro ⟨v, hv⟩
    exact ⟨n, v, hv, rfl⟩

/-- C19: `validateVariables` returns true if and only if every name of the tree's
`collectVariables()` is the name of some pair of the list; provided names the tree does not
use never change the result (two lists that provide the same names among the tree's
variables give the same answer); the function is total: it returns a boolean and never
throws. -/
theorem validateVariables_iff (t : ASTNode V) (pairs : List (Str × V)) :
    (validateVariables t pairs = true ↔
      ∀ n ∈ ASTNode.collectVariables t, ∃ v, (n, v) ∈ pairs) ∧
    (∀ pairs1 : List (Str × V),
      (∀ n ∈ ASTNode.collectVariables t, (n ∈ pairs1.map (·.1) ↔ n ∈ pairs.map (·.1))) →
      validateVariables t pairs1 = validateVariables t pairs) ∧
    (∀ extra : List (Str × V), (∀ p ∈ extra, p.1 ∉ ASTNode.collectVariables t) →
      validateVariables t (pairs ++ extra) = validateVariables t pairs) ∧
    validateVariables (V := XDouble)
      (.binaryOp .MULTIPLY (.variable ['x'])
        (.binaryOp .ADD (.variable ['y']) (.variable ['z'])))
      [(['x'], .exact 2), (['y'], .exact 3)] = false ∧
    validateVariables (V := XDouble)
      (.binaryOp .MULTIPLY (.variable ['x'])
        (.binaryOp .ADD (.variable ['y']) (.variable ['z'])))
      [(['z'], .exact 1), (['w'], .exact 0), (['x'], .exact 2), (['y'], .exact 3)] = true := by
  have hcongr : ∀ pairs1 : List (Str × V),
      (∀ n ∈ ASTNode.collectVariables t, (n ∈ pairs1.map (·.1) ↔ n ∈ pairs.map (·.1))) →
      validateVariables t pairs1 = validateVariables t pairs := by
    intro pairs1 h
    rw [Bool.eq_iff_iff, validateVariables, validateVariables, validateLoop_iff,
      validateLoop_iff]
    exact ⟨fun h1 n hn => (h n hn).1 (h1 n hn), fun h1 n hn => (h n hn).2 (h1 n hn)⟩
  refine ⟨?_, hcongr, ?_, by decide!, by decide!⟩
  · rw [validateVariables, validateLoop_iff]
    exact ⟨fun h n hn => (mem_names_iff pairs n).1 (h n hn),
      fun h n hn => (mem_names_iff pairs n).2 (h n hn)⟩
  · intro extra hextra
    apply hcongr
    intro n hn
    simp only [List.map_append, List.mem_append, List.mem_map]
    constructor
    · rintro (h | ⟨p, hp, rfl⟩)
      · exact h
      · exact absurd hn (hextra p hp)
    · exact Or.inl

end PostfixToAST

/-! ## Theorems: validation against evaluation -/

namespace ASTNode

variable {V : Type}

open PostfixToAST

theorem applyBinary_ne_undefined (ops : DoubleOps V) (op : OperatorType) (l r : V) (n : Str) :
    applyBinary ops op l r ≠ .error (.undefinedVariable n) := by
  cases op <;> simp [applyBinary]
  split <;> simp

theorem applyUnary_ne_undefined (ops : DoubleOps V) (op : OperatorType) (v : V) (n : Str) :
    applyUnary ops op v ≠ .error (.undefinedVariable n) := by
  cases op <;> simp [applyUnary]

theorem applyFunction_ne_undefined (ops : DoubleOps V) (f : Str) (vals : List V) (n : Str) :
    applyFunction ops f vals ≠ .error (.undefinedVariable n) := by
  match vals with
  | [] => simp [applyFunction]
  | _ :: _ :: _ => simp [applyFunction]
  | [a] =>
    simp only [applyFunction]
    repeat' split
    all_goals simp

mutual
/-- A successful evaluation has looked up every variable of the tree. -/
theorem evaluate_ok_defined (ops : DoubleOps V) (varMap : VariableMap V) :
    ∀ (t : ASTNode V) (v : V), evaluate ops varMap t = .ok v →
      ∀ n, HasVariable n t → varMap n ≠ none
  | .number _, _, _, n, hn => by simp [HasVariable] at hn
  | .variable name, v, h, n, hn => by
    simp only [HasVariable] at hn
    subst hn
    intro hnone
    simp [evaluate, hnone] at h
  | .unaryOp op operand, v, h, n, hn => by
    simp only [HasVariable] at hn
    cases hx : evaluate ops varMap operand with
    | error e => simp [evaluate, hx] at h
    | ok x => exact evaluate_ok_defined ops varMap operand x hx n hn
  | .binaryOp op left right, v, h, n, hn => by
    simp only [HasVariable] at hn
    cases hl : evaluate ops varMap left with
    | error e => simp [evaluate, hl] at h
    | ok l =>
      cases hr : evaluate ops varMap right with
      | error e => simp [evaluate, hl, hr] at h
      | ok r =>
        rcases hn with hn | hn
        · exact evaluate_ok_defined ops varMap left l hl n hn
        · exact evaluate_ok_defined ops varMap right r hr n hn
  | .functionCall f args, v, h, n, hn => by
    simp only [HasVariable] at hn
    cases ha : evaluateArgs ops varMap args with
    | error e => simp [evaluate, ha] at h
    | ok vals => exact evaluateArgs_ok_defined ops varMap args vals ha n hn
theorem evaluateArgs_ok_defined (ops : DoubleOps V) (varMap : VariableMap V) :
    ∀ (args : List (ASTNode V)) (vals : List V), evaluateArgs ops varMap args = .ok vals →
      ∀ n, HasVariableArgs n args → varMap n ≠ none
  | [], _, _, n, hn => by simp [HasVariableArgs] at hn
  | arg :: rest, vals, h, n, hn => by
    simp only [HasVariableArgs] at hn
    cases ha : evaluate ops varMap arg with
    | error e => simp [evaluateArgs, ha] at h
    | ok a =>
      cases hr : evaluateArgs ops varMap rest with
      | error e => simp [evaluateArgs, ha, hr] at h
      | ok vs =>
        rcases hn with hn | hn
        · exact evaluate_ok_defined ops varMap arg a ha n hn
        · exact evaluateArgs_ok_defined ops varMap rest vs hr n hn
end

mutual
/-- The undefined-variable error names a variable of the tree that the binding lacks. -/
theorem evaluate_undefined (ops : DoubleOps V) (varMap : VariableMap V) (n : Str) :
    ∀ t : ASTNode V, evaluate ops varMap t = .error (.undefinedVariable n) →
      HasVariable n t ∧ varMap n = none
  | .number _, h => by simp [evaluate] at h
  | .variable name, h => by
    cases hm : varMap name with
    | some v => simp [evaluate, hm] at h
    | none =>
      simp only [evaluate, hm, Except.error.injEq, EvalError.undefinedVariable.injEq] at h
      subst h
      exact ⟨rfl, hm⟩
  | .unaryOp op operand, h => by
    cases hx : evaluate ops varMap operand with
    | error e =>
      simp only [evaluate, hx, Except.error.injEq] at h
      subst h
      simpa [HasVariable] using evaluate_undefined ops varMap n operand hx
    | ok x =>
      simp only [evaluate, hx] at h
      exact absurd h (applyUnary_ne_undefined ops op x n)
  | .binaryOp op left right, h => by
    cases hl : evaluate ops varMap left with
    | error e =>
      simp only [evaluate, hl, Except.error.injEq] at h
      subst h
      have := evaluate_undefined ops varMap n left hl
      exact ⟨by simp [HasVariable, this.1], this.2⟩
    | ok l =>
      cases hr : evaluate ops varMap right with
      | error e =>
        simp only [evaluate, hl, hr, Except.error.injEq] at h
        subst h
        have := evaluate_undefined ops varMap n right hr
        exact ⟨by simp [HasVariable, this.1], this.2⟩
      | ok r =>
        simp only [evaluate, hl, hr] at h
        exact absurd h (applyBinary_ne_undefined ops op l r n)
  | .functionCall f args, h => by
    cases ha : evaluateArgs ops varMap args with
    | error e =>
      simp only [evaluate, ha, Except.error.injEq] at h
      subst h
      simpa [HasVariable] using evaluateArgs_undefined ops varMap n args ha
    | ok vals =>
      simp only [evaluate, ha] at h
      exact absurd h (applyFunction_ne_undefined ops f vals n)
theorem evaluateArgs_undefined (ops : DoubleOps V) (varMap : VariableMap V) (n : Str) :
    ∀ args : List (ASTNode V), evaluateArgs ops varMap args = .error (.undefinedVariable n) →
      HasVariableArgs n args ∧ varMap n = none
  | [], h => by simp [evaluateArgs] at h
  | arg :: rest, h => by
    cases ha : evaluate ops varMap arg with
    | error e =>
      simp only [evaluateArgs, ha, Except.error.injEq] at h
      subst h
      have := evaluate_undefined ops varMap n arg ha
      exact ⟨by simp [HasVariableArgs, this.1], this.2⟩
    | ok a =>
      cases hr : evaluateArgs ops varMap rest with
      | error e =>
        simp only [evaluateArgs, ha, hr, Except.error.injEq] at h
        subst h
        have := evaluateArgs_undefined ops varMap n rest hr
        exact ⟨by simp [HasVariableArgs, this.1], this.2⟩
      | ok vs => simp [evaluateArgs, ha, hr] at h
end

theorem validateVariables_false_iff (t : ASTNode V) (pairs : List (Str × V)) :
    validateVariables t pairs = false ↔
      ∃ n, HasVariable n t ∧ n ∉ pairs.map (·.1) := by
  rw [← Bool.not_eq_true, validateVariables, validateLoop_iff]
  simp only [not_forall]
  constructor
  · rintro ⟨n, hn, hnot⟩
    exact ⟨n, ((collectVariables_mem t n).1 hn), hnot⟩
  · rintro ⟨n, hn, hnot⟩
    exact ⟨n, ((collectVariables_mem t n).2 hn), hnot⟩

/-- C20: for every tree (in particular every tree `convert` returns) and every list of
(name, value) pairs: if `validateVariables` returns false (some variable of the tree has
no provided value) then `evaluate` on the same list fails, since it evaluates every
subtree unless a failure stops it first; conversely, whenever `evaluate` fails with
"Undefined variable", `validateVariables` returns false on the same inputs. -/
theorem validate_false_evaluate_fails (ops : DoubleOps V) (t : ASTNode V)
    (pairs : List (Str × V)) :
    (validateVariables t pairs = false → ∃ e, evaluatePairs ops pairs t = .error e) ∧
    (∀ n, evaluatePairs ops pairs t = .error (.undefinedVariable n) →
      validateVariables t pairs = false) ∧
    convertString exactOps "x y z + *".toList =
      .ok (.binaryOp .MULTIPLY (.variable ['x'])
        (.binaryOp .ADD (.variable ['y']) (.variable ['z']))) ∧
    validateVariables (V := XDouble)
      (.binaryOp .MULTIPLY (.variable ['x'])
        (.binaryOp .ADD (.variable ['y']) (.variable ['z'])))
      [(['x'], .exact 2), (['y'], .exact 3)] = false ∧
    evaluatePairs exactOps [(['x'], .exact 2), (['y'], .exact 3)]
      (.binaryOp .MULTIPLY (.variable ['x'])
        (.binaryOp .ADD (.variable ['y']) (.variable ['z']))) =
        .error (.undefinedVariable ['z']) := by
  refine ⟨?_, ?_, by decide, by decide!, by decide!⟩
  · intro h
    obtain ⟨n, hn, hnot⟩ := (validateVariables_false_iff t pairs).1 h
    have hnone := (foldl_assign_none pairs VariableMap.empty n).2 ⟨rfl, hnot⟩
    cases hev : evaluatePairs ops pairs t with
    | error e => exact ⟨e, rfl⟩
    | ok v => exact absurd hnone (evaluate_ok_defined ops _ t v hev n hn)
  · intro n h
    obtain ⟨hn, hnone⟩ := evaluate_undefined ops _ n t h
    exact (validateVariables_false_iff t pairs).2
      ⟨n, hn, ((foldl_assign_none pairs VariableMap.empty n).1 hnone).2⟩

end ASTNode

/-! ## Theorems: conversion followed by building -/

section ConvertThenBuild

variable {V : Type}

open InfixToPostfix PostfixToAST

theorem processToken_percent (ops : DoubleOps V) (stack : List (ASTNode V)) :
    processToken ops ['%'] stack = .error (.invalidToken ['%']) := by
  have h1 : isNumber ['%'] = false := by decide
  have h2 : isVariable ['%'] = false := by decide
  have h3 : isOperator ['%'] = false := by decide
  have h4 : isFunction ['%'] = false := by decide
  simp [processToken, h1, h2, h3, h4]

/-- A binary operator of the converter other than `%` is a binary operator of the
builder. -/
theorem processToken_converter_op (ops : DoubleOps V) (o : Char) (ho : isOp o = true)
    (hne : o ≠ '%') (right left : ASTNode V) (rest : List (ASTNode V)) :
    ∃ node, processToken ops [o] (right :: left :: rest) = .ok (node :: rest) := by
  rcases (isOp_iff o).1 ho with h | h | h | h | h | h
  · subst h
    exact ⟨_, processToken_binary ops .POWER rfl left right rest⟩
  · subst h
    exact ⟨_, processToken_binary ops .MULTIPLY rfl left right rest⟩
  · subst h
    exact ⟨_, processToken_binary ops .DIVIDE rfl left right rest⟩
  · exact absurd h hne
  · subst h
    exact ⟨_, processToken_binary ops .ADD rfl left right rest⟩
  · subst h
    exact ⟨_, processToken_binary ops .SUBTRACT rfl left right rest⟩

theorem pushes_operand (ops : DoubleOps V) (name : Str)
    (h : isLetterInitialAlnum name = true) : Pushes ops [name] 1 := by
  intro stack
  have hne : ['%'] ≠ name := by
    intro h1
    rw [← h1] at h
    exact absurd h (by decide)
  refine ⟨fun hm => absurd (List.mem_singleton.1 hm) hne, fun _ => ⟨[.variable name], rfl, ?_⟩⟩
  simp [processTokens, processToken_variable ops name stack (isLetterInitialAlnum_variable name h)]

theorem pushes_append (ops : DoubleOps V) (a b : List Str) (k m : Nat)
    (ha : Pushes ops a k) (hb : Pushes ops b m) : Pushes ops (a ++ b) (k + m) := by
  intro stack
  rw [processTokens_append]
  by_cases h1 : ['%'] ∈ a
  · refine ⟨fun _ => ?_, fun hn => absurd (List.mem_append_left _ h1) hn⟩
    rw [(ha stack).1 h1]
  · obtain ⟨nodes, hlen, hrun⟩ := (ha stack).2 h1
    rw [hrun]
    simp only []
    constructor
    · intro hm
      rcases List.mem_append.1 hm with h2 | h2
      · exact absurd h2 h1
      · exact (hb (nodes ++ stack)).1 h2
    · intro hn
      have h2 : ['%'] ∉ b := fun h3 => hn (List.mem_append_right _ h3)
      obtain ⟨nodes1, hlen1, hrun1⟩ := (hb (nodes ++ stack)).2 h2
      refine ⟨nodes1 ++ nodes, by simp [hlen, hlen1, Nat.add_comm], ?_⟩
      rw [hrun1, List.append_assoc]

theorem pushes_operator (ops : DoubleOps V) (a : List Str) (k : Nat) (o : Char)
    (ho : isOp o = true) (ha : Pushes ops a (k + 2)) : Pushes ops (a ++ [[o]]) (k + 1) := by
  intro stack
  rw [processTokens_append]
  by_cases h1 : ['%'] ∈ a
  · refine ⟨fun _ => ?_, fun hn => absurd (List.mem_append_left _ h1) hn⟩
    rw [(ha stack).1 h1]
  · obtain ⟨nodes, hlen, hrun⟩ := (ha stack).2 h1
    rw [hrun]
    simp only []
    match nodes, hlen with
    | right :: left :: rest, hlen =>
      have hrest : rest.length = k := by simpa using hlen
      constructor
      · intro hm
        have ho1 : o = '%' := by
          rcases List.mem_append.1 hm with h2 | h2
          · exact absurd h2 h1
          · simp only [List.mem_singleton, List.cons.injEq, and_true] at h2
            exact h2.symm
        subst ho1
        simp [processTokens, processToken_percent]
      · intro hn
        have hne : o ≠ '%' := by
          intro h2
          apply hn
          simp [h2]
        obtain ⟨node, hnode⟩ := processToken_converter_op ops o ho hne right left (rest ++ stack)
        refine ⟨node :: rest, by simp [hrest], ?_⟩
        simp only [List.cons_append] at hnode ⊢
        simp [processTokens, hnode]

theorem pushes_flush (ops : DoubleOps V) (pend : List Char) (hp : ∀ o ∈ pend, isOp o = true) :
    ∀ (a : List Str) (k : Nat), Pushes ops a (k + 1 + pend.length) →
      Pushes ops (a ++ pend.map (fun o => [o])) (k + 1) := by
  induction pend with
  | nil => intro a k h; simpa using h
  | cons o rest ih =>
    intro a k h
    have h1 : Pushes ops (a ++ [[o]]) (k + 1 + rest.length) := by
      have := pushes_operator ops a (k + rest.length) o (hp o (List.mem_cons_self _ _))
        (by simpa [Nat.add_assoc, Nat.add_comm, Nat.add_left_comm] using h)
      simpa [Nat.add_assoc, Nat.add_comm, Nat.add_left_comm] using this
    have := ih (fun x hx => hp x (List.mem_cons_of_mem _ hx)) (a ++ [[o]]) k h1
    simpa [List.append_assoc] using this

end ConvertThenBuild

section ConvertThenBuild

variable {V : Type}

open InfixToPostfix PostfixToAST

theorem percent_not_in_name (name : Str) (h : isLetterInitialAlnum name = true) :
    '%' ∉ name := by
  intro hm
  have hop := ASTNode.isLetterInitialAlnum_operand name h
  simp only [isOperandToken, Bool.and_eq_true, List.all_eq_true] at hop
  exact absurd (hop.2 '%' hm) (by decide)

theorem mem_map_singleton (c : Char) (l : List Char) :
    [c] ∈ l.map (fun o => [o]) ↔ c ∈ l := by
  simp

theorem shuntsWF_operand (ops : DoubleOps V) (name : Str)
    (h : isLetterInitialAlnum name = true) : ShuntsWF ops true name := by
  have hop := ASTNode.isLetterInitialAlnum_operand name h
  have hne : ['%'] ≠ name := by
    intro h1
    rw [← h1] at h
    exact absurd h (by decide)
  refine ⟨[], [name], fun _ => rfl, by simp, ?_, pushes_operand ops name h, ?_, ?_⟩
  · intro t ht
    simp only [List.mem_singleton] at ht
    exact Or.inl (ht ▸ hop)
  · simp [percent_not_in_name name h, hne]
  · intro st out _
    rw [runLoop_operand name hop]
    simp [textOf]

theorem shuntsWF_paren (ops : DoubleOps V) (s : Str) (h : ShuntsWF ops false s) :
    ShuntsWF ops true ('(' :: s ++ [')']) := by
  obtain ⟨pend, toks, -, hp, htok, hpush, hpct, hrun⟩ := h
  obtain ⟨f1, f2, -⟩ := tokens_after_flush toks pend htok hp
  refine ⟨[], toks ++ pend.map (fun o => [o]), fun _ => rfl, by simp, f2, ?_, ?_, ?_⟩
  · have := pushes_flush ops pend hp toks 0 (by simpa [Nat.add_comm] using hpush)
    simpa using this
  · simp only [List.mem_cons, List.mem_append, List.mem_singleton, List.not_mem_nil,
      or_false, hpct, mem_map_singleton]
    simp
  · intro st out _
    have hq : ∀ x ∈ pend, (fun c => decide (c ≠ '(')) x = true := by
      intro x hx
      simpa using (isOp_facts x (hp x hx)).2.1
    obtain ⟨ht, hd⟩ := takeWhile_dropWhile_append (fun c => decide (c ≠ '(')) pend
      ('(' :: st) hq
      (by intro c hc; simp only [List.head?_cons, Option.some.injEq] at hc; subst hc; simp)
    rw [List.cons_append, runLoop_lparen,
      runLoop_app s [')'] _ (by intro c hc; simp at hc; subst hc; decide),
      hrun ('(' :: st) out (by
        intro _ top htop
        simp only [List.head?_cons, Option.some.injEq] at htop
        subst htop
        decide)]
    simp only []
    rw [runLoop_rparen, handleRightParen_eq, ht, hd]
    simp [runLoop_nil, ← f1]

theorem shuntsWF_primary (ops : DoubleOps V) (s : Str) (h : ShuntsWF ops true s) :
    ShuntsWF ops false s := by
  obtain ⟨pend, toks, hnil, hp, htok, hpush, hpct, hrun⟩ := h
  exact ⟨pend, toks, fun hb => Bool.noConfusion hb, hp, htok, hpush, hpct,
    fun st out _ => hrun st out (fun hb => Bool.noConfusion hb)⟩

theorem shuntsWF_binary (ops : DoubleOps V) (s1 s2 : Str) (o : Char)
    (h1 : ShuntsWF ops false s1) (ho : isOp o = true) (h2 : ShuntsWF ops true s2) :
    ShuntsWF ops false (s1 ++ o :: s2) := by
  obtain ⟨pend1, toks1, -, hp1, htok1, hpush1, hpct1, hrun1⟩ := h1
  obtain ⟨pend2, toks2, hnil2, hp2, htok2, hpush2, hpct2, hrun2⟩ := h2
  have hpend2 : pend2 = [] := hnil2 rfl
  subst hpend2
  obtain ⟨g1, -, -, -, g4⟩ := isOp_facts o ho
  have htd := List.takeWhile_append_dropWhile (fun top => decide (prec top ≥ prec o)) pend1
  have hlen : (pend1.takeWhile (fun top => decide (prec top ≥ prec o))).length +
      (pend1.dropWhile (fun top => decide (prec top ≥ prec o))).length = pend1.length := by
    rw [← List.length_append, htd]
  have htw : ∀ x ∈ pend1.takeWhile (fun top => decide (prec top ≥ prec o)), isOp x = true :=
    fun x hx => hp1 x ((List.takeWhile_sublist _).subset hx)
  have hdw : ∀ x ∈ pend1.dropWhile (fun top => decide (prec top ≥ prec o)), isOp x = true :=
    fun x hx => hp1 x (List.dropWhile_subset _ hx)
  obtain ⟨f1, f2, -⟩ := tokens_after_flush toks1
    (pend1.takeWhile (fun top => decide (prec top ≥ prec o))) htok1 htw
  refine ⟨o :: pend1.dropWhile (fun top => decide (prec top ≥ prec o)),
    toks1 ++ (pend1.takeWhile (fun top => decide (prec top ≥ prec o))).map (fun o => [o])
      ++ toks2,
    fun hb => Bool.noConfusion hb, ?_, ?_, ?_, ?_, ?_⟩
  · intro x hx
    rcases List.mem_cons.1 hx with hx | hx
    · exact hx ▸ ho
    · exact hdw x hx
  · intro t ht
    rcases List.mem_append.1 ht with ht | ht
    · exact f2 t ht
    · exact htok2 t ht
  · have hflush := pushes_flush ops _ htw toks1
      (pend1.dropWhile (fun top => decide (prec top ≥ prec o))).length
      (by
        have : (pend1.dropWhile (fun top => decide (prec top ≥ prec o))).length + 1 +
            (pend1.takeWhile (fun top => decide (prec top ≥ prec o))).length =
            1 + pend1.length := by omega
        rw [this]
        exact hpush1)
    have := pushes_append ops _ toks2 _ _ hflush hpush2
    simpa [Nat.add_comm, Nat.add_left_comm, Nat.add_assoc] using this
  · have hmem : '%' ∈ pend1 ↔
        ('%' ∈ pend1.takeWhile (fun top => decide (prec top ≥ prec o)) ∨
          '%' ∈ pend1.dropWhile (fun top => decide (prec top ≥ prec o))) := by
      rw [← List.mem_append, htd]
    simp only [List.mem_append, List.mem_cons, hpct1, hpct2, hmem, mem_map_singleton,
      List.not_mem_nil, or_false]
    constructor
    · rintro ((h | h | h) | h | h)
      · exact Or.inl (Or.inl (Or.inl h))
      · exact Or.inl (Or.inl (Or.inr h))
      · exact Or.inr (Or.inr h)
      · exact Or.inr (Or.inl h)
      · exact Or.inl (Or.inr h)
    · rintro (((h | h) | h) | h | h)
      · exact Or.inl (Or.inl h)
      · exact Or.inl (Or.inr (Or.inl h))
      · exact Or.inr (Or.inr h)
      · exact Or.inr (Or.inl h)
      · exact Or.inl (Or.inr (Or.inr h))
  · intro st out htop
    have htop1 := htop rfl
    obtain ⟨ht, hd⟩ := takeWhile_append_head (fun top => decide (prec top ≥ prec o)) pend1 st
      (by
        intro c hc
        have := htop1 c hc
        simp only [ge_iff_le, decide_eq_false_iff_not, not_le]
        omega)
    rw [runLoop_app s1 (o :: s2) _
      (by intro c hc; simp only [List.head?_cons, Option.some.injEq] at hc; subst hc; exact g4),
      hrun1 st out (fun _ => htop1)]
    simp only []
    rw [runLoop_op o ho, handleOperator_eq, ht, hd,
      hrun2 _ _ (fun hb => Bool.noConfusion hb)]
    simp [textOf_append, flush_eq_textOf, List.append_assoc]

/-- The converter on a well-formed expression. -/
theorem wellFormed_shunts (ops : DoubleOps V) (b : Bool) (s : Str) (h : WellFormed b s) :
    ShuntsWF ops b s := by
  induction h with
  | operand name h => exact shuntsWF_operand ops name h
  | paren s _ ih => exact shuntsWF_paren ops s ih
  | primary s _ ih => exact shuntsWF_primary ops s ih
  | binary s1 s2 o _ ho _ ih1 ih2 => exact shuntsWF_binary ops s1 s2 o ih1 ho ih2
  | spaceLeft b s _ ih =>
    obtain ⟨pend, toks, hnil, hp, htok, hpush, hpct, hrun⟩ := ih
    refine ⟨pend, toks, hnil, hp, htok, hpush, ?_, ?_⟩
    · rw [← hpct]
      simp
    · intro st out htop
      rw [runLoop_space, hrun st out htop]
  | spaceRight b s _ ih =>
    obtain ⟨pend, toks, hnil, hp, htok, hpush, hpct, hrun⟩ := ih
    refine ⟨pend, toks, hnil, hp, htok, hpush, ?_, ?_⟩
    · rw [← hpct]
      simp
    · intro st out htop
      rw [runLoop_app s [' '] _ (by intro c hc; simp at hc; subst hc; decide),
        hrun st out htop]
      simp only []
      rw [runLoop_space, runLoop_nil]

end ConvertThenBuild

section ConvertThenBuild

variable {V : Type}

open InfixToPostfix PostfixToAST

/-- C11 (amended): every operator symbol the converter can emit except `%` is accepted by
the builder: for every well-formed infix expression `s` over variable operands and the
binary operators `+ - * / % ^`, `convertInfixToPostfix(s)` succeeds; if `%` does not occur
in `s`, `PostfixToAST::convert` of the result succeeds with a single-root tree; if `%`
occurs in `s`, it fails with "Invalid token: %". -/
theorem wellFormed_converts_then_builds (ops : DoubleOps V) (s : Str)
    (h : WellFormed false s) :
    ∃ post, convertInfixToPostfix s = .ok post ∧
      ('%' ∉ s → ∃ root, convertString ops post = .ok root) ∧
      ('%' ∈ s → convertString ops post = .error (.invalidToken ['%'])) := by
  obtain ⟨pend, toks, -, hp, htok, hpush, hpct, hrun⟩ := wellFormed_shunts ops false s h
  obtain ⟨f1, f2, -⟩ := tokens_after_flush toks pend htok hp
  have hmem : '(' ∉ pend := fun hm => (isOp_facts _ (hp _ hm)).2.1 rfl
  have hrun0 := hrun [] [] (by intro _ top htop; simp at htop)
  simp only [List.append_nil, List.nil_append] at hrun0
  have hflush : Pushes ops (toks ++ pend.map (fun o => [o])) 1 := by
    have := pushes_flush ops pend hp toks 0 (by simpa [Nat.add_comm] using hpush)
    simpa using this
  have hpct1 : '%' ∈ s ↔ ['%'] ∈ toks ++ pend.map (fun o => [o]) := by
    rw [hpct, List.mem_append, mem_map_singleton]
  refine ⟨textOf (toks ++ pend.map (fun o => [o])), ?_, ?_, ?_⟩
  · simp [convertInfixToPostfix, hrun0, popRemaining_eq, hmem, f1]
  · intro hn
    obtain ⟨nodes, hlen, hproc⟩ := (hflush []).2 (fun hm => hn (hpct1.2 hm))
    match nodes, hlen with
    | [root], _ =>
      refine ⟨root, ?_⟩
      rw [convertString, tokenize_textOf _ f2]
      simp [convert, hproc]
  · intro hm
    rw [convertString, tokenize_textOf _ f2]
    exact convert_error_of_processTokens ops _ _ ((hflush []).1 (hpct1.1 hm))

theorem wellFormed_example : WellFormed false "a + b * (c - d)".toList := by
  have ha : WellFormed false "a ".toList :=
    WellFormed.spaceRight _ _ (WellFormed.primary _ (WellFormed.operand ['a'] (by decide)))
  have hb : WellFormed true " b ".toList :=
    WellFormed.spaceRight _ _ (WellFormed.spaceLeft _ _ (WellFormed.operand ['b'] (by decide)))
  have hc : WellFormed false "c ".toList :=
    WellFormed.spaceRight _ _ (WellFormed.primary _ (WellFormed.operand ['c'] (by decide)))
  have hd : WellFormed true " d".toList :=
    WellFormed.spaceLeft _ _ (WellFormed.operand ['d'] (by decide))
  have hcd : WellFormed true " (c - d)".toList :=
    WellFormed.spaceLeft _ _ (WellFormed.paren _ (WellFormed.binary _ _ '-' hc (by decide) hd))
  exact WellFormed.binary _ _ '*' (WellFormed.binary _ _ '+' ha (by decide) hb) (by decide) hcd

/-- C11 (amended), at `a + b * (c - d)`: it is well formed and has no `%`; its postfix is
`a b c d - * + `, from which the builder returns Add(a, Multiply(b, Subtract(c, d))). -/
theorem wellFormed_converts_then_builds_witness :
    WellFormed false "a + b * (c - d)".toList ∧ '%' ∉ "a + b * (c - d)".toList ∧
    convertInfixToPostfix "a + b * (c - d)".toList = .ok "a b c d - * + ".toList ∧
    convertString exactOps "a b c d - * + ".toList =
      .ok (.binaryOp .ADD (.variable ['a'])
        (.binaryOp .MULTIPLY (.variable ['b'])
          (.binaryOp .SUBTRACT (.variable ['c']) (.variable ['d'])))) ∧
    ∃ post, convertInfixToPostfix "a + b * (c - d)".toList = .ok post ∧
      ('%' ∉ "a + b * (c - d)".toList → ∃ root, convertString exactOps post = .ok root) ∧
      ('%' ∈ "a + b * (c - d)".toList →
        convertString exactOps post = .error (.invalidToken ['%'])) :=
  ⟨wellFormed_example, by decide, by decide, by decide,
   wellFormed_converts_then_builds exactOps _ wellFormed_example⟩

/-- C11 as stated fails at `a % b`: the expression is well formed and the converter
returns `a b % `, but the builder rejects the token `%` ("Invalid token: %"). -/
theorem percent_rejected_by_builder :
    WellFormed false "a % b".toList ∧
    convertInfixToPostfix "a % b".toList = .ok "a b % ".toList ∧
    convertString exactOps "a b % ".toList = .error (.invalidToken ['%']) := by
  refine ⟨?_, by decide, by decide⟩
  have ha : WellFormed false "a ".toList :=
    WellFormed.spaceRight _ _ (WellFormed.primary _ (WellFormed.operand ['a'] (by decide)))
  have hb : WellFormed true " b".toList :=
    WellFormed.spaceLeft _ _ (WellFormed.operand ['b'] (by decide))
  exact WellFormed.binary _ _ '%' ha (by decide) hb

end ConvertThenBuild

/-! ## Theorems: the order of the pairs and of the classification tests -/

namespace ASTNode

variable {V : Type}

open PostfixToAST

/-- In a list that pairs no name with two different values, the map filled from the list
holds `v` at `n` exactly when `(n, v)` is one of the pairs. -/
theorem foldl_assign_iff (pairs : List (Str × V))
    (hfun : ∀ n v w, (n, v) ∈ pairs → (n, w) ∈ pairs → v = w) (n : Str) (v : V) :
    (pairs.foldl (fun m p => m.assign p.1 p.2) VariableMap.empty) n = some v ↔
      (n, v) ∈ pairs := by
  constructor
  · intro h
    rcases foldl_assign_some pairs _ n v h with h1 | h1
    · exact Option.noConfusion h1
    · exact h1
  · intro h
    cases hm : (pairs.foldl (fun m p => m.assign p.1 p.2) VariableMap.empty) n with
    | none =>
      have h1 := ((foldl_assign_none pairs _ n).1 hm).2
      exact absurd (List.mem_map_of_mem (·.1) h) h1
    | some w =>
      rcases foldl_assign_some pairs _ n w hm with h1 | h1
      · exact Option.noConfusion h1
      · rw [hfun n v w h h1]

/-- A name that no pair of the list carries keeps the value it had before the list was
assigned. -/
theorem foldl_assign_not_mem (pairs : List (Str × V)) : ∀ (m : VariableMap V) (n : Str),
    n ∉ pairs.map (·.1) → (pairs.foldl (fun m p => m.assign p.1 p.2) m) n = m n := by
  induction pairs with
  | nil => intro m n _; rfl
  | cons p rest ih =>
    intro m n hn
    simp only [List.map_cons, List.mem_cons, not_or] at hn
    rw [List.foldl_cons, ih _ n hn.2]
    simp only [VariableMap.assign, hn.1, if_false]

/-- The map filled from a list of pairs holds, at every name, the value of the last pair
with that name. -/
theorem foldl_assign_last (pre post : List (Str × V)) (n : Str) (v : V)
    (hn : n ∉ post.map (·.1)) :
    ((pre ++ (n, v) :: post).foldl (fun m p => m.assign p.1 p.2) VariableMap.empty) n =
      some v := by
  rw [List.foldl_append, List.foldl_cons, foldl_assign_not_mem post _ n hn]
  simp [VariableMap.assign]

/-- The map filled from a list of pairs is the lookup of the first pair with the name in
the reversed list. -/
theorem foldl_assign_lookup (pairs : List (Str × V)) :
    pairs.foldl (fun m p => m.assign p.1 p.2) (VariableMap.empty : VariableMap V) =
      fun k => pairs.reverse.lookup k := by
  induction pairs using List.reverseRecOn with
  | nil => rfl
  | append_singleton l p ih =>
    funext k
    rw [List.foldl_append, List.foldl_cons, List.foldl_nil, ih, List.reverse_append,
      List.reverse_singleton, List.singleton_append, List.lookup_cons]
    by_cases hk : k = p.1
    · simp [VariableMap.assign, hk]
    · have hb : (k == p.1) = false := by simpa using hk
      simp [VariableMap.assign, hk, hb]

/-- C21 (amended): for every tree, every list of (name, value) pairs in which no name is
paired with two different values (in particular every list with distinct names, as a
binding has) and every permutation of that list, the pair-list overload of `evaluate`
returns the same value or raises the same failure.  In every list the last pair with a
name is the one that counts: a Variable node of that name evaluates to its value, and
every tree is evaluated under the binding that looks a name up from the end of the
list. -/
theorem evaluatePairs_perm (ops : DoubleOps V) (pairs pairs1 : List (Str × V))
    (node : ASTNode V)
    (hfun : ∀ n v w, (n, v) ∈ pairs → (n, w) ∈ pairs → v = w)
    (hperm : pairs1.Perm pairs) :
    evaluatePairs ops pairs1 node = evaluatePairs ops pairs node ∧
    (∀ (pre post : List (Str × V)) (n : Str) (v : V), n ∉ post.map (·.1) →
      evaluatePairs ops (pre ++ (n, v) :: post) (.variable n) = .ok v) ∧
    (∀ (l : List (Str × V)) (t : ASTNode V),
      evaluatePairs ops l t = evaluate ops (fun k => l.reverse.lookup k) t) := by
  have hfun1 : ∀ n v w, (n, v) ∈ pairs1 → (n, w) ∈ pairs1 → v = w := fun n v w h1 h2 =>
    hfun n v w (hperm.mem_iff.1 h1) (hperm.mem_iff.1 h2)
  have hmap : pairs1.foldl (fun m p => m.assign p.1 p.2) (VariableMap.empty : VariableMap V)
      = pairs.foldl (fun m p => m.assign p.1 p.2) VariableMap.empty := by
    funext n
    apply Option.ext
    intro v
    simp only [Option.mem_def]
    rw [foldl_assign_iff pairs1 hfun1, foldl_assign_iff pairs hfun]
    exact hperm.mem_iff
  refine ⟨?_, ?_, ?_⟩
  · unfold evaluatePairs
    rw [hmap]
  · intro pre post n v hn
    simp only [evaluatePairs, evaluate, foldl_assign_last pre post n v hn]
  · intro l t
    rw [evaluatePairs, foldl_assign_lookup]

/-- C21 (amended), at the tree of `a b -` under a = 5, b = 3 given in either order: both
lists evaluate to 2. -/
theorem evaluatePairs_perm_witness :
    (∀ n v w, (n, v) ∈ [(['a'], XDouble.exact 5), (['b'], XDouble.exact 3)] →
      (n, w) ∈ [(['a'], XDouble.exact 5), (['b'], XDouble.exact 3)] → v = w) ∧
    [(['b'], XDouble.exact 3), (['a'], XDouble.exact 5)].Perm
      [(['a'], XDouble.exact 5), (['b'], XDouble.exact 3)] ∧
    evaluatePairs exactOps [(['b'], XDouble.exact 3), (['a'], XDouble.exact 5)]
        (.binaryOp .SUBTRACT (.variable ['a']) (.variable ['b'])) = .ok (.exact 2) ∧
    (evaluatePairs exactOps [(['b'], XDouble.exact 3), (['a'], XDouble.exact 5)]
        (.binaryOp .SUBTRACT (.variable ['a']) (.variable ['b'])) =
      evaluatePairs exactOps [(['a'], XDouble.exact 5), (['b'], XDouble.exact 3)]
        (.binaryOp .SUBTRACT (.variable ['a']) (.variable ['b'])) ∧
    (∀ (pre post : List (Str × XDouble)) (n : Str) (v : XDouble), n ∉ post.map (·.1) →
      evaluatePairs exactOps (pre ++ (n, v) :: post) (.variable n) = .ok v) ∧
    (∀ (l : List (Str × XDouble)) (t : ASTNode XDouble),
      evaluatePairs exactOps l t = evaluate exactOps (fun k => l.reverse.lookup k) t)) := by
  have hfun : ∀ n v w, (n, v) ∈ [(['a'], XDouble.exact 5), (['b'], XDouble.exact 3)] →
      (n, w) ∈ [(['a'], XDouble.exact 5), (['b'], XDouble.exact 3)] → v = w := by
    intro n v w h1 h2
    simp only [List.mem_cons, Prod.mk.injEq, List.mem_singleton, List.not_mem_nil,
      or_false] at h1 h2
    rcases h1 with ⟨a1, b1⟩ | ⟨a1, b1⟩ <;> rcases h2 with ⟨a2, b2⟩ | ⟨a2, b2⟩
    · rw [b1, b2]
    · rw [a1] at a2; exact absurd a2 (by decide)
    · rw [a1] at a2; exact absurd a2 (by decide)
    · rw [b1, b2]
  exact ⟨hfun, List.Perm.swap _ _ _, by decide!,
    evaluatePairs_perm exactOps _ _ _ hfun (List.Perm.swap _ _ _)⟩

/-- C21 as stated fails when a name occurs twice: `x` evaluates to 2 under the list
(x, 1), (x, 2) and to 1 under its permutation (x, 2), (x, 1), the later pair
overwriting the earlier one. -/
theorem evaluatePairs_order_matters :
    [(['x'], XDouble.exact 2), (['x'], XDouble.exact 1)].Perm
      [(['x'], XDouble.exact 1), (['x'], XDouble.exact 2)] ∧
    evaluatePairs exactOps [(['x'], XDouble.exact 1), (['x'], XDouble.exact 2)]
      (.variable ['x']) = .ok (.exact 2) ∧
    evaluatePairs exactOps [(['x'], XDouble.exact 2), (['x'], XDouble.exact 1)]
      (.variable ['x']) = .ok (.exact 1) :=
  ⟨List.Perm.swap _ _ _, by decide!, by decide!⟩

end ASTNode

namespace PostfixToAST

theorem isFunction_variable (tok : Str) (h : isFunction tok = true) :
    isVariable tok = true := by
  apply validFunctions_variable
  simpa [isFunction] using h

/-- C22 (amended): no token satisfies two of `isNumber`, `isVariable` and `isOperator`,
and no token satisfying `isFunction` satisfies `isNumber` or `isOperator`, so the order in
which `processToken` tests these cannot change a classification; every token satisfying
`isFunction` also satisfies `isVariable`. -/
theorem shapes_exclusive (tok : Str) :
    ¬ (isNumber tok = true ∧ isVariable tok = true) ∧
    ¬ (isNumber tok = true ∧ isOperator tok = true) ∧
    ¬ (isVariable tok = true ∧ isOperator tok = true) ∧
    ¬ (isFunction tok = true ∧ isNumber tok = true) ∧
    ¬ (isFunction tok = true ∧ isOperator tok = true) ∧
    (isFunction tok = true → isVariable tok = true) := by
  have hnv : ¬ (isNumber tok = true ∧ isVariable tok = true) := by
    rintro ⟨h1, h2⟩
    rw [isVariable_not_number tok h2] at h1
    exact Bool.noConfusion h1
  have hop : isOperator tok = true → isNumber tok = false ∧ isVariable tok = false :=
    fun h => operator_not_number_variable tok (isOperator_mem tok h)
  refine ⟨hnv, ?_, ?_, ?_, ?_, isFunction_variable tok⟩
  · rintro ⟨h1, h2⟩
    rw [(hop h2).1] at h1
    exact Bool.noConfusion h1
  · rintro ⟨h1, h2⟩
    rw [(hop h2).2] at h1
    exact Bool.noConfusion h1
  · rintro ⟨h1, h2⟩
    exact hnv ⟨h2, isFunction_variable tok h1⟩
  · rintro ⟨h1, h2⟩
    have := isFunction_variable tok h1
    rw [(hop h2).2] at this
    exact Bool.noConfusion this

/-- C22 as stated fails at `sin`: the token satisfies both `isVariable` and `isFunction`,
and `processToken`, testing `isVariable` first, pushes a Variable node where the opposite
order would have built a FunctionCall node. -/
theorem sin_variable_and_function :
    isVariable "sin".toList = true ∧ isFunction "sin".toList = true ∧
    processToken exactOps "sin".toList [.variable ['x']] =
      .ok [.variable "sin".toList, .variable ['x']] := by
  decide

end PostfixToAST

/-! ## Theorems: two operators in a row -/

namespace InfixToPostfix

/-- An operand run followed by a text that does not continue it: the run is emitted with
a space and the loop goes on with the rest. -/
theorem runLoop_operand_then (a rest : Str) (h : isOperandToken a = true) (s : State)
    (hrest : ∀ c, rest.head? = some c → isOperandChar c = false) :
    runLoop (a ++ rest) s = runLoop rest ⟨s.opStack, s.output ++ a ++ [' ']⟩ := by
  rw [runLoop_app a rest s hrest, runLoop_operand a h]

/-- C23: for all operand tokens `x`, `y`, `z` and binary operators `o1`, `o2` of the
converter's table (`^` at level 4; `*`, `/`, `%` at 3; `+`, `-` at 2),
`convertInfixToPostfix("x o1 y o2 z")` returns `x y o1 z o2 ` when
`precedence(o1) >= precedence(o2)` and `x y z o2 o1 ` otherwise; in particular
`a ^ b ^ c` yields `a b ^ c ^ `. -/
theorem two_operators (x y z : Str) (o1 o2 : Char)
    (hx : isOperandToken x = true) (hy : isOperandToken y = true)
    (hz : isOperandToken z = true) (h1 : isOp o1 = true) (h2 : isOp o2 = true) :
    (prec '^' = 4 ∧ prec '*' = 3 ∧ prec '/' = 3 ∧ prec '%' = 3 ∧ prec '+' = 2 ∧
      prec '-' = 2) ∧
    convertInfixToPostfix (x ++ [' ', o1, ' '] ++ y ++ [' ', o2, ' '] ++ z) =
      .ok (if prec o1 ≥ prec o2 then x ++ [' '] ++ y ++ [' ', o1, ' '] ++ z ++ [' ', o2, ' ']
        else x ++ [' '] ++ y ++ [' '] ++ z ++ [' ', o2, ' ', o1, ' ']) ∧
    convertInfixToPostfix "a ^ b ^ c".toList = .ok "a b ^ c ^ ".toList := by
  refine ⟨by decide, ?_, by decide⟩
  obtain ⟨-, p1, -, -, -⟩ := isOp_facts o1 h1
  obtain ⟨-, p2, -, -, -⟩ := isOp_facts o2 h2
  have e : x ++ [' ', o1, ' '] ++ y ++ [' ', o2, ' '] ++ z =
      x ++ (' ' :: o1 :: ' ' :: (y ++ (' ' :: o2 :: ' ' :: z))) := by simp
  have hsp : ∀ (l : Str) (c : Char), (' ' :: l).head? = some c → isOperandChar c = false := by
    intro l c hc
    simp only [List.head?_cons, Option.some.injEq] at hc
    rw [← hc]
    decide
  unfold convertInfixToPostfix
  rw [e, runLoop_operand_then x _ hx _ (hsp _), runLoop_space, runLoop_op o1 h1,
    runLoop_space]
  simp only [handleOperator]
  rw [runLoop_operand_then y _ hy _ (hsp _), runLoop_space, runLoop_op o2 h2,
    runLoop_space]
  simp only [handleOperator]
  by_cases hp : prec o1 ≥ prec o2
  · simp only [hp, if_true]
    rw [runLoop_operand z hz]
    simp [popRemaining, p2]
  · simp only [hp, if_false]
    rw [runLoop_operand z hz]
    simp [popRemaining, p1, p2]

/-- C23 at `a ^ b ^ c` and at `a + b * c`: equal precedence pops, a higher incoming
precedence does not. -/
theorem two_operators_witness :
    (isOperandToken ['a'] = true ∧ isOperandToken ['b'] = true ∧
      isOperandToken ['c'] = true ∧ isOp '^' = true) ∧
    convertInfixToPostfix "a ^ b ^ c".toList = .ok "a b ^ c ^ ".toList ∧
    convertInfixToPostfix "a + b * c".toList = .ok "a b c * + ".toList ∧
    ((prec '^' = 4 ∧ prec '*' = 3 ∧ prec '/' = 3 ∧ prec '%' = 3 ∧ prec '+' = 2 ∧
      prec '-' = 2) ∧
    convertInfixToPostfix (['a'] ++ [' ', '^', ' '] ++ ['b'] ++ [' ', '^', ' '] ++ ['c']) =
      .ok (if prec '^' ≥ prec '^' then
          ['a'] ++ [' '] ++ ['b'] ++ [' ', '^', ' '] ++ ['c'] ++ [' ', '^', ' ']
        else ['a'] ++ [' '] ++ ['b'] ++ [' '] ++ ['c'] ++ [' ', '^', ' ', '^', ' ']) ∧
    convertInfixToPostfix "a ^ b ^ c".toList = .ok "a b ^ c ^ ".toList) :=
  ⟨by decide, by decide, by decide,
   two_operators ['a'] ['b'] ['c'] '^' '^' (by decide) (by decide) (by decide) (by decide)
     (by decide)⟩

end InfixToPostfix

/-! ## Theorems: unary minus, number tokens, number texts, evaluation order -/

namespace ASTNode

variable {V : Type}

/-- C24: for every operand `e`, `toString` of UnaryOp(Negative, e) is `-` directly
followed by `e.toString()`, without parentheses.  So for all variables `a`, `b` the trees
Negative(Add(a, b)) and Add(Negative(a), b) have the same text (`-a + b`), although under
a = 1, b = 2 the first evaluates to -3 and the second to 1. -/
theorem toString_negative (ops : DoubleOps V) (e : ASTNode V) (a b : Str) :
    toString ops (.unaryOp .NEGATIVE e) = '-' :: toString ops e ∧
    toString ops (.unaryOp .NEGATIVE (.binaryOp .ADD (.variable a) (.variable b))) =
      toString ops (.binaryOp .ADD (.unaryOp .NEGATIVE (.variable a)) (.variable b)) ∧
    toString ops (.unaryOp .NEGATIVE (.binaryOp .ADD (.variable a) (.variable b))) =
      ['-'] ++ a ++ [' ', '+', ' '] ++ b ∧
    evaluatePairs exactOps [(['a'], .exact 1), (['b'], .exact 2)]
      (.unaryOp .NEGATIVE (.binaryOp .ADD (.variable ['a']) (.variable ['b']))) =
        .ok (.exact (-3)) ∧
    evaluatePairs exactOps [(['a'], .exact 1), (['b'], .exact 2)]
      (.binaryOp .ADD (.unaryOp .NEGATIVE (.variable ['a'])) (.variable ['b'])) =
        .ok (.exact 1) := by
  refine ⟨by simp [toString], ?_, ?_, by decide!, by decide!⟩
  · simp [toString, wrap, needParenLeft, needParenRight, opOf, getPrecedence, opToString]
  · simp [toString, wrap, needParenLeft, needParenRight, opOf, opToString]

end ASTNode

namespace PostfixToAST

variable {V : Type}

theorem dot_not_digit : isDigitC '.' = false := by decide

/-- The loop of `isNumber`, from the flags `hasDecimal` and `hasDigit`. -/
theorem isNumberLoop_iff (l : Str) : ∀ (hasDecimal hasDigit : Bool),
    isNumberLoop l hasDecimal hasDigit = true ↔
      (∀ c ∈ l, isDigitC c = true ∨ c = '.') ∧
      l.count '.' + (if hasDecimal then 1 else 0) ≤ 1 ∧
      (hasDigit = true ∨ ∃ c ∈ l, isDigitC c = true) := by
  induction l with
  | nil => intro hd hg; cases hd <;> simp [isNumberLoop]
  | cons c cs ih =>
    intro hd hg
    by_cases hc : c = '.'
    · subst hc
      cases hd with
      | true => simp [isNumberLoop]
      | false =>
        simp only [isNumberLoop, if_true, Bool.false_eq_true, if_false, ih, List.mem_cons,
          forall_eq_or_imp, or_true, true_and, List.count_cons_self, add_zero,
          exists_eq_or_imp, dot_not_digit, false_or]
    · by_cases hdig : isDigitC c = true
      · have hcount : List.count '.' (c :: cs) = List.count '.' cs := by
          simp [List.count_cons, hc]
        simp only [isNumberLoop, hc, if_false, hdig, if_true, ih, List.mem_cons,
          forall_eq_or_imp, true_or, true_and, exists_eq_or_imp, or_true, and_true,
          hcount]
      · simp only [isNumberLoop, hc, if_false, hdig, Bool.false_eq_true, List.mem_cons,
          forall_eq_or_imp, or_self, false_and]

/-- C25: `isNumber(token)` holds exactly when the token is an optional single leading `-`
followed by a non-empty string of digits and at most one `.` with at least one digit.  So
`-5`, `.5` and `5.` are numbers, the empty token, `-`, `.`, `--1` and `1.2.3` are not, and
the token `-` is classified as an operator and builds a Subtract node. -/
theorem isNumber_iff (ops : DoubleOps V) (token : Str) (left right : ASTNode V)
    (rest : List (ASTNode V)) :
    (isNumber token = true ↔ NumberShaped token) ∧
    (isNumber "-5".toList = true ∧ isNumber ".5".toList = true ∧
      isNumber "5.".toList = true) ∧
    (isNumber [] = false ∧ isNumber "-".toList = false ∧ isNumber ".".toList = false ∧
      isNumber "--1".toList = false ∧ isNumber "1.2.3".toList = false) ∧
    isOperator "-".toList = true ∧
    processToken ops "-".toList (right :: left :: rest) =
      .ok (.binaryOp .SUBTRACT left right :: rest) := by
  refine ⟨?_, by decide, by decide, by decide, ?_⟩
  · cases token with
    | nil =>
      constructor
      · intro h; exact absurd h (by simp [isNumber])
      · rintro ⟨body, h1 | h1, h2, -⟩
        · exact absurd h1.symm h2
        · exact List.noConfusion h1
    | cons c cs =>
      by_cases hc : c = '-'
      · subst hc
        have hm : isDigitC '-' = false := by decide
        constructor
        · intro h
          by_cases hcs : cs = []
          · simp [isNumber, hcs] at h
          · simp only [isNumber, if_true, hcs, if_false] at h
            obtain ⟨a1, a2, a3⟩ := (isNumberLoop_iff cs false false).1 h
            refine ⟨cs, Or.inr rfl, hcs, a1, by simpa using a2, ?_⟩
            simpa using a3
        · rintro ⟨body, h1 | h1, h2, h3, h4, h5⟩
          · have := h3 '-' (by rw [← h1]; exact List.mem_cons_self _ _)
            rw [hm] at this
            rcases this with h6 | h6
            · exact Bool.noConfusion h6
            · exact absurd h6 (by decide)
          · have hb : body = cs := (List.cons.inj h1).2.symm
            subst hb
            simp only [isNumber, if_true, h2, if_false]
            exact (isNumberLoop_iff body false false).2 ⟨h3, by simpa using h4, Or.inr h5⟩
      · constructor
        · intro h
          simp only [isNumber, hc, if_false] at h
          obtain ⟨a1, a2, a3⟩ := (isNumberLoop_iff (c :: cs) false false).1 h
          refine ⟨c :: cs, Or.inl rfl, List.cons_ne_nil _ _, a1, by simpa using a2, ?_⟩
          simpa using a3
        · rintro ⟨body, h1 | h1, h2, h3, h4, h5⟩
          · subst h1
            simp only [isNumber, hc, if_false]
            exact (isNumberLoop_iff (c :: cs) false false).2 ⟨h3, by simpa using h4, Or.inr h5⟩
          · exact absurd (List.cons.inj h1).1 hc
  · exact processToken_binary ops .SUBTRACT rfl left right rest

end PostfixToAST

namespace ASTNode

variable {V : Type}

/-- C26 fails at the Number node of value 15000000000 (the tree `convert` builds from the
token `15000000000`): its rendering is `1.5e+10`, which has a decimal point, and the
trailing `0` removed is a digit of the exponent, so `toString` returns `1.5e+1`, the text
of 15.  (`4.000` and `4.500` are trimmed to `4` and `4.5`, and a rendering without a
decimal point is returned unchanged.) -/
theorem toString_number_exponent :
    PostfixToAST.convertString exactOps "15000000000".toList =
      .ok (.number (.exact 15000000000)) ∧
    exactOps.render (.exact 15000000000) = "1.5e+10".toList ∧
    trimNumber "1.5e+10".toList = "1.5e+1".toList ∧
    toString exactOps (.number (.exact 15000000000)) = "1.5e+1".toList ∧
    trimNumber "4.000".toList = "4".toList ∧ trimNumber "4.500".toList = "4.5".toList ∧
    ∀ str : Str, '.' ∉ str → trimNumber str = str := by
  refine ⟨by decide!, by decide!, by decide, by decide!, by decide, by decide, ?_⟩
  intro str h
  simp [trimNumber, h]

/-- C27: a BinaryOp node evaluates its left child first and stops at the first failure: if
the left child fails with `e`, the node fails with `e` whatever the right child is, and if
the left child succeeds and the right child fails with `e`, the node fails with `e`.  The
tree Add(Variable x, Divide(1, 0)) under the empty binding fails with undefined variable
`x`, although its right child alone fails with division by zero. -/
theorem evaluate_left_first (ops : DoubleOps V) (varMap : VariableMap V)
    (op : OperatorType) (left : ASTNode V) :
    (∀ e, evaluate ops varMap left = .error e →
      ∀ right, evaluate ops varMap (.binaryOp op left right) = .error e) ∧
    (∀ leftVal e right, evaluate ops varMap left = .ok leftVal →
      evaluate ops varMap right = .error e →
      evaluate ops varMap (.binaryOp op left right) = .error e) ∧
    evaluate exactOps VariableMap.empty
      (.binaryOp .ADD (.variable ['x'])
        (.binaryOp .DIVIDE (.number (.exact 1)) (.number (.exact 0)))) =
      .error (.undefinedVariable ['x']) ∧
    evaluate exactOps VariableMap.empty
      (.binaryOp .DIVIDE (.number (.exact 1)) (.number (.exact 0))) =
      .error .divisionByZero := by
  refine ⟨?_, ?_, by decide!, by decide!⟩
  · intro e h right
    simp only [evaluate, h]
  · intro leftVal e right h1 h2
    simp only [evaluate, h1, h2]

end ASTNode

/-! ## Theorems: the trees the builder returns -/

namespace PostfixToAST

variable {V : Type}

open ASTNode

/-- The four ways in which `processToken` succeeds. -/
theorem processToken_ok_cases (ops : DoubleOps V) (tok : Str) (st st1 : List (ASTNode V))
    (h : processToken ops tok st = .ok st1) :
    (isVariable tok = false ∧ ∃ v, st1 = .number v :: st) ∨
    (isVariable tok = true ∧ st1 = .variable tok :: st) ∨
    (isVariable tok = false ∧ ∃ x rest, st = x :: rest ∧ st1 = .unaryOp .NEGATIVE x :: rest) ∨
    (isVariable tok = false ∧ ∃ op r l rest, op.isBinary = true ∧ st = r :: l :: rest ∧
      st1 = .binaryOp op l r :: rest) := by
  by_cases hn : isNumber tok = true
  · have hv : isVariable tok = false := by
      cases hv : isVariable tok with
      | false => rfl
      | true => rw [isVariable_not_number tok hv] at hn; exact Bool.noConfusion hn
    left
    refine ⟨hv, ?_⟩
    simp only [processToken, hn, if_true] at h
    cases hs : ops.stod tok with
    | none => simp [hs] at h
    | some v =>
      simp only [hs, Except.ok.injEq] at h
      exact ⟨v, h.symm⟩
  · by_cases hv : isVariable tok = true
    · right; left
      rw [processToken_variable ops tok st hv] at h
      exact ⟨hv, (Except.ok.inj h).symm⟩
    · have hv1 : isVariable tok = false := by simpa using hv
      have hn1 : isNumber tok = false := by simpa using hn
      by_cases ho : isOperator tok = true
      · rw [processToken_operator ops tok st ho] at h
        right; right
        rcases isOperator_cases tok ho with e | e | e | e | e | e
        rotate_right
        · left
          subst e
          cases st with
          | nil => simp [isUnaryOperator] at h
          | cons x rest =>
            simp [isUnaryOperator, stringToOperator] at h
            exact ⟨hv1, x, rest, rfl, h.symm⟩
        all_goals right
        all_goals subst e
        all_goals cases st with
          | nil => simp [isUnaryOperator] at h
          | cons r st2 =>
            cases st2 with
            | nil => simp [isUnaryOperator] at h
            | cons l rest =>
              simp [isUnaryOperator, stringToOperator] at h
              refine ⟨hv1, _, r, l, rest, ?_, rfl, h.symm⟩
              rfl
      · have ho1 : isOperator tok = false := by simpa using ho
        have hf : isFunction tok = false := by
          cases hf : isFunction tok with
          | false => rfl
          | true => rw [isFunction_variable tok hf] at hv1; exact Bool.noConfusion hv1
        simp [processToken, hn1, hv1, ho1, hf] at h

/-- Every step of the builder keeps the stack made of built trees. -/
theorem processTokens_built (ops : DoubleOps V) : ∀ (tokens : List Str)
    (st st1 : List (ASTNode V)), (∀ t ∈ st, isBuiltTree t = true) →
    processTokens ops tokens st = .ok st1 → ∀ t ∈ st1, isBuiltTree t = true := by
  intro tokens
  induction tokens with
  | nil =>
    intro st st1 hst h
    simp only [processTokens, Except.ok.injEq] at h
    rw [← h]
    exact hst
  | cons tok rest ih =>
    intro st st1 hst h
    simp only [processTokens] at h
    cases hp : processToken ops tok st with
    | error e => simp [hp] at h
    | ok st2 =>
      simp only [hp] at h
      refine ih st2 st1 ?_ h
      rcases processToken_ok_cases ops tok st st2 hp with
        ⟨-, v, e⟩ | ⟨hv, e⟩ | ⟨-, x, r, e1, e2⟩ | ⟨-, op, r, l, r1, hop, e1, e2⟩
      · subst e
        intro t ht
        rcases List.mem_cons.1 ht with h1 | h1
        · rw [h1]; rfl
        · exact hst t h1
      · subst e
        intro t ht
        rcases List.mem_cons.1 ht with h1 | h1
        · rw [h1]; exact hv
        · exact hst t h1
      · subst e1 e2
        intro t ht
        rcases List.mem_cons.1 ht with h1 | h1
        · rw [h1]
          simp [isBuiltTree, hst x (List.mem_cons_self _ _)]
        · exact hst t (List.mem_cons_of_mem _ h1)
      · subst e1 e2
        intro t ht
        rcases List.mem_cons.1 ht with h1 | h1
        · rw [h1]
          simp [isBuiltTree, hop, hst r (List.mem_cons_self _ _),
            hst l (List.mem_cons_of_mem _ (List.mem_cons_self _ _))]
        · exact hst t (List.mem_cons_of_mem _ (List.mem_cons_of_mem _ h1))

/-- The tree `convert` returns is a built tree. -/
theorem convert_built (ops : DoubleOps V) (tokens : List Str) (t : ASTNode V)
    (h : convert ops tokens = .ok t) : isBuiltTree t = true := by
  unfold convert at h
  cases hp : processTokens ops tokens [] with
  | error e => simp [hp] at h
  | ok st =>
    have hb := processTokens_built ops tokens [] st (by simp) hp
    match st, h, hp, hb with
    | [], h, hp, _ => simp [hp] at h
    | [root], h, hp, hb =>
      simp only [hp, Except.ok.injEq] at h
      rw [← h]
      exact hb root (List.mem_cons_self _ _)
    | _ :: _ :: _, h, hp, _ => simp [hp] at h

end PostfixToAST

namespace ASTNode

variable {V : Type}

open PostfixToAST

theorem built_wellFormedNodes : ∀ t : ASTNode V, isBuiltTree t = true →
    wellFormedNodes t = true
  | .number _, _ => rfl
  | .variable _, _ => rfl
  | .binaryOp op l r, h => by
    simp only [isBuiltTree, Bool.and_eq_true] at h
    simp only [wellFormedNodes, Bool.and_eq_true]
    exact ⟨⟨h.1.1, built_wellFormedNodes l h.1.2⟩, built_wellFormedNodes r h.2⟩
  | .unaryOp op x, h => by
    simp only [isBuiltTree, Bool.and_eq_true] at h
    simp only [wellFormedNodes, Bool.and_eq_true]
    exact ⟨h.1, built_wellFormedNodes x h.2⟩
  | .functionCall _ _, h => by simp [isBuiltTree] at h

theorem wellFormedNodes_no_functionCall : ∀ t : ASTNode V, wellFormedNodes t = true →
    hasFunctionCall t = false
  | .number _, _ => rfl
  | .variable _, _ => rfl
  | .binaryOp op l r, h => by
    simp only [wellFormedNodes, Bool.and_eq_true] at h
    simp only [hasFunctionCall, Bool.or_eq_false_iff]
    exact ⟨wellFormedNodes_no_functionCall l h.1.2, wellFormedNodes_no_functionCall r h.2⟩
  | .unaryOp op x, h => by
    simp only [wellFormedNodes, Bool.and_eq_true] at h
    simp only [hasFunctionCall]
    exact wellFormedNodes_no_functionCall x h.2
  | .functionCall _ _, h => by simp [wellFormedNodes] at h

/-- The switch of a binary operator fails with "Division by zero" only. -/
theorem applyBinary_error (ops : DoubleOps V) (op : OperatorType) (hop : op.isBinary = true)
    (a b : V) (e : EvalError) (h : applyBinary ops op a b = .error e) :
    e = .divisionByZero := by
  cases op <;> simp [OperatorType.isBinary] at hop <;> simp only [applyBinary] at h
  all_goals first
    | exact absurd h (by simp)
    | (by_cases hz : ops.isZero b = true
       · simp only [hz, if_true, Except.error.injEq] at h
         exact h.symm
       · simp [hz] at h)

/-- On a tree satisfying the node invariant, evaluation fails with "Undefined variable"
or "Division by zero" only. -/
theorem wellFormedNodes_evaluate_error (ops : DoubleOps V) (varMap : VariableMap V)
    (e : EvalError) : ∀ t : ASTNode V, wellFormedNodes t = true →
    evaluate ops varMap t = .error e → (∃ n, e = .undefinedVariable n) ∨ e = .divisionByZero
  | .number _, _, h => by simp [evaluate] at h
  | .variable n, _, h => by
    simp only [evaluate] at h
    cases hm : varMap n with
    | none =>
      simp only [hm, Except.error.injEq] at h
      exact Or.inl ⟨n, h.symm⟩
    | some v => simp [hm] at h
  | .binaryOp op l r, hw, h => by
    simp only [wellFormedNodes, Bool.and_eq_true] at hw
    simp only [evaluate] at h
    cases hl : evaluate ops varMap l with
    | error e1 =>
      simp only [hl, Except.error.injEq] at h
      subst h
      exact wellFormedNodes_evaluate_error ops varMap e1 l hw.1.2 hl
    | ok a =>
      simp only [hl] at h
      cases hr : evaluate ops varMap r with
      | error e1 =>
        simp only [hr, Except.error.injEq] at h
        subst h
        exact wellFormedNodes_evaluate_error ops varMap e1 r hw.2 hr
      | ok b =>
        simp only [hr] at h
        exact Or.inr (applyBinary_error ops op hw.1.1 a b e h)
  | .unaryOp op x, hw, h => by
    simp only [wellFormedNodes, Bool.and_eq_true, decide_eq_true_eq] at hw
    simp only [evaluate] at h
    cases hx : evaluate ops varMap x with
    | error e1 =>
      simp only [hx, Except.error.injEq] at h
      subst h
      exact wellFormedNodes_evaluate_error ops varMap e1 x hw.2 hx
    | ok a =>
      simp only [hx, hw.1, applyUnary] at h
      exact absurd h (by simp)
  | .functionCall _ _, hw, _ => by simp [wellFormedNodes] at hw

theorem mem_stripTrailingZeros (c : Char) (s : Str) (h : c ∈ stripTrailingZeros s) :
    c ∈ s := by
  unfold stripTrailingZeros at h
  rw [List.mem_reverse] at h
  exact List.mem_reverse.1 ((List.dropWhile_sublist _).subset h)

theorem mem_trimNumber (c : Char) (s : Str) (h : c ∈ trimNumber s) : c ∈ s := by
  unfold trimNumber at h
  by_cases hd : '.' ∈ s
  · simp only [hd, if_true] at h
    by_cases hl : (stripTrailingZeros s).getLast? = some '.'
    · simp only [hl, if_true] at h
      exact mem_stripTrailingZeros c s (List.mem_of_mem_dropLast h)
    · simp only [hl, if_false] at h
      exact mem_stripTrailingZeros c s h
  · simpa [hd] using h

theorem isVariable_no_placeholder (n : Str) (h : isVariable n = true) : '?' ∉ n := by
  intro hm
  cases n with
  | nil => simp at hm
  | cons c cs =>
    by_cases hc : (!isAlphaC c && c != '_') = true
    · simp [isVariable, hc] at h
    · simp only [isVariable, hc, Bool.false_eq_true, if_false, List.all_eq_true] at h
      have := h '?' hm
      exact absurd this (by decide)

theorem mem_wrap (c : Char) (b : Bool) (s : Str) (h : c ∈ wrap b s) :
    c = '(' ∨ c = ')' ∨ c ∈ s := by
  cases b with
  | false => exact Or.inr (Or.inr (by simpa [wrap] using h))
  | true =>
    simp only [wrap, if_true, List.mem_cons, List.mem_append, List.mem_singleton,
      List.not_mem_nil, or_false] at h
    rcases h with (h | h) | h
    · exact Or.inl h
    · exact Or.inr (Or.inr h)
    · exact Or.inr (Or.inl h)

/-- The text of a built tree has no `?`, unless a number is rendered with one. -/
theorem built_no_placeholder (ops : DoubleOps V) (hr : ∀ v, '?' ∉ ops.render v) :
    ∀ t : ASTNode V, isBuiltTree t = true → '?' ∉ toString ops t
  | .number v, _ => by
    intro h
    simp only [toString] at h
    exact hr v (mem_trimNumber _ _ h)
  | .variable n, hb => by
    simp only [toString]
    exact isVariable_no_placeholder n hb
  | .binaryOp op l r, hb => by
    simp only [isBuiltTree, Bool.and_eq_true] at hb
    have hl := built_no_placeholder ops hr l hb.1.2
    have hr1 := built_no_placeholder ops hr r hb.2
    have hop : '?' ∉ opToString op := by
      cases op <;> simp [OperatorType.isBinary] at hb <;> simp [opToString]
    intro h
    simp only [toString, List.mem_append, List.mem_singleton] at h
    rcases h with (((h | h) | h) | h) | h
    · rcases mem_wrap _ _ _ h with h1 | h1 | h1
      · exact absurd h1 (by decide)
      · exact absurd h1 (by decide)
      · exact hl h1
    · exact absurd h (by decide)
    · exact hop h
    · exact absurd h (by decide)
    · rcases mem_wrap _ _ _ h with h1 | h1 | h1
      · exact absurd h1 (by decide)
      · exact absurd h1 (by decide)
      · exact hr1 h1
  | .unaryOp op x, hb => by
    simp only [isBuiltTree, Bool.and_eq_true, decide_eq_true_eq] at hb
    have hx := built_no_placeholder ops hr x hb.2
    intro h
    simp only [toString, hb.1, if_true, List.mem_cons] at h
    rcases h with h | h
    · exact absurd h (by decide)
    · exact hx h
  | .functionCall _ _, hb => by simp [isBuiltTree] at hb

end ASTNode

namespace PostfixToAST

variable {V : Type}

open ASTNode

/-- C28: every tree returned by `convert` satisfies the node invariant (a BinaryOp node
has one of the operators Add, Subtract, Multiply, Divide, Power, a UnaryOp node has
Negative, the leaves are Number or Variable nodes).  On it `evaluate` never fails with
"Unknown binary operator" or "Unknown unary operator" (the embedding has no node of
another type), and `toString` emits no `?`, numbers being rendered without one. -/
theorem convert_wellFormedNodes (ops : DoubleOps V) (tokens : List Str) (t : ASTNode V)
    (h : convert ops tokens = .ok t) :
    wellFormedNodes t = true ∧
    (∀ varMap, evaluate ops varMap t ≠ .error .unknownBinaryOperator ∧
      evaluate ops varMap t ≠ .error .unknownUnaryOperator) ∧
    ((∀ v, '?' ∉ ops.render v) → '?' ∉ toString ops t) := by
  have hb := convert_built ops tokens t h
  have hw := built_wellFormedNodes t hb
  refine ⟨hw, ?_, fun hr => built_no_placeholder ops hr t hb⟩
  intro varMap
  constructor
  · intro he
    rcases wellFormedNodes_evaluate_error ops varMap _ t hw he with ⟨n, h1⟩ | h1
    · exact EvalError.noConfusion h1
    · exact EvalError.noConfusion h1
  · intro he
    rcases wellFormedNodes_evaluate_error ops varMap _ t hw he with ⟨n, h1⟩ | h1
    · exact EvalError.noConfusion h1
    · exact EvalError.noConfusion h1

/-- C28 at the tokens of `a 2 ^ b ~ /`: the tree Divide(Power(a, 2), Negative(b)) is
returned, it satisfies the invariant and its text `a ^ 2 / -b` has no `?`. -/
theorem convert_wellFormedNodes_witness :
    convert exactOps (tokenize "a 2 ^ b ~ /".toList) =
      .ok (.binaryOp .DIVIDE (.binaryOp .POWER (.variable ['a']) (.number (.exact 2)))
        (.unaryOp .NEGATIVE (.variable ['b']))) ∧
    toString exactOps (.binaryOp .DIVIDE
      (.binaryOp .POWER (.variable ['a']) (.number (.exact 2)))
      (.unaryOp .NEGATIVE (.variable ['b']))) = "a ^ 2 / -b".toList ∧
    (wellFormedNodes (.binaryOp .DIVIDE
        (.binaryOp .POWER (.variable ['a']) (.number (.exact 2)))
        (.unaryOp .NEGATIVE (.variable ['b'])) : ASTNode XDouble) = true ∧
      (∀ varMap, evaluate exactOps varMap (.binaryOp .DIVIDE
          (.binaryOp .POWER (.variable ['a']) (.number (.exact 2)))
          (.unaryOp .NEGATIVE (.variable ['b']))) ≠ .error .unknownBinaryOperator ∧
        evaluate exactOps varMap (.binaryOp .DIVIDE
          (.binaryOp .POWER (.variable ['a']) (.number (.exact 2)))
          (.unaryOp .NEGATIVE (.variable ['b']))) ≠ .error .unknownUnaryOperator) ∧
      ((∀ v, '?' ∉ exactOps.render v) → '?' ∉ toString exactOps (.binaryOp .DIVIDE
          (.binaryOp .POWER (.variable ['a']) (.number (.exact 2)))
          (.unaryOp .NEGATIVE (.variable ['b']))))) :=
  ⟨by decide!, by decide!,
   convert_wellFormedNodes exactOps (tokenize "a 2 ^ b ~ /".toList) _ (by decide!)⟩

/-- C29: a tree returned by `convert` contains no FunctionCall node: every name of
`validFunctions` is variable-shaped and `processToken`, testing `isVariable` before
`isFunction`, pushes a Variable leaf of that name; so evaluating the tree fails with
"Undefined variable" or "Division by zero" only. -/
theorem convert_no_functionCall (ops : DoubleOps V) (tokens : List Str) (t : ASTNode V)
    (h : convert ops tokens = .ok t) :
    hasFunctionCall t = false ∧
    (∀ f ∈ validFunctions, isVariable f = true ∧
      ∀ stack : List (ASTNode V), processToken ops f stack = .ok (.variable f :: stack)) ∧
    ∀ varMap e, evaluate ops varMap t = .error e →
      (∃ n, e = .undefinedVariable n) ∨ e = .divisionByZero := by
  have hw := built_wellFormedNodes t (convert_built ops tokens t h)
  refine ⟨wellFormedNodes_no_functionCall t hw, ?_, ?_⟩
  · intro f hf
    have hv := validFunctions_variable f hf
    exact ⟨hv, fun stack => processToken_variable ops f stack hv⟩
  · intro varMap e he
    exact wellFormedNodes_evaluate_error ops varMap e t hw he

/-- C29 at the tokens of `x sqrt /`: the token `sqrt` becomes a Variable leaf, the tree
Divide(x, sqrt) has no FunctionCall node, and under x = 1 alone its evaluation fails with
undefined variable `sqrt`. -/
theorem convert_no_functionCall_witness :
    convert exactOps (tokenize "x sqrt /".toList) =
      .ok (.binaryOp .DIVIDE (.variable ['x']) (.variable "sqrt".toList)) ∧
    evaluatePairs exactOps [(['x'], XDouble.exact 1)]
      (.binaryOp .DIVIDE (.variable ['x']) (.variable "sqrt".toList)) =
      .error (.undefinedVariable "sqrt".toList) ∧
    (hasFunctionCall (.binaryOp .DIVIDE (.variable ['x'])
        (.variable "sqrt".toList) : ASTNode XDouble) = false ∧
      (∀ f ∈ validFunctions, isVariable f = true ∧
        ∀ stack : List (ASTNode XDouble),
          processToken exactOps f stack = .ok (.variable f :: stack)) ∧
      ∀ varMap e, evaluate exactOps varMap
          (.binaryOp .DIVIDE (.variable ['x']) (.variable "sqrt".toList)) = .error e →
        (∃ n, e = .undefinedVariable n) ∨ e = .divisionByZero) :=
  ⟨by decide!, by decide!,
   convert_no_functionCall exactOps (tokenize "x sqrt /".toList) _ (by decide!)⟩

end PostfixToAST

namespace ASTNode

variable {V : Type}

mutual
/-- The names appended for a tree do not depend on the names collected before. -/
theorem collectVariablesRecursive_append : ∀ (t : ASTNode V) (vars : List Str),
    collectVariablesRecursive t vars = vars ++ collectVariablesRecursive t []
  | .number _, vars => by simp [collectVariablesRecursive]
  | .variable n, vars => by simp [collectVariablesRecursive]
  | .unaryOp _ operand, vars => by
    simp only [collectVariablesRecursive]
    exact collectVariablesRecursive_append operand vars
  | .binaryOp _ left right, vars => by
    simp only [collectVariablesRecursive]
    rw [collectVariablesRecursive_append right (collectVariablesRecursive left vars),
      collectVariablesRecursive_append left vars,
      collectVariablesRecursive_append right (collectVariablesRecursive left []),
      List.append_assoc]
  | .functionCall _ arguments, vars => by
    simp only [collectVariablesRecursive]
    exact collectVariablesArgs_append arguments vars
theorem collectVariablesArgs_append : ∀ (args : List (ASTNode V)) (vars : List Str),
    collectVariablesArgs args vars = vars ++ collectVariablesArgs args []
  | [], vars => by simp [collectVariablesArgs]
  | arg :: rest, vars => by
    simp only [collectVariablesArgs]
    rw [collectVariablesArgs_append rest (collectVariablesRecursive arg vars),
      collectVariablesRecursive_append arg vars,
      collectVariablesArgs_append rest (collectVariablesRecursive arg []),
      List.append_assoc]
end

end ASTNode

namespace PostfixToAST

variable {V : Type}

open ASTNode

/-- The names in the trees of the stack, bottom first, are the names there before followed
by the variable-shaped tokens processed, in their order. -/
theorem processTokens_stackVariables (ops : DoubleOps V) : ∀ (tokens : List Str)
    (st st1 : List (ASTNode V)), processTokens ops tokens st = .ok st1 →
    stackVariables st1 = stackVariables st ++ tokens.filter isVariable := by
  intro tokens
  induction tokens with
  | nil =>
    intro st st1 h
    simp only [processTokens, Except.ok.injEq] at h
    simp [h]
  | cons tok rest ih =>
    intro st st1 h
    simp only [processTokens] at h
    cases hp : processToken ops tok st with
    | error e => simp [hp] at h
    | ok st2 =>
      simp only [hp] at h
      rw [ih st2 st1 h]
      rcases processToken_ok_cases ops tok st st2 hp with
        ⟨hv, v, e⟩ | ⟨hv, e⟩ | ⟨hv, x, r, e1, e2⟩ | ⟨hv, op, r, l, r1, hop, e1, e2⟩
      · subst e
        simp [stackVariables, collectVariablesRecursive, List.filter_cons, hv]
      · subst e
        simp [stackVariables, collectVariablesRecursive, List.filter_cons, hv]
      · subst e1 e2
        simp [stackVariables, collectVariablesRecursive, List.filter_cons, hv]
      · subst e1 e2
        simp only [stackVariables, collectVariablesRecursive, List.filter_cons, hv,
          Bool.false_eq_true, if_false, List.append_assoc]
        rw [collectVariablesRecursive_append r (collectVariablesRecursive l []),
          List.append_assoc]

/-- C30: when `convert` succeeds on a token list, scanning the tokens and traversing the
tree agree: `extractVariables(tokens)` and `convert(tokens)->collectVariables()` are the
same list. -/
theorem extractVariables_eq_collectVariables (ops : DoubleOps V) (tokens : List Str)
    (t : ASTNode V) (h : convert ops tokens = .ok t) :
    extractVariables tokens = collectVariables t := by
  unfold convert at h
  cases hp : processTokens ops tokens [] with
  | error e => simp [hp] at h
  | ok st =>
    have hs := processTokens_stackVariables ops tokens [] st hp
    match st, h, hp, hs with
    | [], h, hp, _ => simp [hp] at h
    | [root], h, hp, hs =>
      simp only [hp, Except.ok.injEq] at h
      subst h
      simp only [stackVariables, List.nil_append] at hs
      rw [extractVariables, collectVariables, hs]
    | _ :: _ :: _, h, hp, _ => simp [hp] at h

/-- C30 at the tokens of `b a + b *`: the tree is Multiply(Add(b, a), b), and both the
scan of the tokens and the traversal of the tree give the list a, b. -/
theorem extractVariables_eq_collectVariables_witness :
    convert exactOps (tokenize "b a + b *".toList) =
      .ok (.binaryOp .MULTIPLY (.binaryOp .ADD (.variable ['b']) (.variable ['a']))
        (.variable ['b'])) ∧
    extractVariables (tokenize "b a + b *".toList) = [['a'], ['b']] ∧
    extractVariables (tokenize "b a + b *".toList) =
      collectVariables (.binaryOp .MULTIPLY
        (.binaryOp .ADD (.variable ['b']) (.variable ['a'])) (.variable ['b']) :
        ASTNode XDouble) :=
  ⟨by decide!, by decide,
   extractVariables_eq_collectVariables exactOps (tokenize "b a + b *".toList) _
     (by decide!)⟩

end PostfixToAST

/-! ## Theorems: the variables evaluation reads -/

namespace ASTNode

variable {V : Type}

mutual
/-- The presence check finds a variable exactly when the tree has a Variable node. -/
theorem hasVariablesRecursive_iff : ∀ t : ASTNode V,
    hasVariablesRecursive t = true ↔ ∃ n, HasVariable n t
  | .number _ => by simp [hasVariablesRecursive, HasVariable]
  | .variable name => by simp [hasVariablesRecursive, HasVariable]
  | .unaryOp _ operand => by
    simp only [hasVariablesRecursive, HasVariable]
    exact hasVariablesRecursive_iff operand
  | .binaryOp _ left right => by
    simp only [hasVariablesRecursive, HasVariable, Bool.or_eq_true, exists_or,
      hasVariablesRecursive_iff left, hasVariablesRecursive_iff right]
  | .functionCall _ arguments => by
    simp only [hasVariablesRecursive, HasVariable]
    exact hasVariablesArgs_iff arguments
theorem hasVariablesArgs_iff : ∀ args : List (ASTNode V),
    hasVariablesArgs args = true ↔ ∃ n, HasVariableArgs n args
  | [] => by simp [hasVariablesArgs, HasVariableArgs]
  | arg :: rest => by
    simp only [hasVariablesArgs, HasVariableArgs, exists_or,
      ← hasVariablesRecursive_iff arg, ← hasVariablesArgs_iff rest]
    cases hasVariablesRecursive arg <;> simp
end

mutual
/-- Two bindings that agree on the names of the Variable nodes of a tree give the same
result. -/
theorem evaluate_agree (ops : DoubleOps V) (m1 m2 : VariableMap V) :
    ∀ t : ASTNode V, (∀ n, HasVariable n t → m1 n = m2 n) →
      evaluate ops m1 t = evaluate ops m2 t
  | .number _, _ => by simp [evaluate]
  | .variable name, h => by
    simp only [evaluate, h name rfl]
  | .unaryOp _ operand, h => by
    simp only [evaluate, evaluate_agree ops m1 m2 operand h]
  | .binaryOp _ left right, h => by
    simp only [evaluate,
      evaluate_agree ops m1 m2 left (fun n hn => h n (Or.inl hn)),
      evaluate_agree ops m1 m2 right (fun n hn => h n (Or.inr hn))]
  | .functionCall _ arguments, h => by
    simp only [evaluate, evaluateArgs_agree ops m1 m2 arguments h]
theorem evaluateArgs_agree (ops : DoubleOps V) (m1 m2 : VariableMap V) :
    ∀ args : List (ASTNode V), (∀ n, HasVariableArgs n args → m1 n = m2 n) →
      evaluateArgs ops m1 args = evaluateArgs ops m2 args
  | [], _ => by simp [evaluateArgs]
  | arg :: rest, h => by
    simp only [evaluateArgs,
      evaluate_agree ops m1 m2 arg (fun n hn => h n (Or.inl hn)),
      evaluateArgs_agree ops m1 m2 rest (fun n hn => h n (Or.inr hn))]
end

/-- C31: evaluation reads the binding only at the tree's variables: for every tree `t` and
any two bindings that agree on every name in `t.collectVariables()`, `evaluate` returns
the same value or fails with the same error under both; and when `t.hasVariables()` is
false the result is the same under all bindings. -/
theorem evaluate_reads_collectVariables (ops : DoubleOps V) (m1 m2 : VariableMap V)
    (t : ASTNode V) (h : ∀ n ∈ collectVariables t, m1 n = m2 n) :
    evaluate ops m1 t = evaluate ops m2 t ∧
    (hasVariables t = false → ∀ m3 m4 : VariableMap V,
      evaluate ops m3 t = evaluate ops m4 t) := by
  refine ⟨evaluate_agree ops m1 m2 t (fun n hn => h n ((collectVariables_mem t n).2 hn)), ?_⟩
  intro hv m3 m4
  apply evaluate_agree ops m3 m4 t
  intro n hn
  have : hasVariablesRecursive t = true := (hasVariablesRecursive_iff t).2 ⟨n, hn⟩
  rw [hasVariables] at hv
  rw [hv] at this
  exact Bool.noConfusion this

/-- C31 at the tree of `a 1 +` under the bindings a = 2, b = 5 and a = 2, b = 7, which
agree on its only variable `a`: both give 3; under bindings that differ at `a` the results
differ (3 and 5).  The tree of `2 3 *` has no variable. -/
theorem evaluate_reads_collectVariables_witness :
    collectVariables (.binaryOp .ADD (.variable ['a']) (.number (.exact 1)) :
      ASTNode XDouble) = [['a']] ∧
    hasVariables (.binaryOp .MULTIPLY (.number (.exact 2)) (.number (.exact 3)) :
      ASTNode XDouble) = false ∧
    evaluate exactOps ((VariableMap.empty.assign ['a'] (.exact 2)).assign ['b'] (.exact 5))
      (.binaryOp .ADD (.variable ['a']) (.number (.exact 1))) = .ok (.exact 3) ∧
    evaluate exactOps ((VariableMap.empty.assign ['a'] (.exact 4)).assign ['b'] (.exact 5))
      (.binaryOp .ADD (.variable ['a']) (.number (.exact 1))) = .ok (.exact 5) ∧
    (evaluate exactOps ((VariableMap.empty.assign ['a'] (.exact 2)).assign ['b'] (.exact 5))
        (.binaryOp .ADD (.variable ['a']) (.number (.exact 1))) =
      evaluate exactOps ((VariableMap.empty.assign ['a'] (.exact 2)).assign ['b'] (.exact 7))
        (.binaryOp .ADD (.variable ['a']) (.number (.exact 1))) ∧
      (hasVariables (.binaryOp .ADD (.variable ['a']) (.number (.exact 1)) :
          ASTNode XDouble) = false → ∀ m3 m4 : VariableMap XDouble,
        evaluate exactOps m3 (.binaryOp .ADD (.variable ['a']) (.number (.exact 1))) =
          evaluate exactOps m4 (.binaryOp .ADD (.variable ['a']) (.number (.exact 1))))) := by
  refine ⟨by decide, by decide, by decide!, by decide!,
    evaluate_reads_collectVariables exactOps _ _ _ ?_⟩
  intro n hn
  have hc : collectVariables (.binaryOp .ADD (.variable ['a']) (.number (.exact 1)) :
      ASTNode XDouble) = [['a']] := by decide
  rw [hc, List.mem_singleton] at hn
  subst hn
  rfl

/-- C32: the short-circuiting presence check and the full collection agree: for every
tree `t`, `t.hasVariables()` is true exactly when `t.collectVariables()` is not empty. -/
theorem hasVariables_iff_collectVariables (t : ASTNode V) :
    hasVariables t = true ↔ collectVariables t ≠ [] := by
  rw [hasVariables, hasVariablesRecursive_iff]
  constructor
  · rintro ⟨n, hn⟩ he
    have := (collectVariables_mem t n).2 hn
    rw [he] at this
    exact List.not_mem_nil _ this
  · intro hne
    obtain ⟨n, hn⟩ := List.exists_mem_of_ne_nil _ hne
    exact ⟨n, (collectVariables_mem t n).1 hn⟩

end ASTNode
